import Mathlib

/-!
Shallow embedding of the intrusive doubly-linked list from
`src/intrusive_list.h`.

Nodes (`list_element` objects) are identified by their addresses, modelled
as natural numbers.  The program state is a `Heap`: the `next` and `prev`
pointer fields of every node.  Each C++ pointer assignment becomes one
field update, performed in the same order as in the source, with every
pointer read taken from the heap current at that statement, so that
aliasing behaves exactly as in the C++ code.

A `list` object is represented by the address of its sentinel node
(the `pointer` member).  Iterators are node addresses.
-/

namespace Intrusive

/-- Heap of link nodes: the `next` and `prev` fields of every address. -/
structure Heap where
  next : Nat → Nat
  prev : Nat → Nat

/-- Pointwise function update, one pointer-field store. -/
def upd (f : Nat → Nat) (a v : Nat) : Nat → Nat :=
  fun x => if x = a then v else f x

/-- Store into the `next` field of node `a`. -/
def setNext (h : Heap) (a v : Nat) : Heap :=
  ⟨upd h.next a v, h.prev⟩

/-- Store into the `prev` field of node `a`. -/
def setPrev (h : Heap) (a v : Nat) : Heap :=
  ⟨h.next, upd h.prev a v⟩

/-- The constructor `list_element()`: `prev = next = this`
(the `next` store happens first). -/
def elemInit (h : Heap) (t : Nat) : Heap :=
  setPrev (setNext h t t) t t

/-- The member function `list_element::link(prev, next)`:
`this->next = next; this->prev = prev; next->prev = this; prev->next = this`. -/
def link (h : Heap) (t p n : Nat) : Heap :=
  let h1 := setNext h t n
  let h2 := setPrev h1 t p
  let h3 := setPrev h2 n t
  let h4 := setNext h3 p t
  h4

/-- The member function `list_element::unlink()`:
`this->next->prev = prev; this->prev->next = next; this->prev = this->next = this`.
Every pointer on the right-hand side is read from the heap current at that
statement. -/
def unlink (h : Heap) (t : Nat) : Heap :=
  let h1 := setPrev h (h.next t) (h.prev t)
  let h2 := setNext h1 (h1.prev t) (h1.next t)
  let h3 := setPrev (setNext h2 t t) t t
  h3

/-- The constructor `list()`: `pointer.prev = pointer.next = &pointer`,
with `s` the address of the sentinel member `pointer`. -/
def listInit (h : Heap) (s : Nat) : Heap :=
  setPrev (setNext h s s) s s

/-- The member function `list::clear()`:
`pointer.prev = pointer.next = &pointer`. -/
def clear (h : Heap) (s : Nat) : Heap :=
  setPrev (setNext h s s) s s

/-- The member function `list::push_back(elem)`:
`elem.link(pointer.prev, &pointer)`, arguments read before the call. -/
def push_back (h : Heap) (s e : Nat) : Heap :=
  link h e (h.prev s) s

/-- The member function `list::pop_back()`: `pointer.prev->unlink()`. -/
def pop_back (h : Heap) (s : Nat) : Heap :=
  unlink h (h.prev s)

/-- The member function `list::back()`: the node `pointer.prev`. -/
def back (h : Heap) (s : Nat) : Nat :=
  h.prev s

/-- The member function `list::push_front(elem)`:
`elem.link(&pointer, pointer.next)`. -/
def push_front (h : Heap) (s e : Nat) : Heap :=
  link h e s (h.next s)

/-- The member function `list::pop_front()`: `pointer.next->unlink()`. -/
def pop_front (h : Heap) (s : Nat) : Heap :=
  unlink h (h.next s)

/-- The member function `list::front()`: the node `pointer.next`. -/
def front (h : Heap) (s : Nat) : Nat :=
  h.next s

/-- The member function `list::empty()`: `pointer.prev == &pointer`. -/
def emptyB (h : Heap) (s : Nat) : Bool :=
  h.prev s == s

/-- The member function `list::begin()`: iterator at `pointer.next`. -/
def beginIt (h : Heap) (s : Nat) : Nat :=
  h.next s

/-- The member function `list::end()`: iterator at the sentinel itself. -/
def endIt (s : Nat) : Nat :=
  s

/-- The member function `list::insert(pos, elem)`:
`elem.link(pos.iter->prev, pos.iter); return iterator(&elem)`.
Returns the new heap and the returned iterator. -/
def insert (h : Heap) (pos e : Nat) : Heap × Nat :=
  (link h e (h.prev pos) pos, e)

/-- The member function `list::erase(pos)`:
`(++pos).iter->prev->unlink(); return iterator(pos)`.
The increment happens first, then the victim `pos.iter->prev` is read,
then unlinked; the incremented iterator is returned. -/
def erase (h : Heap) (pos : Nat) : Heap × Nat :=
  let nxt := h.next pos
  (unlink h (h.prev nxt), nxt)

/-- The member function `list::splice(pos, other, first, last)`.
The second parameter (the source list) is unnamed and unused in the
source; it is kept here to mirror the signature.  The seven statements
of the body are performed in source order, each pointer read taken from
the heap current at that statement. -/
def splice (h : Heap) (pos : Nat) (srcList : Nat) (first lst : Nat) : Heap :=
  if first = lst then h
  else
    let h1 := setNext h (h.prev first) lst
    let swapLast := h1.prev lst
    let h2 := setPrev h1 lst (h1.prev first)
    let h3 := setNext h2 (h2.prev pos) first
    let h4 := setPrev h3 first (h3.prev pos)
    let h5 := setNext h4 swapLast pos
    let h6 := setPrev h5 pos swapLast
    h6

/-- The member function `list::operator=(list&& other)` with destination
sentinel `d` and source sentinel `s`:
`clear(); if (!other.empty()) pointer.link(other.pointer.prev, other.pointer.next); other.clear()`. -/
def moveAssign (h : Heap) (d s : Nat) : Heap :=
  let h1 := clear h d
  let h2 := if h1.prev s = s then h1 else link h1 d (h1.prev s) (h1.next s)
  clear h2 s

/-- The move constructor `list(list&& other)`: the sentinel member is
default-constructed (self-referencing) and then `operator=(std::move(other))`
runs. -/
def moveConstruct (h : Heap) (d s : Nat) : Heap :=
  moveAssign (elemInit h d) d s

/-- Iterator traversal: repeatedly follow `next` from `cur`, collecting
nodes until the node `stop` is reached (or fuel runs out). -/
def iterFrom (h : Heap) (stop : Nat) : Nat → Nat → List Nat
  | 0, _ => []
  | fuel + 1, cur => if cur = stop then [] else cur :: iterFrom h stop fuel (h.next cur)

end Intrusive

namespace Intrusive

/-!
Ghost state: a configuration records, besides the heap, the inventory of
lists (sentinel address and, in order, the element addresses of its ring).
Well-formedness says every ring is a consistent circular chain and all
nodes of all rings are pairwise distinct.
-/

/-- Ghost description of one list: its sentinel and its elements in order. -/
abbrev LState := Nat × List Nat

/-- All nodes of a ring: the sentinel followed by the elements. -/
def nodesOf (l : LState) : List Nat :=
  l.1 :: l.2

/-- Configuration: the heap plus the ghost inventory of lists. -/
structure Config where
  heap : Heap
  lists : List LState

/-- All nodes of all rings of a configuration. -/
def allNodes (cfg : Config) : List Nat :=
  (cfg.lists.map nodesOf).flatten

/-- The chain predicate: starting at `a`, the `next` pointers run through
`xs` and end at `b`, with matching `prev` back-pointers at every step. -/
def chainB (h : Heap) : Nat → List Nat → Nat → Bool
  | a, [], b => h.next a == b && h.prev b == a
  | a, x :: xs, b => h.next a == x && h.prev x == a && chainB h x xs b

/-- Interior links of a segment `a :: xs` only (no closing link). -/
def chainMid (h : Heap) : Nat → List Nat → Bool
  | _, [] => true
  | a, x :: xs => h.next a == x && h.prev x == a && chainMid h x xs

/-- Trailing segment: `chainSeg h v b` holds the chain links of `v`
ending at `b`, with no link from anything before `v`. -/
def chainSeg (h : Heap) (v : List Nat) (b : Nat) : Bool :=
  match v with
  | [] => true
  | y :: ys => chainB h y ys b

/-- A ring is well formed when the chain from its sentinel through its
elements closes back at the sentinel. -/
def listWFb (h : Heap) (l : LState) : Bool :=
  chainB h l.1 l.2 l.1

/-- Well-formedness of a configuration: every ring is consistent and the
nodes of all rings are pairwise distinct. -/
def WFb (cfg : Config) : Bool :=
  cfg.lists.all (listWFb cfg.heap) && decide (allNodes cfg).Nodup

/-- Node at position `k` of a list: the k-th element, or the sentinel
when `k` is past the end (the `end()` position). -/
def nodeAt (l : LState) (k : Nat) : Nat :=
  l.2.getD k l.1

/-- Ghost getter with a dummy default. -/
def getL (cfg : Config) (i : Nat) : LState :=
  cfg.lists.getD i (0, [])

/-- The operations of the list interface, acting on a configuration.
Lists are named by their index in the inventory; positions by their
index in the ring (`k` equal to the length of the element list is the
`end()` position); new elements and sentinels by their address. -/
inductive Op where
  | construct (s : Nat)
  | clearOp (i : Nat)
  | pushBack (i e : Nat)
  | pushFront (i e : Nat)
  | popBack (i : Nat)
  | popFront (i : Nat)
  | insertOp (i k e : Nat)
  | eraseOp (i k : Nat)
  | spliceOp (i k j f l : Nat)
  | moveAssignOp (i j : Nat)

/-- Validity of one operation: the preconditions stated in the spec
(existing list indices, in-range positions, non-empty list for pops,
fresh nodes for insertions, well-formed range for splice, and for a
same-list splice a destination outside the moved range). -/
def validOpB (cfg : Config) : Op → Bool
  | .construct s => !((allNodes cfg).contains s)
  | .clearOp i => decide (i < cfg.lists.length)
  | .pushBack i e =>
      decide (i < cfg.lists.length) && !((allNodes cfg).contains e)
  | .pushFront i e =>
      decide (i < cfg.lists.length) && !((allNodes cfg).contains e)
  | .popBack i =>
      decide (i < cfg.lists.length) && !((getL cfg i).2.isEmpty)
  | .popFront i =>
      decide (i < cfg.lists.length) && !((getL cfg i).2.isEmpty)
  | .insertOp i k e =>
      decide (i < cfg.lists.length) && decide (k ≤ (getL cfg i).2.length) &&
        !((allNodes cfg).contains e)
  | .eraseOp i k =>
      decide (i < cfg.lists.length) && decide (k < (getL cfg i).2.length)
  | .spliceOp i k j f l =>
      decide (i < cfg.lists.length) && decide (j < cfg.lists.length) &&
        decide (k ≤ (getL cfg i).2.length) && decide (f ≤ l) &&
        decide (l ≤ (getL cfg j).2.length) &&
        (decide (i ≠ j) || decide (k < f) || decide (l ≤ k) || decide (f = l))
  | .moveAssignOp i j =>
      decide (i < cfg.lists.length) && decide (j < cfg.lists.length)

/-- Ghost result of a same-list splice: the moved block
`(xs.take l).drop f` re-inserted before position `k`. -/
def selfSpliceGhost (xs : List Nat) (k f l : Nat) : List Nat :=
  if k < f then
    xs.take k ++ (xs.take l).drop f ++ (xs.take f).drop k ++ xs.drop l
  else
    xs.take f ++ (xs.take k).drop l ++ (xs.take l).drop f ++ xs.drop k

/-- Execution of one operation: the heap is transformed exactly as the
corresponding member function does, and the ghost inventory is updated
to the intended new contents. -/
def execOp (cfg : Config) : Op → Config
  | .construct s =>
      ⟨listInit cfg.heap s, cfg.lists ++ [(s, [])]⟩
  | .clearOp i =>
      let l := getL cfg i
      ⟨clear cfg.heap l.1, cfg.lists.set i (l.1, [])⟩
  | .pushBack i e =>
      let l := getL cfg i
      ⟨push_back cfg.heap l.1 e, cfg.lists.set i (l.1, l.2 ++ [e])⟩
  | .pushFront i e =>
      let l := getL cfg i
      ⟨push_front cfg.heap l.1 e, cfg.lists.set i (l.1, e :: l.2)⟩
  | .popBack i =>
      let l := getL cfg i
      ⟨pop_back cfg.heap l.1, cfg.lists.set i (l.1, l.2.dropLast)⟩
  | .popFront i =>
      let l := getL cfg i
      ⟨pop_front cfg.heap l.1, cfg.lists.set i (l.1, l.2.tail)⟩
  | .insertOp i k e =>
      let l := getL cfg i
      ⟨(insert cfg.heap (nodeAt l k) e).1,
        cfg.lists.set i (l.1, l.2.take k ++ e :: l.2.drop k)⟩
  | .eraseOp i k =>
      let l := getL cfg i
      ⟨(erase cfg.heap (nodeAt l k)).1,
        cfg.lists.set i (l.1, l.2.take k ++ l.2.drop (k + 1))⟩
  | .spliceOp i k j f l =>
      let li := getL cfg i
      let lj := getL cfg j
      let h' := splice cfg.heap (nodeAt li k) lj.1 (nodeAt lj f) (nodeAt lj l)
      if i = j then
        ⟨h', cfg.lists.set i (li.1, selfSpliceGhost li.2 k f l)⟩
      else
        ⟨h', (cfg.lists.set j (lj.1, lj.2.take f ++ lj.2.drop l)).set i
               (li.1, li.2.take k ++ (lj.2.take l).drop f ++ li.2.drop k)⟩
  | .moveAssignOp i j =>
      let li := getL cfg i
      let lj := getL cfg j
      let h' := moveAssign cfg.heap li.1 lj.1
      if i = j then
        ⟨h', cfg.lists.set i (li.1, [])⟩
      else
        ⟨h', (cfg.lists.set i (li.1, lj.2)).set j (lj.1, [])⟩

/-- Execution of a sequence of operations. -/
def execSeq (cfg : Config) : List Op → Config
  | [] => cfg
  | op :: ops => execSeq (execOp cfg op) ops

/-- Validity of a sequence of operations, each checked in the state
produced by its predecessors. -/
def validSeqB (cfg : Config) : List Op → Bool
  | [] => true
  | op :: ops => validOpB cfg op && validSeqB (execOp cfg op) ops

/-- The ring-consistency statement of the spec, as a Boolean check:
for every node of every ring, `next`'s `prev` and `prev`'s `next` come
back to the node, and each ring contains exactly one sentinel. -/
def ringInvariantB (cfg : Config) : Bool :=
  cfg.lists.all (fun l =>
    (nodesOf l).all (fun n =>
      (cfg.heap.prev (cfg.heap.next n) == n) &&
      (cfg.heap.next (cfg.heap.prev n) == n)) &&
    ((nodesOf l).filter (fun n => (cfg.lists.map Prod.fst).contains n)).length == 1)

/-!  Basic lemmas about pointer stores. -/

theorem upd_same (f : Nat → Nat) (a v : Nat) : upd f a v a = v := by
  simp [upd]

theorem upd_other (f : Nat → Nat) {a x : Nat} (v : Nat) (hx : x ≠ a) :
    upd f a v x = f x := by
  simp [upd, hx]

theorem upd_self (f : Nat → Nat) (a : Nat) : upd f a (f a) = f := by
  funext x
  by_cases hx : x = a <;> simp [upd, hx]

theorem upd_shadow (f : Nat → Nat) (a v w : Nat) :
    upd (upd f a v) a w = upd f a w := by
  funext x
  by_cases hx : x = a <;> simp [upd, hx]

/-!  Chain API. -/

@[simp] theorem chainB_nil (h : Heap) (a b : Nat) :
    chainB h a [] b = (h.next a == b && h.prev b == a) := rfl

@[simp] theorem chainB_cons (h : Heap) (a x b : Nat) (xs : List Nat) :
    chainB h a (x :: xs) b = (h.next a == x && h.prev x == a && chainB h x xs b) := rfl

@[simp] theorem chainMid_nil (h : Heap) (a : Nat) : chainMid h a [] = true := rfl

@[simp] theorem chainMid_cons (h : Heap) (a x : Nat) (xs : List Nat) :
    chainMid h a (x :: xs) = (h.next a == x && h.prev x == a && chainMid h x xs) := rfl

@[simp] theorem chainSeg_nil (h : Heap) (b : Nat) : chainSeg h [] b = true := rfl

@[simp] theorem chainSeg_cons (h : Heap) (y b : Nat) (ys : List Nat) :
    chainSeg h (y :: ys) b = chainB h y ys b := rfl

/-- Splitting a chain at an explicit interior node. -/
theorem chain_split (h : Heap) (y b : Nat) (ys : List Nat) :
    ∀ (u : List Nat) (a : Nat),
      chainB h a (u ++ y :: ys) b = true ↔
        (chainB h a u y = true ∧ chainB h y ys b = true) := by
  intro u
  induction u with
  | nil => intro a; simp [Bool.and_eq_true, beq_iff_eq, and_assoc]
  | cons x u ih =>
      intro a
      simp only [List.cons_append, chainB_cons, Bool.and_eq_true, beq_iff_eq, ih, and_assoc]

/-- Splitting a chain at an arbitrary concatenation point. -/
theorem chain_cut (h : Heap) (b : Nat) (u v : List Nat) (a : Nat) :
    chainB h a (u ++ v) b = true ↔
      (chainB h a u (v.headD b) = true ∧ chainSeg h v b = true) := by
  cases v with
  | nil => simp
  | cons y ys => simpa using chain_split h y b ys u a

/-- A chain is its interior links plus the closing link at the far end. -/
theorem chain_eq_mid (h : Heap) (b : Nat) :
    ∀ (xs : List Nat) (a : Nat),
      chainB h a xs b = true ↔
        (chainMid h a xs = true ∧
          h.next (xs.getLastD a) = b ∧ h.prev b = xs.getLastD a) := by
  intro xs
  induction xs with
  | nil => intro a; simp [Bool.and_eq_true, beq_iff_eq, and_comm]
  | cons x xs ih =>
      intro a
      simp only [chainB_cons, chainMid_cons, Bool.and_eq_true, beq_iff_eq, ih,
        List.getLastD_cons, and_assoc]

theorem chain_last {h : Heap} {a b : Nat} {xs : List Nat}
    (hc : chainB h a xs b = true) : h.prev b = xs.getLastD a :=
  ((chain_eq_mid h b xs a).mp hc).2.2

theorem chain_next_last {h : Heap} {a b : Nat} {xs : List Nat}
    (hc : chainB h a xs b = true) : h.next (xs.getLastD a) = b :=
  ((chain_eq_mid h b xs a).mp hc).2.1

theorem chain_mid {h : Heap} {a b : Nat} {xs : List Nat}
    (hc : chainB h a xs b = true) : chainMid h a xs = true :=
  ((chain_eq_mid h b xs a).mp hc).1

theorem chain_prev_cut {h : Heap} {a b : Nat} {u v : List Nat}
    (hc : chainB h a (u ++ v) b = true) : h.prev (v.headD b) = u.getLastD a :=
  chain_last ((chain_cut h b u v a).mp hc).1

theorem chain_next_cut {h : Heap} {a b : Nat} {u v : List Nat}
    (hc : chainB h a (u ++ v) b = true) : h.next (u.getLastD a) = v.headD b :=
  chain_next_last ((chain_cut h b u v a).mp hc).1

theorem chain_head {h : Heap} {a b : Nat} {xs : List Nat}
    (hc : chainB h a xs b = true) : h.next a = xs.headD b := by
  cases xs with
  | nil =>
      simp only [chainB_nil, Bool.and_eq_true, beq_iff_eq] at hc
      simpa using hc.1
  | cons x xs =>
      simp only [chainB_cons, Bool.and_eq_true, beq_iff_eq, and_assoc] at hc
      simpa using hc.1

theorem chain_prev_head {h : Heap} {a b : Nat} {xs : List Nat}
    (hc : chainB h a xs b = true) : h.prev (xs.headD b) = a := by
  cases xs with
  | nil =>
      simp only [chainB_nil, Bool.and_eq_true, beq_iff_eq] at hc
      simpa using hc.2
  | cons x xs =>
      simp only [chainB_cons, Bool.and_eq_true, beq_iff_eq, and_assoc] at hc
      simpa using hc.2.1

/-- Interior links do not read the `next` field of the last node nor the
`prev` field of the first, so they transport between heaps that agree on
the remaining fields. -/
theorem chainMid_congr {h h' : Heap} :
    ∀ (xs : List Nat) (a : Nat),
      (∀ n ∈ (a :: xs).dropLast, h'.next n = h.next n) →
      (∀ n ∈ xs, h'.prev n = h.prev n) →
      chainMid h a xs = true → chainMid h' a xs = true := by
  intro xs
  induction xs with
  | nil => intro a _ _ _; rfl
  | cons x xs ih =>
      intro a hn hp hc
      simp only [chainMid_cons, Bool.and_eq_true, beq_iff_eq, and_assoc] at hc ⊢
      have hmem : a ∈ (a :: x :: xs).dropLast := by
        simp [List.dropLast_cons₂]
      refine ⟨by rw [hn a hmem]; exact hc.1, by rw [hp x (by simp)]; exact hc.2.1, ?_⟩
      exact ih x
        (fun n hn' => hn n (by simp only [List.dropLast_cons₂]; exact List.mem_cons_of_mem _ hn'))
        (fun n hn' => hp n (List.mem_cons_of_mem _ hn')) hc.2.2

/-- Chains transport between heaps agreeing on all fields the chain reads. -/
theorem chainB_congr {h h' : Heap} {b : Nat} :
    ∀ (xs : List Nat) (a : Nat),
      (∀ n ∈ a :: xs, h'.next n = h.next n) →
      (∀ n ∈ xs ++ [b], h'.prev n = h.prev n) →
      chainB h a xs b = true → chainB h' a xs b = true := by
  intro xs
  induction xs with
  | nil =>
      intro a hn hp hc
      simp only [chainB_nil, Bool.and_eq_true, beq_iff_eq] at hc ⊢
      exact ⟨by rw [hn a (by simp)]; exact hc.1, by rw [hp b (by simp)]; exact hc.2⟩
  | cons x xs ih =>
      intro a hn hp hc
      simp only [chainB_cons, Bool.and_eq_true, beq_iff_eq, and_assoc] at hc ⊢
      refine ⟨by rw [hn a (by simp)]; exact hc.1,
              by rw [hp x (by simp)]; exact hc.2.1, ?_⟩
      exact ih x (fun n hn' => hn n (List.mem_cons_of_mem _ hn'))
        (fun n hn' => hp n (by
          rcases List.mem_append.mp hn' with h1 | h1
          · exact List.mem_append.mpr (Or.inl (List.mem_cons_of_mem _ h1))
          · exact List.mem_append.mpr (Or.inr h1))) hc.2.2

/-- Trailing segments transport similarly; an empty segment reads nothing. -/
theorem chainSeg_congr {h h' : Heap} {b : Nat} {v : List Nat}
    (hn : ∀ n ∈ v, h'.next n = h.next n)
    (hp : ∀ n ∈ v.tail, h'.prev n = h.prev n)
    (hb : v ≠ [] → h'.prev b = h.prev b)
    (hc : chainSeg h v b = true) : chainSeg h' v b = true := by
  cases v with
  | nil => rfl
  | cons y ys =>
      simp only [chainSeg_cons] at hc ⊢
      refine chainB_congr ys y hn (fun n hn' => ?_) hc
      rcases List.mem_append.mp hn' with h1 | h1
      · exact hp n h1
      · simp only [List.mem_singleton] at h1
        subst h1; exact hb (by simp)

theorem chain_to_seg {h : Heap} {a b : Nat} {v : List Nat}
    (hc : chainB h a v b = true) : chainSeg h v b = true := by
  cases v with
  | nil => rfl
  | cons y ys =>
      simp only [chainB_cons, Bool.and_eq_true, beq_iff_eq, and_assoc] at hc
      simpa using hc.2.2

/-- Re-targeting the far endpoint of a chain: the interior is preserved
by congruence and the new closing link is supplied explicitly. -/
theorem chain_retarget {h h' : Heap} {a c c' : Nat} {xs : List Nat}
    (hc : chainB h a xs c = true)
    (hn : ∀ n ∈ (a :: xs).dropLast, h'.next n = h.next n)
    (hp : ∀ n ∈ xs, h'.prev n = h.prev n)
    (hlast : h'.next (xs.getLastD a) = c')
    (hprev : h'.prev c' = xs.getLastD a) :
    chainB h' a xs c' = true := by
  refine (chain_eq_mid h' c' xs a).mpr ⟨?_, hlast, hprev⟩
  exact chainMid_congr xs a hn hp (chain_mid hc)

/-- The last of `a :: xs` is not among the remaining nodes when the
segment has no duplicates. -/
theorem getLastD_not_mem_dropLast :
    ∀ (xs : List Nat) (a : Nat), (a :: xs).Nodup →
      xs.getLastD a ∉ (a :: xs).dropLast := by
  intro xs
  induction xs with
  | nil => intro a _; simp
  | cons x xs ih =>
      intro a hnd
      simp only [List.getLastD_cons, List.dropLast_cons₂, List.mem_cons]
      rintro (h1 | h1)
      · have : xs.getLastD x ∈ x :: xs := List.getLastD_mem_cons xs x
        rw [h1] at this
        exact (List.nodup_cons.mp hnd).1 this
      · exact ih x (List.nodup_cons.mp hnd).2 h1

theorem dropLast_append_getLastD :
    ∀ (xs : List Nat) (d : Nat), xs ≠ [] → xs.dropLast ++ [xs.getLastD d] = xs := by
  intro xs
  induction xs with
  | nil => intro d hd; exact absurd rfl hd
  | cons x xs ih =>
      intro d _
      cases xs with
      | nil => simp
      | cons y ys =>
          have := ih x (by simp)
          simp only [List.dropLast_cons₂, List.getLastD_cons, List.cons_append]
          rw [List.getLastD_cons] at this
          rw [this]

/-- Node lookup by index agrees with dropping a prefix. -/
theorem getD_eq_headD_drop :
    ∀ (l : List Nat) (k : Nat) (d : Nat), l.getD k d = (l.drop k).headD d := by
  intro l
  induction l with
  | nil => intro k d; simp
  | cons x l ih =>
      intro k d
      cases k with
      | zero => simp
      | succ k => simpa using ih k d

/-!  Counting helpers used to maintain the global distinctness invariant. -/

theorem sum_decomp :
    ∀ (l : List Nat) (i : Nat), i < l.length →
      (l.take i).sum + l.getD i 0 + (l.drop (i + 1)).sum = l.sum := by
  intro l
  induction l with
  | nil => intro i hi; simp at hi
  | cons x l ih =>
      intro i hi
      cases i with
      | zero => simp
      | succ i =>
          have hi' : i < l.length := by simpa using hi
          have := ih i hi'
          simp only [List.take_succ_cons, List.drop_succ_cons, List.sum_cons,
            List.getD_cons_succ]
          omega

theorem getD_le_sum :
    ∀ (l : List Nat) (i : Nat), i < l.length → l.getD i 0 ≤ l.sum := by
  intro l i hi
  have := sum_decomp l i hi
  omega

theorem getD_drop_add (l : List Nat) (n m : Nat) :
    (l.drop n).getD m 0 = l.getD (n + m) 0 := by
  rw [List.getD_eq_getElem?_getD, List.getD_eq_getElem?_getD, List.getElem?_drop]

theorem two_getD_le_sum (l : List Nat) (i j : Nat) (hij : i ≠ j)
    (hi : i < l.length) (hj : j < l.length) :
    l.getD i 0 + l.getD j 0 ≤ l.sum := by
  rcases Nat.lt_or_ge i j with hlt | hge
  · have h1 := sum_decomp l i hi
    have h2 : l.getD j 0 ≤ (l.drop (i + 1)).sum := by
      have hj' : j - (i + 1) < (l.drop (i + 1)).length := by
        simp only [List.length_drop]; omega
      have hle := getD_le_sum (l.drop (i + 1)) (j - (i + 1)) hj'
      rw [getD_drop_add, show i + 1 + (j - (i + 1)) = j from by omega] at hle
      exact hle
    omega
  · have hlt : j < i := by omega
    have h1 := sum_decomp l j hj
    have h2 : l.getD i 0 ≤ (l.drop (j + 1)).sum := by
      have hi' : i - (j + 1) < (l.drop (j + 1)).length := by
        simp only [List.length_drop]; omega
      have hle := getD_le_sum (l.drop (j + 1)) (i - (j + 1)) hi'
      rw [getD_drop_add, show j + 1 + (i - (j + 1)) = i from by omega] at hle
      exact hle
    omega

theorem sum_set_delta (l : List Nat) (i : Nat) (hi : i < l.length) (v : Nat) :
    (l.set i v).sum + l.getD i 0 = l.sum + v := by
  have h1 := List.sum_set l i v
  have h2 := sum_decomp l i hi
  rw [h1, if_pos hi]
  omega

/-- Count of one node over all rings of a list inventory. -/
theorem count_flatten_map (a : Nat) (L : List LState) :
    List.count a (L.map nodesOf).flatten = (L.map (fun l => List.count a (nodesOf l))).sum := by
  rw [List.count_flatten, List.map_map]
  rfl

theorem getD_map_count (a : Nat) (L : List LState) (i : Nat) (hi : i < L.length) :
    (L.map (fun l => List.count a (nodesOf l))).getD i 0 =
      List.count a (nodesOf (L.getD i (0, []))) := by
  rw [List.getD_eq_getElem _ _ (by simpa using hi), List.getD_eq_getElem L _ hi,
    List.getElem_map]

theorem count_component_le (a : Nat) (L : List LState) (i : Nat) (hi : i < L.length) :
    List.count a (nodesOf (L.getD i (0, []))) ≤ List.count a (L.map nodesOf).flatten := by
  rw [count_flatten_map]
  have hle := getD_le_sum (L.map (fun l => List.count a (nodesOf l))) i (by simpa using hi)
  rwa [getD_map_count a L i hi] at hle

/-- Two distinct components of a well-formed inventory have disjoint nodes. -/
theorem disjoint_components {L : List LState} {i j : Nat}
    (hnd : (L.map nodesOf).flatten.Nodup) (hij : i ≠ j)
    (hi : i < L.length) (hj : j < L.length) {a : Nat}
    (hai : a ∈ nodesOf (L.getD i (0, []))) (haj : a ∈ nodesOf (L.getD j (0, []))) :
    False := by
  have hc1 : 1 ≤ List.count a (nodesOf (L.getD i (0, []))) := List.count_pos_iff.mpr hai
  have hc2 : 1 ≤ List.count a (nodesOf (L.getD j (0, []))) := List.count_pos_iff.mpr haj
  have hle : List.count a (L.map nodesOf).flatten ≤ 1 :=
    List.nodup_iff_count_le_one.mp hnd a
  have h2 := two_getD_le_sum (L.map (fun l => List.count a (nodesOf l))) i j hij
    (by simpa using hi) (by simpa using hj)
  rw [getD_map_count a L i hi, getD_map_count a L j hj] at h2
  rw [count_flatten_map] at hle
  omega

/-- Each component of a well-formed inventory has no duplicate nodes. -/
theorem nodup_component {L : List LState} {i : Nat}
    (hnd : (L.map nodesOf).flatten.Nodup) (hi : i < L.length) :
    (nodesOf (L.getD i (0, []))).Nodup := by
  rw [List.nodup_iff_count_le_one]
  intro a
  have h1 := count_component_le a L i hi
  have h2 := List.nodup_iff_count_le_one.mp hnd a
  omega

/-- Replacing one component preserves global distinctness, provided the new
component only uses nodes of the old one plus fresh nodes `extra`. -/
theorem nodup_allNodes_set {L : List LState} {i : Nat} (hi : i < L.length)
    (x : LState) (extra : List Nat)
    (hnd : (L.map nodesOf).flatten.Nodup)
    (hex : ∀ a ∈ extra, a ∉ (L.map nodesOf).flatten)
    (hexnd : extra.Nodup)
    (hc : ∀ a : Nat, List.count a (nodesOf x) ≤
      List.count a (nodesOf (L.getD i (0, []))) + List.count a extra) :
    ((L.set i x).map nodesOf).flatten.Nodup := by
  rw [List.nodup_iff_count_le_one]
  intro a
  rw [count_flatten_map, List.map_set]
  have hlen : i < (L.map (fun l => List.count a (nodesOf l))).length := by simpa using hi
  have hdelta := sum_set_delta (L.map (fun l => List.count a (nodesOf l))) i hlen
    (List.count a (nodesOf x))
  have hsum : (L.map (fun l => List.count a (nodesOf l))).sum ≤ 1 := by
    have := List.nodup_iff_count_le_one.mp hnd a
    rwa [count_flatten_map] at this
  rw [getD_map_count a L i hi] at hdelta
  by_cases hmem : a ∈ extra
  · have h0 : List.count a (L.map nodesOf).flatten = 0 :=
      List.count_eq_zero.mpr (hex a hmem)
    rw [count_flatten_map] at h0
    have hce : List.count a extra ≤ 1 := List.nodup_iff_count_le_one.mp hexnd a
    have hci : List.count a (nodesOf (L.getD i (0, []))) ≤
        (L.map (fun l => List.count a (nodesOf l))).sum := by
      rw [← count_flatten_map]
      exact count_component_le a L i hi
    have := hc a
    omega
  · have h0 : List.count a extra = 0 := List.count_eq_zero.mpr hmem
    have := hc a
    omega

/-!  Heap shapes of the operations. -/

theorem headD_mem (l : List Nat) (d : Nat) : l.headD d ∈ d :: l := by
  cases l <;> simp

/-- The four stores of `link` as two double updates. -/
theorem link_eq (h : Heap) (t p n : Nat) :
    link h t p n = ⟨upd (upd h.next t n) p t, upd (upd h.prev t p) n t⟩ := rfl

/-- The stores of `unlink` as double updates, once the neighbors are named;
`t` must differ from its successor (true for any element of a consistent
ring containing more than `t`). -/
theorem unlink_eq {h : Heap} {t nt pt : Nat}
    (hnt : h.next t = nt) (hpt : h.prev t = pt) (htn : t ≠ nt) :
    unlink h t = ⟨upd (upd h.next pt nt) t t, upd (upd h.prev nt pt) t t⟩ := by
  unfold unlink
  simp only [setPrev, setNext, hnt, hpt]
  have h1 : upd h.prev nt pt t = pt := by
    rw [upd_other _ _ htn, hpt]
  rw [h1]

theorem clear_eq (h : Heap) (s : Nat) :
    clear h s = ⟨upd h.next s s, upd h.prev s s⟩ := rfl

theorem listInit_eq (h : Heap) (s : Nat) :
    listInit h s = ⟨upd h.next s s, upd h.prev s s⟩ := rfl

theorem elemInit_eq (h : Heap) (s : Nat) :
    elemInit h s = ⟨upd h.next s s, upd h.prev s s⟩ := rfl

/-- The seven statements of `splice` as triple updates, in the
non-degenerate, non-aliased case. -/
theorem splice_eq {h : Heap} {pos srcL first lst : Nat}
    (hfl : first ≠ lst) (hpl : pos ≠ lst) :
    splice h pos srcL first lst =
      ⟨upd (upd (upd h.next (h.prev first) lst) (h.prev pos) first) (h.prev lst) pos,
       upd (upd (upd h.prev lst (h.prev first)) first (h.prev pos)) pos (h.prev lst)⟩ := by
  unfold splice
  rw [if_neg hfl]
  simp only [setPrev, setNext]
  have h2p : upd h.prev lst (h.prev first) pos = h.prev pos := upd_other _ _ hpl
  rw [h2p]

/-- Ring preservation by `link`: inserting a fresh node `e` between the
adjacent nodes `u.getLastD s` and `v.headD s` of the ring `s :: u ++ v`
produces the ring `s :: u ++ e :: v`. -/
theorem link_ring {h : Heap} {s e : Nat} {u v : List Nat}
    (hc : chainB h s (u ++ v) s = true)
    (hnd : (s :: (u ++ v)).Nodup)
    (he : e ∉ s :: (u ++ v)) :
    chainB (link h e (u.getLastD s) (v.headD s)) s (u ++ e :: v) s = true := by
  have hsu : s ∉ u := fun hx => (List.nodup_cons.mp hnd).1 (List.mem_append.mpr (Or.inl hx))
  have hsv : s ∉ v := fun hx => (List.nodup_cons.mp hnd).1 (List.mem_append.mpr (Or.inr hx))
  have huv := (List.nodup_append.mp (List.nodup_cons.mp hnd).2)
  have hndu : u.Nodup := huv.1
  have hndv : v.Nodup := huv.2.1
  have hdisj : ∀ x ∈ u, x ∉ v := fun x hx => huv.2.2 hx
  have hes : e ≠ s := fun hx => he (hx ▸ List.mem_cons_self e _)
  have heu : e ∉ u := fun hx => he (List.mem_cons_of_mem _ (List.mem_append.mpr (Or.inl hx)))
  have hev : e ∉ v := fun hx => he (List.mem_cons_of_mem _ (List.mem_append.mpr (Or.inr hx)))
  set pp := u.getLastD s with hpp
  set pos := v.headD s with hposd
  have hppmem : pp ∈ s :: u := List.getLastD_mem_cons u s
  have hposmem : pos ∈ s :: v := headD_mem v s
  have hpos_u : pos ∉ u := by
    rcases List.mem_cons.mp hposmem with h1 | h1
    · rw [h1]; exact hsu
    · intro hx; exact hdisj _ hx h1
  have hpose : e ≠ pos := by
    rcases List.mem_cons.mp hposmem with h1 | h1
    · rw [h1]; exact hes
    · intro hx; exact hev (hx ▸ h1)
  have hppe : pp ≠ e := by
    rcases List.mem_cons.mp hppmem with h1 | h1
    · rw [h1]; exact fun hx => hes hx.symm
    · intro hx; exact heu (hx ▸ h1)
  have hepp : e ≠ pp := Ne.symm hppe
  obtain ⟨hcu, hseg⟩ := (chain_cut h s u v s).mp hc
  rw [← hposd] at hcu
  have hnext : (link h e pp pos).next = upd (upd h.next e pos) pp e := rfl
  have hprev : (link h e pp pos).prev = upd (upd h.prev e pp) pos e := rfl
  refine (chain_split (link h e pp pos) e s v u s).mpr ⟨?_, ?_⟩
  · -- chain from the sentinel through u to the new node e
    refine chain_retarget hcu ?_ ?_ ?_ ?_
    · intro n hn
      have hnmem : n ∈ s :: u := List.dropLast_subset _ hn
      have hne : n ≠ e := by
        rcases List.mem_cons.mp hnmem with h1 | h1
        · rw [h1]; exact fun hx => hes hx.symm
        · intro hx; exact heu (hx ▸ h1)
      have hnpp : n ≠ pp := by
        intro hx
        refine getLastD_not_mem_dropLast u s
          (List.Nodup.cons (fun hx' => (List.nodup_cons.mp hnd).1
            (List.mem_append.mpr (Or.inl hx'))) hndu) ?_
        rw [← hpp, ← hx]; exact hn
      rw [hnext, upd_other _ _ hnpp, upd_other _ _ hne]
    · intro n hn
      have hne : n ≠ e := fun hx => heu (hx ▸ hn)
      have hnpos : n ≠ pos := fun hx => hpos_u (hx ▸ hn)
      rw [hprev, upd_other _ _ hnpos, upd_other _ _ hne]
    · rw [hnext, upd_same]
    · rw [hprev, upd_other _ _ hpose, upd_same]
  · -- chain from the new node e through v back to the sentinel
    cases v with
    | nil =>
        have hpos_s : pos = s := hposd
        simp only [chainB_nil, Bool.and_eq_true, beq_iff_eq]
        constructor
        · rw [hnext, upd_other _ _ hepp, upd_same, hpos_s]
        · rw [hprev, ← hpos_s, upd_same]
    | cons y ys =>
        have hpos_y : pos = y := hposd
        have hyys : chainB h y ys s = true := hseg
        have hndyv : (y :: ys).Nodup := hndv
        simp only [chainB_cons, Bool.and_eq_true, beq_iff_eq, and_assoc]
        refine ⟨?_, ?_, ?_⟩
        · rw [hnext, upd_other _ _ hepp, upd_same, hpos_y]
        · rw [hprev, ← hpos_y, upd_same]
        · refine (chain_eq_mid _ s ys y).mpr ⟨?_, ?_, ?_⟩
          · refine chainMid_congr ys y ?_ ?_ (chain_mid hyys)
            · intro n hn
              have hnv : n ∈ y :: ys := List.dropLast_subset _ hn
              have hne : n ≠ e := fun hx => hev (hx ▸ hnv)
              have hnpp : n ≠ pp := by
                rcases List.mem_cons.mp hppmem with h1 | h1
                · intro hx; apply hsv; rw [← h1, ← hx]; exact hnv
                · intro hx; exact hdisj _ (hx ▸ h1) hnv
              rw [hnext, upd_other _ _ hnpp, upd_other _ _ hne]
            · intro n hn
              have hnv : n ∈ y :: ys := List.mem_cons_of_mem _ hn
              have hne : n ≠ e := fun hx => hev (hx ▸ hnv)
              have hny : n ≠ pos := by
                rw [hpos_y]; intro hx
                exact (List.nodup_cons.mp hndyv).1 (hx ▸ hn)
              rw [hprev, upd_other _ _ hny, upd_other _ _ hne]
          · have hlast := chain_next_last hyys
            have hnv : ys.getLastD y ∈ y :: ys := List.getLastD_mem_cons ys y
            have hne : ys.getLastD y ≠ e := fun hx => hev (hx ▸ hnv)
            have hnpp : ys.getLastD y ≠ pp := by
              rcases List.mem_cons.mp hppmem with h1 | h1
              · intro hx; apply hsv; rw [← h1, ← hx]; exact hnv
              · intro hx; exact hdisj _ (hx ▸ h1) hnv
            rw [hnext, upd_other _ _ hnpp, upd_other _ _ hne, hlast]
          · have hlast := chain_last hyys
            have hse : s ≠ e := fun hx => hes hx.symm
            have hsy : s ≠ pos := by
              rw [hpos_y]; intro hx; exact hsv (hx ▸ List.mem_cons_self y ys)
            rw [hprev, upd_other _ _ hsy, upd_other _ _ hse, hlast]

/-- Ring preservation by `unlink`: removing the element `t` from the
ring `s :: u ++ t :: v` produces the ring `s :: u ++ v` and leaves `t`
self-referencing. -/
theorem unlink_ring {h : Heap} {s t : Nat} {u v : List Nat}
    (hc : chainB h s (u ++ t :: v) s = true)
    (hnd : (s :: (u ++ t :: v)).Nodup) :
    chainB (unlink h t) s (u ++ v) s = true ∧
      (unlink h t).next t = t ∧ (unlink h t).prev t = t := by
  have hsu : s ∉ u := fun hx => (List.nodup_cons.mp hnd).1 (List.mem_append.mpr (Or.inl hx))
  have hst : s ≠ t := fun hx => (List.nodup_cons.mp hnd).1
    (List.mem_append.mpr (Or.inr (hx ▸ List.mem_cons_self t v)))
  have hsv : s ∉ v := fun hx => (List.nodup_cons.mp hnd).1
    (List.mem_append.mpr (Or.inr (List.mem_cons_of_mem _ hx)))
  have huv := List.nodup_append.mp (List.nodup_cons.mp hnd).2
  have hndu : u.Nodup := huv.1
  have hndtv : (t :: v).Nodup := huv.2.1
  have htv : t ∉ v := (List.nodup_cons.mp hndtv).1
  have hndv : v.Nodup := (List.nodup_cons.mp hndtv).2
  have hdisj : ∀ x ∈ u, x ∉ t :: v := fun x hx => huv.2.2 hx
  have htu : t ∉ u := fun hx => hdisj t hx (List.mem_cons_self t v)
  obtain ⟨hcu, hctv⟩ := (chain_split h t s v u s).mp hc
  set pt := u.getLastD s with hptd
  set nt := v.headD s with hntd
  have hptmem : pt ∈ s :: u := List.getLastD_mem_cons u s
  have hntmem : nt ∈ s :: v := headD_mem v s
  have hnt : h.next t = nt := chain_head hctv
  have hpt : h.prev t = pt := chain_last hcu
  have htnt : t ≠ nt := by
    rcases List.mem_cons.mp hntmem with h1 | h1
    · rw [h1]; exact fun hx => hst hx.symm
    · intro hx; exact htv (hx ▸ h1)
  have htpt : t ≠ pt := by
    rcases List.mem_cons.mp hptmem with h1 | h1
    · rw [h1]; exact fun hx => hst hx.symm
    · intro hx; exact htu (hx ▸ h1)
  have hu_nt : nt ∉ u := by
    rcases List.mem_cons.mp hntmem with h1 | h1
    · rw [h1]; exact hsu
    · intro hx; exact hdisj _ hx (List.mem_cons_of_mem _ h1)
  have heq := unlink_eq hnt hpt htnt
  have hnext : (unlink h t).next = upd (upd h.next pt nt) t t := by rw [heq]
  have hprev : (unlink h t).prev = upd (upd h.prev nt pt) t t := by rw [heq]
  refine ⟨?_, by rw [hnext, upd_same], by rw [hprev, upd_same]⟩
  refine (chain_cut _ s u v s).mpr ⟨?_, ?_⟩
  · rw [← hntd]
    refine chain_retarget hcu ?_ ?_ ?_ ?_
    · intro n hn
      have hnmem : n ∈ s :: u := List.dropLast_subset _ hn
      have hnt' : n ≠ t := by
        rcases List.mem_cons.mp hnmem with h1 | h1
        · rw [h1]; exact hst
        · intro hx; exact htu (hx ▸ h1)
      have hnpt : n ≠ pt := by
        intro hx
        refine getLastD_not_mem_dropLast u s (List.Nodup.cons hsu hndu) ?_
        rw [← hptd, ← hx]; exact hn
      rw [hnext, upd_other _ _ hnt', upd_other _ _ hnpt]
    · intro n hn
      have hnt' : n ≠ t := fun hx => htu (hx ▸ hn)
      have hnnt : n ≠ nt := fun hx => hu_nt (hx ▸ hn)
      rw [hprev, upd_other _ _ hnt', upd_other _ _ hnnt]
    · rw [hnext, upd_other _ _ (Ne.symm htpt), upd_same]
    · rw [hprev, upd_other _ _ (Ne.symm htnt), upd_same]
  · refine chainSeg_congr ?_ ?_ ?_ (chain_to_seg hctv)
    · intro n hn
      have hnt' : n ≠ t := fun hx => htv (hx ▸ hn)
      have hnpt : n ≠ pt := by
        rcases List.mem_cons.mp hptmem with h1 | h1
        · intro hx; apply hsv; rw [← h1, ← hx]; exact hn
        · intro hx; exact hdisj _ (hx ▸ h1) (List.mem_cons_of_mem _ hn)
      rw [hnext, upd_other _ _ hnt', upd_other _ _ hnpt]
    · intro n hn
      have hnv : n ∈ v := List.mem_of_mem_tail hn
      have hnt' : n ≠ t := fun hx => htv (hx ▸ hnv)
      have hnnt : n ≠ nt := by
        cases v with
        | nil => simp at hn
        | cons y ys =>
            have : nt = y := hntd
            rw [this]
            intro hx
            exact (List.nodup_cons.mp hndv).1 (hx ▸ hn)
      rw [hprev, upd_other _ _ hnt', upd_other _ _ hnnt]
    · intro hv
      have hsnt : s ≠ nt := by
        cases v with
        | nil => exact absurd rfl hv
        | cons y ys =>
            have : nt = y := hntd
            rw [this]
            intro hx
            exact hsv (hx ▸ List.mem_cons_self y ys)
      rw [hprev, upd_other _ _ hst, upd_other _ _ hsnt]

/-- The two pointer maps after `splice`, with the three rewired
predecessors named. -/
theorem splice_heap {h : Heap} {pos first lst P SL PP : Nat} (srcL : Nat)
    (hPf : h.prev first = P) (hSL : h.prev lst = SL) (hPP : h.prev pos = PP)
    (hfl : first ≠ lst) (hpl : pos ≠ lst) :
    (splice h pos srcL first lst).next = upd (upd (upd h.next P lst) PP first) SL pos ∧
    (splice h pos srcL first lst).prev = upd (upd (upd h.prev lst P) first PP) pos SL := by
  rw [splice_eq hfl hpl]
  rw [hPf, hSL, hPP]
  exact ⟨rfl, rfl⟩

/-- Ring preservation by a cross-list `splice`: moving the non-empty block
`m` out of the source ring `sj :: p ++ m ++ q` and re-linking it before
position `v.headD si` of the destination ring `si :: u ++ v`. -/
theorem splice_cross {h : Heap} {si sj : Nat} {u v p q : List Nat} {first : Nat}
    {m' : List Nat}
    (hci : chainB h si (u ++ v) si = true)
    (hcj : chainB h sj (p ++ (first :: (m' ++ q))) sj = true)
    (hndi : (si :: (u ++ v)).Nodup)
    (hndj : (sj :: (p ++ ((first :: m') ++ q))).Nodup)
    (hdisj : ∀ x ∈ si :: (u ++ v), x ∉ sj :: (p ++ ((first :: m') ++ q))) :
    chainB (splice h (v.headD si) sj first (q.headD sj)) si
        (u ++ (first :: (m' ++ v))) si = true ∧
      chainB (splice h (v.headD si) sj first (q.headD sj)) sj (p ++ q) sj = true := by
  set pos := v.headD si with hposd
  set lst := q.headD sj with hlstd
  set P := p.getLastD sj with hPd
  set SL := m'.getLastD first with hSLd
  set PP := u.getLastD si with hPPd
  -- membership of the six rewired nodes
  have hposm : pos ∈ si :: v := headD_mem v si
  have hlstm : lst ∈ sj :: q := headD_mem q sj
  have hPm : P ∈ sj :: p := List.getLastD_mem_cons p sj
  have hSLm : SL ∈ first :: m' := List.getLastD_mem_cons m' first
  have hPPm : PP ∈ si :: u := List.getLastD_mem_cons u si
  -- decompose the distinctness assumptions
  have hsiu : si ∉ u := fun hx => (List.nodup_cons.mp hndi).1 (List.mem_append.mpr (Or.inl hx))
  have hsiv : si ∉ v := fun hx => (List.nodup_cons.mp hndi).1 (List.mem_append.mpr (Or.inr hx))
  have huvd := List.nodup_append.mp (List.nodup_cons.mp hndi).2
  have hndu : u.Nodup := huvd.1
  have hndv : v.Nodup := huvd.2.1
  have hduv : ∀ x ∈ u, x ∉ v := fun x hx => huvd.2.2 hx
  have hsjp : sj ∉ p := fun hx => (List.nodup_cons.mp hndj).1 (List.mem_append.mpr (Or.inl hx))
  have hsjm : sj ∉ first :: m' := fun hx => (List.nodup_cons.mp hndj).1
    (List.mem_append.mpr (Or.inr (List.mem_append.mpr (Or.inl hx))))
  have hsjq : sj ∉ q := fun hx => (List.nodup_cons.mp hndj).1
    (List.mem_append.mpr (Or.inr (List.mem_append.mpr (Or.inr hx))))
  have hpmq := List.nodup_append.mp (List.nodup_cons.mp hndj).2
  have hndp : p.Nodup := hpmq.1
  have hmq := List.nodup_append.mp hpmq.2.1
  have hndm : (first :: m').Nodup := hmq.1
  have hndq : q.Nodup := hmq.2.1
  have hdmq : ∀ x ∈ first :: m', x ∉ q := fun x hx => hmq.2.2 hx
  have hdpm : ∀ x ∈ p, x ∉ first :: m' := fun x hx hy =>
    hpmq.2.2 hx (List.mem_append.mpr (Or.inl hy))
  have hdpq : ∀ x ∈ p, x ∉ q := fun x hx hy =>
    hpmq.2.2 hx (List.mem_append.mpr (Or.inr hy))
  -- memberships into the two full rings
  have hRj_P : P ∈ sj :: (p ++ ((first :: m') ++ q)) := by
    rcases List.mem_cons.mp hPm with h1 | h1
    · rw [h1]; exact List.mem_cons_self _ _
    · exact List.mem_cons_of_mem _ (List.mem_append.mpr (Or.inl h1))
  have hRj_SL : SL ∈ sj :: (p ++ ((first :: m') ++ q)) :=
    List.mem_cons_of_mem _ (List.mem_append.mpr (Or.inr (List.mem_append.mpr (Or.inl hSLm))))
  have hRj_first : first ∈ sj :: (p ++ ((first :: m') ++ q)) :=
    List.mem_cons_of_mem _ (List.mem_append.mpr (Or.inr (List.mem_append.mpr
      (Or.inl (List.mem_cons_self _ _)))))
  have hRj_lst : lst ∈ sj :: (p ++ ((first :: m') ++ q)) := by
    rcases List.mem_cons.mp hlstm with h1 | h1
    · rw [h1]; exact List.mem_cons_self _ _
    · exact List.mem_cons_of_mem _ (List.mem_append.mpr (Or.inr (List.mem_append.mpr (Or.inr h1))))
  have hRi_pos : pos ∈ si :: (u ++ v) := by
    rcases List.mem_cons.mp hposm with h1 | h1
    · rw [h1]; exact List.mem_cons_self _ _
    · exact List.mem_cons_of_mem _ (List.mem_append.mpr (Or.inr h1))
  have hRi_PP : PP ∈ si :: (u ++ v) := by
    rcases List.mem_cons.mp hPPm with h1 | h1
    · rw [h1]; exact List.mem_cons_self _ _
    · exact List.mem_cons_of_mem _ (List.mem_append.mpr (Or.inl h1))
  -- cross-ring distinctness
  have hcross : ∀ {x y : Nat}, x ∈ si :: (u ++ v) → y ∈ sj :: (p ++ ((first :: m') ++ q)) →
      x ≠ y := fun hx hy hxy => hdisj _ hx (hxy ▸ hy)
  -- chain decompositions of the two rings
  obtain ⟨hcu, hsegv⟩ := (chain_cut h si u v si).mp hci
  rw [← hposd] at hcu
  obtain ⟨hcp, hrest⟩ := (chain_split h first sj (m' ++ q) p sj).mp hcj
  obtain ⟨hcm, hsegq⟩ := (chain_cut h sj m' q first).mp hrest
  rw [← hlstd] at hcm
  -- junction links in the old heap
  have hPf : h.prev first = P := by rw [chain_last hcp, hPd]
  have hSLl : h.prev lst = SL := by rw [chain_last hcm, hSLd]
  have hPPp : h.prev pos = PP := by rw [chain_last hcu, hPPd]
  -- the basic aliasing profile
  have hfl : first ≠ lst := by
    rcases List.mem_cons.mp hlstm with h1 | h1
    · rw [h1]; intro hx; exact hsjm (hx ▸ List.mem_cons_self first m')
    · intro hx; exact hdmq first (List.mem_cons_self first m') (hx ▸ h1)
  have hpl : pos ≠ lst := hcross hRi_pos hRj_lst
  obtain ⟨hnexte, hprevE⟩ := splice_heap sj hPf hSLl hPPp hfl hpl
  have hP_SL : P ≠ SL := by
    rcases List.mem_cons.mp hPm with h1 | h1
    · rw [h1]; intro hx; exact hsjm (hx ▸ hSLm)
    · intro hx; exact hdpm _ h1 (hx ▸ hSLm)
  have hP_PP : P ≠ PP := fun hx => hcross hRi_PP hRj_P hx.symm
  have hPP_SL : PP ≠ SL := hcross hRi_PP hRj_SL
  have hfirst_pos : first ≠ pos := fun hx => hcross hRi_pos hRj_first hx.symm
  have hlst_pos : lst ≠ pos := fun hx => hpl hx.symm
  have hlst_first : lst ≠ first := fun hx => hfl hx.symm
  -- pointwise agreement away from the rewired nodes
  have hnextAt : ∀ n, n ≠ P → n ≠ PP → n ≠ SL →
      (splice h pos sj first lst).next n = h.next n := by
    intro n h1 h2 h3
    rw [hnexte, upd_other _ _ h3, upd_other _ _ h2, upd_other _ _ h1]
  have hprevAt : ∀ n, n ≠ lst → n ≠ first → n ≠ pos →
      (splice h pos sj first lst).prev n = h.prev n := by
    intro n h1 h2 h3
    rw [hprevE, upd_other _ _ h3, upd_other _ _ h2, upd_other _ _ h1]
  -- the six new junction links
  have hnew1 : (splice h pos sj first lst).next PP = first := by
    rw [hnexte, upd_other _ _ hPP_SL, upd_same]
  have hnew2 : (splice h pos sj first lst).prev first = PP := by
    rw [hprevE, upd_other _ _ hfirst_pos, upd_same]
  have hnew3 : (splice h pos sj first lst).next SL = pos := by
    rw [hnexte, upd_same]
  have hnew4 : (splice h pos sj first lst).prev pos = SL := by
    rw [hprevE, upd_same]
  have hnew5 : (splice h pos sj first lst).next P = lst := by
    rw [hnexte, upd_other _ _ hP_SL, upd_other _ _ hP_PP, upd_same]
  have hnew6 : (splice h pos sj first lst).prev lst = P := by
    rw [hprevE, upd_other _ _ hlst_pos, upd_other _ _ hlst_first, upd_same]
  constructor
  · -- destination ring: si through u, the moved block, then v
    refine (chain_split _ first si (m' ++ v) u si).mpr ⟨?_, ?_⟩
    · refine chain_retarget hcu ?_ ?_ (by rw [← hPPd]; exact hnew1) (by rw [← hPPd]; exact hnew2)
      · intro n hn
        have hnmem : n ∈ si :: u := List.dropLast_subset _ hn
        have hnRi : n ∈ si :: (u ++ v) := by
          rcases List.mem_cons.mp hnmem with h1 | h1
          · rw [h1]; exact List.mem_cons_self _ _
          · exact List.mem_cons_of_mem _ (List.mem_append.mpr (Or.inl h1))
        refine hnextAt n (hcross hnRi hRj_P) ?_ (hcross hnRi hRj_SL)
        intro hx
        refine getLastD_not_mem_dropLast u si (List.Nodup.cons hsiu hndu) ?_
        rw [← hPPd, ← hx]; exact hn
      · intro n hn
        have hnRi : n ∈ si :: (u ++ v) :=
          List.mem_cons_of_mem _ (List.mem_append.mpr (Or.inl hn))
        refine hprevAt n (hcross hnRi hRj_lst) (hcross hnRi hRj_first) ?_
        intro hx
        rcases List.mem_cons.mp hposm with h1 | h1
        · exact hsiu (h1 ▸ hx ▸ hn)
        · exact hduv n hn (hx ▸ h1)
    · refine (chain_cut _ si m' v first).mpr ⟨?_, ?_⟩
      · rw [← hposd]
        refine chain_retarget hcm ?_ ?_ (by rw [← hSLd]; exact hnew3) (by rw [← hSLd]; exact hnew4)
        · intro n hn
          have hnmem : n ∈ first :: m' := List.dropLast_subset _ hn
          have hnRj : n ∈ sj :: (p ++ ((first :: m') ++ q)) :=
            List.mem_cons_of_mem _ (List.mem_append.mpr
              (Or.inr (List.mem_append.mpr (Or.inl hnmem))))
          refine hnextAt n ?_ (fun hx => hcross hRi_PP hnRj hx.symm) ?_
          · intro hx
            rcases List.mem_cons.mp hPm with h1 | h1
            · exact hsjm (h1 ▸ hx ▸ hnmem)
            · exact hdpm _ h1 (hx ▸ hnmem)
          · intro hx
            refine getLastD_not_mem_dropLast m' first hndm ?_
            rw [← hSLd, ← hx]; exact hn
        · intro n hn
          have hnm : n ∈ first :: m' := List.mem_cons_of_mem _ hn
          have hnRj : n ∈ sj :: (p ++ ((first :: m') ++ q)) :=
            List.mem_cons_of_mem _ (List.mem_append.mpr
              (Or.inr (List.mem_append.mpr (Or.inl hnm))))
          refine hprevAt n ?_ ?_ (fun hx => hcross hRi_pos hnRj hx.symm)
          · intro hx
            rcases List.mem_cons.mp hlstm with h1 | h1
            · exact hsjm (h1 ▸ hx ▸ hnm)
            · exact hdmq _ hnm (hx ▸ h1)
          · intro hx
            exact (List.nodup_cons.mp hndm).1 (hx ▸ hn)
      · refine chainSeg_congr ?_ ?_ ?_ hsegv
        · intro n hn
          have hnRi : n ∈ si :: (u ++ v) :=
            List.mem_cons_of_mem _ (List.mem_append.mpr (Or.inr hn))
          refine hnextAt n (hcross hnRi hRj_P) (fun hx => ?_) (hcross hnRi hRj_SL)
          rcases List.mem_cons.mp hPPm with h1 | h1
          · apply hsiv; rw [← h1, ← hx]; exact hn
          · exact hduv _ h1 (hx ▸ hn)
        · intro n hn
          have hnv : n ∈ v := List.mem_of_mem_tail hn
          have hnRi : n ∈ si :: (u ++ v) :=
            List.mem_cons_of_mem _ (List.mem_append.mpr (Or.inr hnv))
          refine hprevAt n (hcross hnRi hRj_lst) (hcross hnRi hRj_first) ?_
          cases v with
          | nil => simp at hn
          | cons y ys =>
              have hpy : pos = y := hposd
              rw [hpy]
              intro hx
              exact (List.nodup_cons.mp hndv).1 (hx ▸ hn)
        · intro hv
          have hsiRi : si ∈ si :: (u ++ v) := List.mem_cons_self _ _
          refine hprevAt si (hcross hsiRi hRj_lst) (hcross hsiRi hRj_first) ?_
          cases v with
          | nil => exact absurd rfl hv
          | cons y ys =>
              have hpy : pos = y := hposd
              rw [hpy]
              intro hx
              exact hsiv (hx ▸ List.mem_cons_self y ys)
  · -- source ring: sj through p then q
    refine (chain_cut _ sj p q sj).mpr ⟨?_, ?_⟩
    · rw [← hlstd]
      refine chain_retarget hcp ?_ ?_ (by rw [← hPd]; exact hnew5) (by rw [← hPd]; exact hnew6)
      · intro n hn
        have hnmem : n ∈ sj :: p := List.dropLast_subset _ hn
        have hnRj : n ∈ sj :: (p ++ ((first :: m') ++ q)) := by
          rcases List.mem_cons.mp hnmem with h1 | h1
          · rw [h1]; exact List.mem_cons_self _ _
          · exact List.mem_cons_of_mem _ (List.mem_append.mpr (Or.inl h1))
        refine hnextAt n ?_ (fun hx => hcross hRi_PP hnRj hx.symm) ?_
        · intro hx
          refine getLastD_not_mem_dropLast p sj (List.Nodup.cons hsjp hndp) ?_
          rw [← hPd, ← hx]; exact hn
        · intro hx
          rcases List.mem_cons.mp hnmem with h1 | h1
          · exact hsjm (h1 ▸ hx ▸ hSLm)
          · exact hdpm _ h1 (hx ▸ hSLm)
      · intro n hn
        have hnRj : n ∈ sj :: (p ++ ((first :: m') ++ q)) :=
          List.mem_cons_of_mem _ (List.mem_append.mpr (Or.inl hn))
        refine hprevAt n ?_ ?_ (fun hx => hcross hRi_pos hnRj hx.symm)
        · intro hx
          rcases List.mem_cons.mp hlstm with h1 | h1
          · exact hsjp (h1 ▸ hx ▸ hn)
          · exact hdpq _ hn (hx ▸ h1)
        · intro hx
          exact hdpm _ hn (hx ▸ List.mem_cons_self first m')
    · refine chainSeg_congr ?_ ?_ ?_ hsegq
      · intro n hn
        have hnRj : n ∈ sj :: (p ++ ((first :: m') ++ q)) :=
          List.mem_cons_of_mem _ (List.mem_append.mpr (Or.inr (List.mem_append.mpr (Or.inr hn))))
        refine hnextAt n ?_ (fun hx => hcross hRi_PP hnRj hx.symm) ?_
        · intro hx
          rcases List.mem_cons.mp hPm with h1 | h1
          · exact hsjq (h1 ▸ hx ▸ hn)
          · exact hdpq _ h1 (hx ▸ hn)
        · intro hx
          exact hdmq _ hSLm (hx ▸ hn)
      · intro n hn
        have hnq : n ∈ q := List.mem_of_mem_tail hn
        have hnRj : n ∈ sj :: (p ++ ((first :: m') ++ q)) :=
          List.mem_cons_of_mem _ (List.mem_append.mpr (Or.inr (List.mem_append.mpr (Or.inr hnq))))
        refine hprevAt n ?_ ?_ (fun hx => hcross hRi_pos hnRj hx.symm)
        · cases q with
          | nil => simp at hn
          | cons y ys =>
              have hly : lst = y := hlstd
              rw [hly]
              intro hx
              exact (List.nodup_cons.mp hndq).1 (hx ▸ hn)
        · intro hx
          exact hdmq _ (List.mem_cons_self first m') (hx ▸ hnq)
      · intro hq
        refine hprevAt sj ?_ (fun hx => hsjm (hx ▸ List.mem_cons_self first m')) ?_
        · cases q with
          | nil => exact absurd rfl hq
          | cons y ys =>
              have hly : lst = y := hlstd
              rw [hly]
              intro hx
              exact hsjq (hx ▸ List.mem_cons_self y ys)
        · exact fun hx => hcross hRi_pos (List.mem_cons_self _ _) hx.symm

/-- Ring preservation by a same-list `splice` whose destination position
comes strictly before the moved block: in the ring
`s :: p1 ++ pos :: p2 ++ (first :: m') ++ q` the block `first :: m'` is
re-linked immediately before `pos`. -/
theorem splice_self_before {h : Heap} {s pos first : Nat} {p1 p2 m' q : List Nat}
    (hc : chainB h s (p1 ++ (pos :: (p2 ++ (first :: (m' ++ q))))) s = true)
    (hnd : (s :: (p1 ++ (pos :: (p2 ++ (first :: (m' ++ q)))))).Nodup) :
    chainB (splice h pos s first (q.headD s)) s
      (p1 ++ (first :: (m' ++ (pos :: (p2 ++ q))))) s = true := by
  set lst := q.headD s with hlstd
  set P := p2.getLastD pos with hPd
  set SL := m'.getLastD first with hSLd
  set PP := p1.getLastD s with hPPd
  have hlstm : lst ∈ s :: q := headD_mem q s
  have hPm : P ∈ pos :: p2 := List.getLastD_mem_cons p2 pos
  have hSLm : SL ∈ first :: m' := List.getLastD_mem_cons m' first
  have hPPm : PP ∈ s :: p1 := List.getLastD_mem_cons p1 s
  -- distinctness structure of the single ring
  have hsX : s ∉ p1 ++ (pos :: (p2 ++ (first :: (m' ++ q)))) := (List.nodup_cons.mp hnd).1
  have hs_p1 : s ∉ p1 := fun hx => hsX (List.mem_append.mpr (Or.inl hx))
  have hs_pos : s ≠ pos := fun hx => hsX (List.mem_append.mpr (Or.inr (hx ▸ List.mem_cons_self _ _)))
  have hs_p2 : s ∉ p2 := fun hx => hsX (List.mem_append.mpr (Or.inr
    (List.mem_cons_of_mem _ (List.mem_append.mpr (Or.inl hx)))))
  have hs_first : s ≠ first := fun hx => hsX (List.mem_append.mpr (Or.inr
    (List.mem_cons_of_mem _ (List.mem_append.mpr (Or.inr (hx ▸ List.mem_cons_self _ _))))))
  have hs_m' : s ∉ m' := fun hx => hsX (List.mem_append.mpr (Or.inr
    (List.mem_cons_of_mem _ (List.mem_append.mpr (Or.inr (List.mem_cons_of_mem _
      (List.mem_append.mpr (Or.inl hx))))))))
  have hs_q : s ∉ q := fun hx => hsX (List.mem_append.mpr (Or.inr
    (List.mem_cons_of_mem _ (List.mem_append.mpr (Or.inr (List.mem_cons_of_mem _
      (List.mem_append.mpr (Or.inr hx))))))))
  have hndBig : (p1 ++ (pos :: (p2 ++ (first :: (m' ++ q))))).Nodup := (List.nodup_cons.mp hnd).2
  obtain ⟨hndp1, hndrest1, hdj1⟩ := List.nodup_append.mp hndBig
  obtain ⟨hposrest, hndrest2⟩ := List.nodup_cons.mp hndrest1
  obtain ⟨hndp2, hndrest3, hdj2⟩ := List.nodup_append.mp hndrest2
  obtain ⟨hfirstrest, hndrest4⟩ := List.nodup_cons.mp hndrest3
  obtain ⟨hndm', hndq, hdj3⟩ := List.nodup_append.mp hndrest4
  -- memberships into the tail segments, for the disjointness facts
  have hp1_pos : ∀ {n}, n ∈ p1 → n ≠ pos := fun hn hx =>
    hdj1 hn (hx ▸ List.mem_cons_self _ _)
  have hp1_p2 : ∀ {n}, n ∈ p1 → n ∉ p2 := fun hn hx =>
    hdj1 hn (List.mem_cons_of_mem _ (List.mem_append.mpr (Or.inl hx)))
  have hp1_first : ∀ {n}, n ∈ p1 → n ≠ first := fun hn hx =>
    hdj1 hn (List.mem_cons_of_mem _ (List.mem_append.mpr
      (Or.inr (hx ▸ List.mem_cons_self _ _))))
  have hp1_m' : ∀ {n}, n ∈ p1 → n ∉ m' := fun hn hx =>
    hdj1 hn (List.mem_cons_of_mem _ (List.mem_append.mpr (Or.inr
      (List.mem_cons_of_mem _ (List.mem_append.mpr (Or.inl hx))))))
  have hp1_q : ∀ {n}, n ∈ p1 → n ∉ q := fun hn hx =>
    hdj1 hn (List.mem_cons_of_mem _ (List.mem_append.mpr (Or.inr
      (List.mem_cons_of_mem _ (List.mem_append.mpr (Or.inr hx))))))
  have hpos_p2 : pos ∉ p2 := fun hx => hposrest (List.mem_append.mpr (Or.inl hx))
  have hpos_first : pos ≠ first := fun hx => hposrest (List.mem_append.mpr
    (Or.inr (hx ▸ List.mem_cons_self _ _)))
  have hpos_m' : pos ∉ m' := fun hx => hposrest (List.mem_append.mpr (Or.inr
    (List.mem_cons_of_mem _ (List.mem_append.mpr (Or.inl hx)))))
  have hpos_q : pos ∉ q := fun hx => hposrest (List.mem_append.mpr (Or.inr
    (List.mem_cons_of_mem _ (List.mem_append.mpr (Or.inr hx)))))
  have hp2_first : ∀ {n}, n ∈ p2 → n ≠ first := fun hn hx =>
    hdj2 hn (hx ▸ List.mem_cons_self _ _)
  have hp2_m' : ∀ {n}, n ∈ p2 → n ∉ m' := fun hn hx =>
    hdj2 hn (List.mem_cons_of_mem _ (List.mem_append.mpr (Or.inl hx)))
  have hp2_q : ∀ {n}, n ∈ p2 → n ∉ q := fun hn hx =>
    hdj2 hn (List.mem_cons_of_mem _ (List.mem_append.mpr (Or.inr hx)))
  have hfirst_m' : first ∉ m' := fun hx => hfirstrest (List.mem_append.mpr (Or.inl hx))
  have hfirst_q : first ∉ q := fun hx => hfirstrest (List.mem_append.mpr (Or.inr hx))
  have hm'_q : ∀ {n}, n ∈ m' → n ∉ q := fun hn => hdj3 hn
  -- chain decomposition of the old ring
  obtain ⟨hc1, hc2⟩ := (chain_split h pos s (p2 ++ (first :: (m' ++ q))) p1 s).mp hc
  obtain ⟨hc2a, hc2b⟩ := (chain_split h first s (m' ++ q) p2 pos).mp hc2
  obtain ⟨hcm, hsegq⟩ := (chain_cut h s m' q first).mp hc2b
  rw [← hlstd] at hcm
  -- junction links in the old heap
  have hPf : h.prev first = P := by rw [chain_last hc2a, hPd]
  have hSLl : h.prev lst = SL := by rw [chain_last hcm, hSLd]
  have hPPp : h.prev pos = PP := by rw [chain_last hc1, hPPd]
  -- the aliasing profile: all six rewired nodes pairwise distinct
  have hfl : first ≠ lst := by
    rcases List.mem_cons.mp hlstm with h1 | h1
    · rw [h1]; exact fun hx => hs_first hx.symm
    · exact fun hx => hfirst_q (hx ▸ h1)
  have hpl : pos ≠ lst := by
    rcases List.mem_cons.mp hlstm with h1 | h1
    · rw [h1]; exact fun hx => hs_pos hx.symm
    · exact fun hx => hpos_q (hx ▸ h1)
  obtain ⟨hnexte, hprevE⟩ := splice_heap s hPf hSLl hPPp hfl hpl
  have hP_SL : P ≠ SL := by
    rcases List.mem_cons.mp hPm with h1 | h1
    · rw [h1]
      rcases List.mem_cons.mp hSLm with h2 | h2
      · rw [h2]; exact hpos_first
      · exact fun hx => hpos_m' (hx ▸ h2)
    · rcases List.mem_cons.mp hSLm with h2 | h2
      · rw [h2]; exact fun hx => hp2_first h1 hx
      · exact fun hx => hp2_m' h1 (hx ▸ h2)
  have hP_PP : P ≠ PP := by
    rcases List.mem_cons.mp hPm with h1 | h1
    · rw [h1]
      rcases List.mem_cons.mp hPPm with h2 | h2
      · rw [h2]; exact fun hx => hs_pos hx.symm
      · exact fun hx => hp1_pos h2 hx.symm
    · rcases List.mem_cons.mp hPPm with h2 | h2
      · rw [h2] at *; exact fun hx => hs_p2 (hx ▸ h1)
      · exact fun hx => hp1_p2 h2 (hx ▸ h1)
  have hPP_SL : PP ≠ SL := by
    rcases List.mem_cons.mp hPPm with h1 | h1
    · rw [h1]
      rcases List.mem_cons.mp hSLm with h2 | h2
      · rw [h2]; exact hs_first
      · exact fun hx => hs_m' (hx ▸ h2)
    · rcases List.mem_cons.mp hSLm with h2 | h2
      · rw [h2]; exact fun hx => hp1_first h1 hx
      · exact fun hx => hp1_m' h1 (hx ▸ h2)
  have hfirst_pos : first ≠ pos := fun hx => hpos_first hx.symm
  have hlst_pos : lst ≠ pos := fun hx => hpl hx.symm
  have hlst_first : lst ≠ first := fun hx => hfl hx.symm
  -- pointwise agreement away from the rewired nodes
  have hnextAt : ∀ n, n ≠ P → n ≠ PP → n ≠ SL →
      (splice h pos s first lst).next n = h.next n := by
    intro n h1 h2 h3
    rw [hnexte, upd_other _ _ h3, upd_other _ _ h2, upd_other _ _ h1]
  have hprevAt : ∀ n, n ≠ lst → n ≠ first → n ≠ pos →
      (splice h pos s first lst).prev n = h.prev n := by
    intro n h1 h2 h3
    rw [hprevE, upd_other _ _ h3, upd_other _ _ h2, upd_other _ _ h1]
  -- the six new junction links
  have hnew1 : (splice h pos s first lst).next PP = first := by
    rw [hnexte, upd_other _ _ hPP_SL, upd_same]
  have hnew2 : (splice h pos s first lst).prev first = PP := by
    rw [hprevE, upd_other _ _ hfirst_pos, upd_same]
  have hnew3 : (splice h pos s first lst).next SL = pos := by
    rw [hnexte, upd_same]
  have hnew4 : (splice h pos s first lst).prev pos = SL := by
    rw [hprevE, upd_same]
  have hnew5 : (splice h pos s first lst).next P = lst := by
    rw [hnexte, upd_other _ _ hP_SL, upd_other _ _ hP_PP, upd_same]
  have hnew6 : (splice h pos s first lst).prev lst = P := by
    rw [hprevE, upd_other _ _ hlst_pos, upd_other _ _ hlst_first, upd_same]
  -- assemble the new ring
  refine (chain_split _ first s (m' ++ (pos :: (p2 ++ q))) p1 s).mpr ⟨?_, ?_⟩
  · -- s through p1 to the head of the moved block
    refine chain_retarget hc1 ?_ ?_ (by rw [← hPPd]; exact hnew1) (by rw [← hPPd]; exact hnew2)
    · intro n hn
      have hnmem : n ∈ s :: p1 := List.dropLast_subset _ hn
      have hnP : n ≠ P := by
        rcases List.mem_cons.mp hnmem with h1 | h1
        · rw [h1]
          rcases List.mem_cons.mp hPm with h2 | h2
          · rw [h2]; exact hs_pos
          · exact fun hx => hs_p2 (hx ▸ h2)
        · rcases List.mem_cons.mp hPm with h2 | h2
          · rw [h2]; exact hp1_pos h1
          · exact fun hx => hp1_p2 h1 (hx ▸ h2)
      have hnSL : n ≠ SL := by
        rcases List.mem_cons.mp hnmem with h1 | h1
        · rw [h1]
          rcases List.mem_cons.mp hSLm with h2 | h2
          · rw [h2]; exact hs_first
          · exact fun hx => hs_m' (hx ▸ h2)
        · rcases List.mem_cons.mp hSLm with h2 | h2
          · rw [h2]; exact hp1_first h1
          · exact fun hx => hp1_m' h1 (hx ▸ h2)
      have hnPP : n ≠ PP := by
        intro hx
        refine getLastD_not_mem_dropLast p1 s (List.Nodup.cons hs_p1 hndp1) ?_
        rw [← hPPd, ← hx]; exact hn
      exact hnextAt n hnP hnPP hnSL
    · intro n hn
      have hnlst : n ≠ lst := by
        rcases List.mem_cons.mp hlstm with h1 | h1
        · rw [h1]; exact fun hx => hs_p1 (hx ▸ hn)
        · exact fun hx => hp1_q hn (hx ▸ h1)
      exact hprevAt n hnlst (hp1_first hn) (hp1_pos hn)
  · refine (chain_cut _ s m' (pos :: (p2 ++ q)) first).mpr ⟨?_, ?_⟩
    · -- the interior of the moved block now ends at pos
      show chainB _ first m' pos = true
      refine chain_retarget hcm ?_ ?_ (by rw [← hSLd]; exact hnew3) (by rw [← hSLd]; exact hnew4)
      · intro n hn
        have hnmem : n ∈ first :: m' := List.dropLast_subset _ hn
        have hnP : n ≠ P := by
          rcases List.mem_cons.mp hnmem with h1 | h1
          · rw [h1]
            rcases List.mem_cons.mp hPm with h2 | h2
            · rw [h2]; exact fun hx => hpos_first hx.symm
            · exact fun hx => hp2_first h2 hx.symm
          · rcases List.mem_cons.mp hPm with h2 | h2
            · rw [h2]; exact fun hx => hpos_m' (hx ▸ h1)
            · exact fun hx => hp2_m' h2 (hx ▸ h1)
        have hnPP : n ≠ PP := by
          rcases List.mem_cons.mp hnmem with h1 | h1
          · rw [h1]
            rcases List.mem_cons.mp hPPm with h2 | h2
            · rw [h2]; exact fun hx => hs_first hx.symm
            · exact fun hx => hp1_first h2 hx.symm
          · rcases List.mem_cons.mp hPPm with h2 | h2
            · rw [h2]; exact fun hx => hs_m' (hx ▸ h1)
            · exact fun hx => hp1_m' h2 (hx ▸ h1)
        have hnSL : n ≠ SL := by
          intro hx
          refine getLastD_not_mem_dropLast m' first (List.Nodup.cons hfirst_m' hndm') ?_
          rw [← hSLd, ← hx]; exact hn
        exact hnextAt n hnP hnPP hnSL
      · intro n hn
        have hnlst : n ≠ lst := by
          rcases List.mem_cons.mp hlstm with h1 | h1
          · rw [h1]; exact fun hx => hs_m' (hx ▸ hn)
          · exact fun hx => hm'_q hn (hx ▸ h1)
        have hnfirst : n ≠ first := fun hx => hfirst_m' (hx ▸ hn)
        have hnpos : n ≠ pos := fun hx => hpos_m' (hx ▸ hn)
        exact hprevAt n hnlst hnfirst hnpos
    · -- pos, then p2, then q, closing at s
      show chainSeg _ (pos :: (p2 ++ q)) s = true
      simp only [chainSeg_cons]
      refine (chain_cut _ s p2 q pos).mpr ⟨?_, ?_⟩
      · rw [← hlstd]
        refine chain_retarget hc2a ?_ ?_ (by rw [← hPd]; exact hnew5) (by rw [← hPd]; exact hnew6)
        · intro n hn
          have hnmem : n ∈ pos :: p2 := List.dropLast_subset _ hn
          have hnP : n ≠ P := by
            intro hx
            refine getLastD_not_mem_dropLast p2 pos (List.Nodup.cons hpos_p2 hndp2) ?_
            rw [← hPd, ← hx]; exact hn
          have hnPP : n ≠ PP := by
            rcases List.mem_cons.mp hnmem with h1 | h1
            · rw [h1]
              rcases List.mem_cons.mp hPPm with h2 | h2
              · rw [h2]; exact fun hx => hs_pos hx.symm
              · exact fun hx => hp1_pos h2 hx.symm
            · rcases List.mem_cons.mp hPPm with h2 | h2
              · rw [h2]; exact fun hx => hs_p2 (hx ▸ h1)
              · exact fun hx => hp1_p2 h2 (hx ▸ h1)
          have hnSL : n ≠ SL := by
            rcases List.mem_cons.mp hnmem with h1 | h1
            · rw [h1]
              rcases List.mem_cons.mp hSLm with h2 | h2
              · rw [h2]; exact hpos_first
              · exact fun hx => hpos_m' (hx ▸ h2)
            · rcases List.mem_cons.mp hSLm with h2 | h2
              · rw [h2]; exact hp2_first h1
              · exact fun hx => hp2_m' h1 (hx ▸ h2)
          exact hnextAt n hnP hnPP hnSL
        · intro n hn
          have hnlst : n ≠ lst := by
            rcases List.mem_cons.mp hlstm with h1 | h1
            · rw [h1]; exact fun hx => hs_p2 (hx ▸ hn)
            · exact fun hx => hp2_q hn (hx ▸ h1)
          exact hprevAt n hnlst (hp2_first hn) (fun hx => hpos_p2 (hx ▸ hn))
      · refine chainSeg_congr ?_ ?_ ?_ hsegq
        · intro n hn
          have hnP : n ≠ P := by
            rcases List.mem_cons.mp hPm with h1 | h1
            · rw [h1]; exact fun hx => hpos_q (hx ▸ hn)
            · exact fun hx => hp2_q h1 (hx ▸ hn)
          have hnPP : n ≠ PP := by
            rcases List.mem_cons.mp hPPm with h1 | h1
            · rw [h1]; exact fun hx => hs_q (hx ▸ hn)
            · exact fun hx => hp1_q h1 (hx ▸ hn)
          have hnSL : n ≠ SL := by
            rcases List.mem_cons.mp hSLm with h1 | h1
            · rw [h1]; exact fun hx => hfirst_q (hx ▸ hn)
            · exact fun hx => hm'_q h1 (hx ▸ hn)
          exact hnextAt n hnP hnPP hnSL
        · intro n hn
          have hnq : n ∈ q := List.mem_of_mem_tail hn
          have hnlst : n ≠ lst := by
            cases q with
            | nil => simp at hn
            | cons y ys =>
                have hly : lst = y := hlstd
                rw [hly]
                intro hx
                exact (List.nodup_cons.mp hndq).1 (hx ▸ hn)
          exact hprevAt n hnlst (fun hx => hfirst_q (hx ▸ hnq)) (fun hx => hpos_q (hx ▸ hnq))
        · intro hq
          have hslst : s ≠ lst := by
            cases q with
            | nil => exact absurd rfl hq
            | cons y ys =>
                have hly : lst = y := hlstd
                rw [hly]
                intro hx
                exact hs_q (hx ▸ List.mem_cons_self y ys)
          exact hprevAt s hslst hs_first hs_pos

/-- Ring preservation by a same-list `splice` whose destination position
comes strictly after the moved block: in the ring
`s :: p ++ (first :: m') ++ lst :: q1' ++ q2` the block `first :: m'` is
re-linked immediately before the head of `q2` (or the sentinel). -/
theorem splice_self_after {h : Heap} {s first lst : Nat} {p m' q1' q2 : List Nat}
    (hc : chainB h s (p ++ (first :: (m' ++ (lst :: (q1' ++ q2))))) s = true)
    (hnd : (s :: (p ++ (first :: (m' ++ (lst :: (q1' ++ q2)))))).Nodup) :
    chainB (splice h (q2.headD s) s first lst) s
      (p ++ (lst :: (q1' ++ (first :: (m' ++ q2))))) s = true := by
  set pos := q2.headD s with hposd
  set P := p.getLastD s with hPd
  set SL := m'.getLastD first with hSLd
  set PP := q1'.getLastD lst with hPPd
  have hposm : pos ∈ s :: q2 := headD_mem q2 s
  have hPm : P ∈ s :: p := List.getLastD_mem_cons p s
  have hSLm : SL ∈ first :: m' := List.getLastD_mem_cons m' first
  have hPPm : PP ∈ lst :: q1' := List.getLastD_mem_cons q1' lst
  -- distinctness structure of the single ring
  have hsX : s ∉ p ++ (first :: (m' ++ (lst :: (q1' ++ q2)))) := (List.nodup_cons.mp hnd).1
  have hs_p : s ∉ p := fun hx => hsX (List.mem_append.mpr (Or.inl hx))
  have hs_first : s ≠ first := fun hx => hsX (List.mem_append.mpr (Or.inr
    (hx ▸ List.mem_cons_self _ _)))
  have hs_m' : s ∉ m' := fun hx => hsX (List.mem_append.mpr (Or.inr
    (List.mem_cons_of_mem _ (List.mem_append.mpr (Or.inl hx)))))
  have hs_lst : s ≠ lst := fun hx => hsX (List.mem_append.mpr (Or.inr
    (List.mem_cons_of_mem _ (List.mem_append.mpr (Or.inr (hx ▸ List.mem_cons_self _ _))))))
  have hs_q1' : s ∉ q1' := fun hx => hsX (List.mem_append.mpr (Or.inr
    (List.mem_cons_of_mem _ (List.mem_append.mpr (Or.inr (List.mem_cons_of_mem _
      (List.mem_append.mpr (Or.inl hx))))))))
  have hs_q2 : s ∉ q2 := fun hx => hsX (List.mem_append.mpr (Or.inr
    (List.mem_cons_of_mem _ (List.mem_append.mpr (Or.inr (List.mem_cons_of_mem _
      (List.mem_append.mpr (Or.inr hx))))))))
  have hndBig : (p ++ (first :: (m' ++ (lst :: (q1' ++ q2))))).Nodup :=
    (List.nodup_cons.mp hnd).2
  obtain ⟨hndp, hndrest1, hdjp⟩ := List.nodup_append.mp hndBig
  obtain ⟨hfirstrest, hndrest2⟩ := List.nodup_cons.mp hndrest1
  obtain ⟨hndm', hndrest3, hdjm⟩ := List.nodup_append.mp hndrest2
  obtain ⟨hlstrest, hndrest4⟩ := List.nodup_cons.mp hndrest3
  obtain ⟨hndq1', hndq2, hdjq⟩ := List.nodup_append.mp hndrest4
  -- pairwise part disjointness
  have hp_first : ∀ {n}, n ∈ p → n ≠ first := fun hn hx =>
    hdjp hn (hx ▸ List.mem_cons_self _ _)
  have hp_m' : ∀ {n}, n ∈ p → n ∉ m' := fun hn hx =>
    hdjp hn (List.mem_cons_of_mem _ (List.mem_append.mpr (Or.inl hx)))
  have hp_lst : ∀ {n}, n ∈ p → n ≠ lst := fun hn hx =>
    hdjp hn (List.mem_cons_of_mem _ (List.mem_append.mpr (Or.inr
      (hx ▸ List.mem_cons_self _ _))))
  have hp_q1' : ∀ {n}, n ∈ p → n ∉ q1' := fun hn hx =>
    hdjp hn (List.mem_cons_of_mem _ (List.mem_append.mpr (Or.inr
      (List.mem_cons_of_mem _ (List.mem_append.mpr (Or.inl hx))))))
  have hp_q2 : ∀ {n}, n ∈ p → n ∉ q2 := fun hn hx =>
    hdjp hn (List.mem_cons_of_mem _ (List.mem_append.mpr (Or.inr
      (List.mem_cons_of_mem _ (List.mem_append.mpr (Or.inr hx))))))
  have hfirst_m' : first ∉ m' := fun hx => hfirstrest (List.mem_append.mpr (Or.inl hx))
  have hfirst_lst : first ≠ lst := fun hx => hfirstrest (List.mem_append.mpr
    (Or.inr (hx ▸ List.mem_cons_self _ _)))
  have hfirst_q1' : first ∉ q1' := fun hx => hfirstrest (List.mem_append.mpr (Or.inr
    (List.mem_cons_of_mem _ (List.mem_append.mpr (Or.inl hx)))))
  have hfirst_q2 : first ∉ q2 := fun hx => hfirstrest (List.mem_append.mpr (Or.inr
    (List.mem_cons_of_mem _ (List.mem_append.mpr (Or.inr hx)))))
  have hm'_lst : ∀ {n}, n ∈ m' → n ≠ lst := fun hn hx =>
    hdjm hn (hx ▸ List.mem_cons_self _ _)
  have hm'_q1' : ∀ {n}, n ∈ m' → n ∉ q1' := fun hn hx =>
    hdjm hn (List.mem_cons_of_mem _ (List.mem_append.mpr (Or.inl hx)))
  have hm'_q2 : ∀ {n}, n ∈ m' → n ∉ q2 := fun hn hx =>
    hdjm hn (List.mem_cons_of_mem _ (List.mem_append.mpr (Or.inr hx)))
  have hlst_q1' : lst ∉ q1' := fun hx => hlstrest (List.mem_append.mpr (Or.inl hx))
  have hlst_q2 : lst ∉ q2 := fun hx => hlstrest (List.mem_append.mpr (Or.inr hx))
  have hq1'_q2 : ∀ {n}, n ∈ q1' → n ∉ q2 := fun hn => hdjq hn
  -- chain decomposition of the old ring
  obtain ⟨hcp, hrest⟩ := (chain_split h first s (m' ++ (lst :: (q1' ++ q2))) p s).mp hc
  obtain ⟨hcm, hclq⟩ := (chain_split h lst s (q1' ++ q2) m' first).mp hrest
  obtain ⟨hcq1, hsegq2⟩ := (chain_cut h s q1' q2 lst).mp hclq
  rw [← hposd] at hcq1
  -- junction links in the old heap
  have hPf : h.prev first = P := by rw [chain_last hcp, hPd]
  have hSLl : h.prev lst = SL := by rw [chain_last hcm, hSLd]
  have hPPp : h.prev pos = PP := by rw [chain_last hcq1, hPPd]
  -- the aliasing profile
  have hfl : first ≠ lst := hfirst_lst
  have hpl : pos ≠ lst := by
    rcases List.mem_cons.mp hposm with h1 | h1
    · rw [h1]; exact hs_lst
    · exact fun hx => hlst_q2 (hx ▸ h1)
  obtain ⟨hnexte, hprevE⟩ := splice_heap s hPf hSLl hPPp hfl hpl
  have hP_SL : P ≠ SL := by
    rcases List.mem_cons.mp hPm with h1 | h1
    · rw [h1]
      rcases List.mem_cons.mp hSLm with h2 | h2
      · rw [h2]; exact hs_first
      · exact fun hx => hs_m' (hx ▸ h2)
    · rcases List.mem_cons.mp hSLm with h2 | h2
      · rw [h2]; exact hp_first h1
      · exact fun hx => hp_m' h1 (hx ▸ h2)
  have hP_PP : P ≠ PP := by
    rcases List.mem_cons.mp hPm with h1 | h1
    · rw [h1]
      rcases List.mem_cons.mp hPPm with h2 | h2
      · rw [h2]; exact hs_lst
      · exact fun hx => hs_q1' (hx ▸ h2)
    · rcases List.mem_cons.mp hPPm with h2 | h2
      · rw [h2]; exact hp_lst h1
      · exact fun hx => hp_q1' h1 (hx ▸ h2)
  have hPP_SL : PP ≠ SL := by
    rcases List.mem_cons.mp hPPm with h1 | h1
    · rw [h1]
      rcases List.mem_cons.mp hSLm with h2 | h2
      · rw [h2]; exact fun hx => hfirst_lst hx.symm
      · exact fun hx => hm'_lst h2 hx.symm
    · rcases List.mem_cons.mp hSLm with h2 | h2
      · rw [h2]; exact fun hx => hfirst_q1' (hx ▸ h1)
      · exact fun hx => hm'_q1' h2 (hx ▸ h1)
  have hfirst_pos : first ≠ pos := by
    rcases List.mem_cons.mp hposm with h1 | h1
    · rw [h1]; exact fun hx => hs_first hx.symm
    · exact fun hx => hfirst_q2 (hx ▸ h1)
  have hlst_pos : lst ≠ pos := fun hx => hpl hx.symm
  have hlst_first : lst ≠ first := fun hx => hfl hx.symm
  -- pointwise agreement away from the rewired nodes
  have hnextAt : ∀ n, n ≠ P → n ≠ PP → n ≠ SL →
      (splice h pos s first lst).next n = h.next n := by
    intro n h1 h2 h3
    rw [hnexte, upd_other _ _ h3, upd_other _ _ h2, upd_other _ _ h1]
  have hprevAt : ∀ n, n ≠ lst → n ≠ first → n ≠ pos →
      (splice h pos s first lst).prev n = h.prev n := by
    intro n h1 h2 h3
    rw [hprevE, upd_other _ _ h3, upd_other _ _ h2, upd_other _ _ h1]
  -- the six new junction links
  have hnew1 : (splice h pos s first lst).next PP = first := by
    rw [hnexte, upd_other _ _ hPP_SL, upd_same]
  have hnew2 : (splice h pos s first lst).prev first = PP := by
    rw [hprevE, upd_other _ _ hfirst_pos, upd_same]
  have hnew3 : (splice h pos s first lst).next SL = pos := by
    rw [hnexte, upd_same]
  have hnew4 : (splice h pos s first lst).prev pos = SL := by
    rw [hprevE, upd_same]
  have hnew5 : (splice h pos s first lst).next P = lst := by
    rw [hnexte, upd_other _ _ hP_SL, upd_other _ _ hP_PP, upd_same]
  have hnew6 : (splice h pos s first lst).prev lst = P := by
    rw [hprevE, upd_other _ _ hlst_pos, upd_other _ _ hlst_first, upd_same]
  -- assemble the new ring
  refine (chain_split _ lst s (q1' ++ (first :: (m' ++ q2))) p s).mpr ⟨?_, ?_⟩
  · -- s through p, now closing at lst
    refine chain_retarget hcp ?_ ?_ (by rw [← hPd]; exact hnew5) (by rw [← hPd]; exact hnew6)
    · intro n hn
      have hnmem : n ∈ s :: p := List.dropLast_subset _ hn
      have hnP : n ≠ P := by
        intro hx
        refine getLastD_not_mem_dropLast p s (List.Nodup.cons hs_p hndp) ?_
        rw [← hPd, ← hx]; exact hn
      have hnPP : n ≠ PP := by
        rcases List.mem_cons.mp hnmem with h1 | h1
        · rw [h1]
          rcases List.mem_cons.mp hPPm with h2 | h2
          · rw [h2]; exact hs_lst
          · exact fun hx => hs_q1' (hx ▸ h2)
        · rcases List.mem_cons.mp hPPm with h2 | h2
          · rw [h2]; exact hp_lst h1
          · exact fun hx => hp_q1' h1 (hx ▸ h2)
      have hnSL : n ≠ SL := by
        rcases List.mem_cons.mp hnmem with h1 | h1
        · rw [h1]
          rcases List.mem_cons.mp hSLm with h2 | h2
          · rw [h2]; exact hs_first
          · exact fun hx => hs_m' (hx ▸ h2)
        · rcases List.mem_cons.mp hSLm with h2 | h2
          · rw [h2]; exact hp_first h1
          · exact fun hx => hp_m' h1 (hx ▸ h2)
      exact hnextAt n hnP hnPP hnSL
    · intro n hn
      have hnpos : n ≠ pos := by
        rcases List.mem_cons.mp hposm with h1 | h1
        · rw [h1]; exact fun hx => hs_p (hx ▸ hn)
        · exact fun hx => hp_q2 hn (hx ▸ h1)
      exact hprevAt n (hp_lst hn) (hp_first hn) hnpos
  · refine (chain_split _ first s (m' ++ q2) q1' lst).mpr ⟨?_, ?_⟩
    · -- lst through q1', now closing at first
      refine chain_retarget hcq1 ?_ ?_ (by rw [← hPPd]; exact hnew1) (by rw [← hPPd]; exact hnew2)
      · intro n hn
        have hnmem : n ∈ lst :: q1' := List.dropLast_subset _ hn
        have hnP : n ≠ P := by
          rcases List.mem_cons.mp hnmem with h1 | h1
          · rw [h1]
            rcases List.mem_cons.mp hPm with h2 | h2
            · rw [h2]; exact fun hx => hs_lst hx.symm
            · exact fun hx => hp_lst h2 hx.symm
          · rcases List.mem_cons.mp hPm with h2 | h2
            · rw [h2]; exact fun hx => hs_q1' (hx ▸ h1)
            · exact fun hx => hp_q1' h2 (hx ▸ h1)
        have hnPP : n ≠ PP := by
          intro hx
          refine getLastD_not_mem_dropLast q1' lst (List.Nodup.cons hlst_q1' hndq1') ?_
          rw [← hPPd, ← hx]; exact hn
        have hnSL : n ≠ SL := by
          rcases List.mem_cons.mp hnmem with h1 | h1
          · rw [h1]
            rcases List.mem_cons.mp hSLm with h2 | h2
            · rw [h2]; exact fun hx => hfirst_lst hx.symm
            · exact fun hx => hm'_lst h2 hx.symm
          · rcases List.mem_cons.mp hSLm with h2 | h2
            · rw [h2]; exact fun hx => hfirst_q1' (hx ▸ h1)
            · exact fun hx => hm'_q1' h2 (hx ▸ h1)
        exact hnextAt n hnP hnPP hnSL
      · intro n hn
        have hnlst : n ≠ lst := fun hx => hlst_q1' (hx ▸ hn)
        have hnfirst : n ≠ first := fun hx => hfirst_q1' (hx ▸ hn)
        have hnpos : n ≠ pos := by
          rcases List.mem_cons.mp hposm with h1 | h1
          · rw [h1]; exact fun hx => hs_q1' (hx ▸ hn)
          · exact fun hx => hq1'_q2 hn (hx ▸ h1)
        exact hprevAt n hnlst hnfirst hnpos
    · refine (chain_cut _ s m' q2 first).mpr ⟨?_, ?_⟩
      · rw [← hposd]
        refine chain_retarget hcm ?_ ?_ (by rw [← hSLd]; exact hnew3) (by rw [← hSLd]; exact hnew4)
        · intro n hn
          have hnmem : n ∈ first :: m' := List.dropLast_subset _ hn
          have hnP : n ≠ P := by
            rcases List.mem_cons.mp hnmem with h1 | h1
            · rw [h1]
              rcases List.mem_cons.mp hPm with h2 | h2
              · rw [h2]; exact fun hx => hs_first hx.symm
              · exact fun hx => hp_first h2 hx.symm
            · rcases List.mem_cons.mp hPm with h2 | h2
              · rw [h2]; exact fun hx => hs_m' (hx ▸ h1)
              · exact fun hx => hp_m' h2 (hx ▸ h1)
          have hnPP : n ≠ PP := by
            rcases List.mem_cons.mp hnmem with h1 | h1
            · rw [h1]
              rcases List.mem_cons.mp hPPm with h2 | h2
              · rw [h2]; exact hfirst_lst
              · exact fun hx => hfirst_q1' (hx ▸ h2)
            · rcases List.mem_cons.mp hPPm with h2 | h2
              · rw [h2]; exact hm'_lst h1
              · exact fun hx => hm'_q1' h1 (hx ▸ h2)
          have hnSL : n ≠ SL := by
            intro hx
            refine getLastD_not_mem_dropLast m' first (List.Nodup.cons hfirst_m' hndm') ?_
            rw [← hSLd, ← hx]; exact hn
          exact hnextAt n hnP hnPP hnSL
        · intro n hn
          have hnpos : n ≠ pos := by
            rcases List.mem_cons.mp hposm with h1 | h1
            · rw [h1]; exact fun hx => hs_m' (hx ▸ hn)
            · exact fun hx => hm'_q2 hn (hx ▸ h1)
          exact hprevAt n (hm'_lst hn) (fun hx => hfirst_m' (hx ▸ hn)) hnpos
      · refine chainSeg_congr ?_ ?_ ?_ hsegq2
        · intro n hn
          have hnP : n ≠ P := by
            rcases List.mem_cons.mp hPm with h1 | h1
            · rw [h1]; exact fun hx => hs_q2 (hx ▸ hn)
            · exact fun hx => hp_q2 h1 (hx ▸ hn)
          have hnPP : n ≠ PP := by
            rcases List.mem_cons.mp hPPm with h1 | h1
            · rw [h1]; exact fun hx => hlst_q2 (hx ▸ hn)
            · exact fun hx => hq1'_q2 h1 (hx ▸ hn)
          have hnSL : n ≠ SL := by
            rcases List.mem_cons.mp hSLm with h1 | h1
            · rw [h1]; exact fun hx => hfirst_q2 (hx ▸ hn)
            · exact fun hx => hm'_q2 h1 (hx ▸ hn)
          exact hnextAt n hnP hnPP hnSL
        · intro n hn
          have hnq2 : n ∈ q2 := List.mem_of_mem_tail hn
          have hnpos : n ≠ pos := by
            cases q2 with
            | nil => simp at hn
            | cons y ys =>
                have hpy : pos = y := hposd
                rw [hpy]
                intro hx
                exact (List.nodup_cons.mp hndq2).1 (hx ▸ hn)
          exact hprevAt n (fun hx => hlst_q2 (hx ▸ hnq2))
            (fun hx => hfirst_q2 (hx ▸ hnq2)) hnpos
        · intro hq
          have hspos : s ≠ pos := by
            cases q2 with
            | nil => exact absurd rfl hq
            | cons y ys =>
                have hpy : pos = y := hposd
                rw [hpy]
                intro hx
                exact hs_q2 (hx ▸ List.mem_cons_self y ys)
          exact hprevAt s hs_lst hs_first hspos

/-- When the destination position is exactly the end of the moved range
(`pos = last`), the seven stores of `splice` cancel and the heap is
unchanged. -/
theorem splice_noop_adjacent {h : Heap} {pos first P SL srcL : Nat}
    (hPf : h.prev first = P) (hnP : h.next P = first)
    (hSl : h.prev pos = SL) (hnSL : h.next SL = pos)
    (hfp : first ≠ pos) :
    splice h pos srcL first pos = h := by
  unfold splice
  rw [if_neg hfp]
  simp only [setNext, setPrev, upd_same]
  rw [hPf, hSl]
  have hN : upd (upd (upd h.next P pos) P first) SL pos = h.next := by
    funext x
    by_cases hx1 : x = SL
    · subst hx1; rw [upd_same, ← hnSL]
    · rw [upd_other _ _ hx1, upd_shadow]
      by_cases hx2 : x = P
      · subst hx2; rw [upd_same, ← hnP]
      · rw [upd_other _ _ hx2]
  have hP2 : upd (upd (upd h.prev pos P) first P) pos SL = h.prev := by
    funext x
    by_cases hx1 : x = pos
    · subst hx1; rw [upd_same, ← hSl]
    · rw [upd_other _ _ hx1]
      by_cases hx2 : x = first
      · subst hx2; rw [upd_same, ← hPf]
      · rw [upd_other _ _ hx2, upd_other _ _ hx1]
  rw [hN, hP2]

/-!  Frame lemmas: which nodes each operation leaves untouched. -/

theorem link_frame (h : Heap) (t p q : Nat) :
    ∀ n, n ≠ t → n ≠ p → n ≠ q →
      (link h t p q).next n = h.next n ∧ (link h t p q).prev n = h.prev n := by
  intro n h1 h2 h3
  rw [link_eq]
  constructor
  · show upd (upd h.next t q) p t n = h.next n
    rw [upd_other _ _ h2, upd_other _ _ h1]
  · show upd (upd h.prev t p) q t n = h.prev n
    rw [upd_other _ _ h3, upd_other _ _ h1]

theorem unlink_frame {h : Heap} {t nt pt : Nat}
    (hnt : h.next t = nt) (hpt : h.prev t = pt) (htn : t ≠ nt) :
    ∀ n, n ≠ t → n ≠ pt → n ≠ nt →
      (unlink h t).next n = h.next n ∧ (unlink h t).prev n = h.prev n := by
  intro n h1 h2 h3
  rw [unlink_eq hnt hpt htn]
  constructor
  · show upd (upd h.next pt nt) t t n = h.next n
    rw [upd_other _ _ h1, upd_other _ _ h2]
  · show upd (upd h.prev nt pt) t t n = h.prev n
    rw [upd_other _ _ h1, upd_other _ _ h3]

theorem clear_frame (h : Heap) (s : Nat) :
    ∀ n, n ≠ s → (clear h s).next n = h.next n ∧ (clear h s).prev n = h.prev n := by
  intro n h1
  rw [clear_eq]
  exact ⟨upd_other _ _ h1, upd_other _ _ h1⟩

theorem splice_frame {h : Heap} {pos srcL first lst : Nat}
    (hfl : first ≠ lst) (hpl : pos ≠ lst) :
    ∀ n, n ≠ h.prev first → n ≠ h.prev pos → n ≠ h.prev lst →
      n ≠ lst → n ≠ first → n ≠ pos →
      (splice h pos srcL first lst).next n = h.next n ∧
        (splice h pos srcL first lst).prev n = h.prev n := by
  intro n h1 h2 h3 h4 h5 h6
  rw [splice_eq hfl hpl]
  constructor
  · show upd (upd (upd h.next (h.prev first) lst) (h.prev pos) first) (h.prev lst) pos n =
      h.next n
    rw [upd_other _ _ h3, upd_other _ _ h2, upd_other _ _ h1]
  · show upd (upd (upd h.prev lst (h.prev first)) first (h.prev pos)) pos (h.prev lst) n =
      h.prev n
    rw [upd_other _ _ h6, upd_other _ _ h5, upd_other _ _ h4]

/-- Ring transfer by move assignment: the destination sentinel `d` takes
over the ring of the source sentinel `s`, the source becomes empty, and
nodes outside both are untouched. -/
theorem move_ring {h : Heap} {d s : Nat} {xs : List Nat}
    (hc : chainB h s xs s = true) (hnd : (s :: xs).Nodup) (hd : d ∉ s :: xs) :
    chainB (moveAssign h d s) d xs d = true ∧
      (moveAssign h d s).next s = s ∧ (moveAssign h d s).prev s = s ∧
      (∀ n, n ≠ d → n ≠ s → n ∉ xs →
        (moveAssign h d s).next n = h.next n ∧ (moveAssign h d s).prev n = h.prev n) := by
  have hds : d ≠ s := fun hx => hd (hx ▸ List.mem_cons_self _ _)
  have hdxs : d ∉ xs := fun hx => hd (List.mem_cons_of_mem _ hx)
  have hsxs : s ∉ xs := (List.nodup_cons.mp hnd).1
  have hndxs : xs.Nodup := (List.nodup_cons.mp hnd).2
  have h1next : (clear h d).next = upd h.next d d := rfl
  have h1prev : (clear h d).prev = upd h.prev d d := rfl
  cases xs with
  | nil =>
      simp only [chainB_nil, Bool.and_eq_true, beq_iff_eq] at hc
      have hcond : (clear h d).prev s = s := by
        rw [h1prev, upd_other _ _ (Ne.symm hds), hc.2]
      simp only [moveAssign]
      rw [if_pos hcond]
      simp only [chainB_nil, Bool.and_eq_true, beq_iff_eq]
      refine ⟨⟨?_, ?_⟩, ?_, ?_, ?_⟩
      · show (clear (clear h d) s).next d = d
        rw [clear_eq, clear_eq]
        show upd (upd h.next d d) s s d = d
        rw [upd_other _ _ hds, upd_same]
      · show (clear (clear h d) s).prev d = d
        rw [clear_eq, clear_eq]
        show upd (upd h.prev d d) s s d = d
        rw [upd_other _ _ hds, upd_same]
      · show (clear (clear h d) s).next s = s
        rw [clear_eq, clear_eq]
        show upd (upd h.next d d) s s s = s
        rw [upd_same]
      · show (clear (clear h d) s).prev s = s
        rw [clear_eq, clear_eq]
        show upd (upd h.prev d d) s s s = s
        rw [upd_same]
      · intro n hnd' hns _
        constructor
        · show (clear (clear h d) s).next n = h.next n
          rw [clear_eq, clear_eq]
          show upd (upd h.next d d) s s n = h.next n
          rw [upd_other _ _ hns, upd_other _ _ hnd']
        · show (clear (clear h d) s).prev n = h.prev n
          rw [clear_eq, clear_eq]
          show upd (upd h.prev d d) s s n = h.prev n
          rw [upd_other _ _ hns, upd_other _ _ hnd']
  | cons x0 xs' =>
      have htl : h.prev s = xs'.getLastD x0 := by
        rw [chain_last hc, List.getLastD_cons]
      set tl := xs'.getLastD x0 with htld
      have htlmem : tl ∈ x0 :: xs' := List.getLastD_mem_cons xs' x0
      have htls : tl ≠ s := fun hx => hsxs (hx ▸ htlmem)
      have htld' : tl ≠ d := fun hx => hdxs (hx ▸ htlmem)
      have hhd : h.next s = x0 := by
        have := chain_head hc
        simpa using this
      have hx0s : x0 ≠ s := fun hx => hsxs (hx ▸ List.mem_cons_self _ _)
      have hx0d : x0 ≠ d := fun hx => hdxs (hx ▸ List.mem_cons_self _ _)
      have hcond : (clear h d).prev s = tl := by
        rw [h1prev, upd_other _ _ (Ne.symm hds), htl]
      have hcondne : ¬ (clear h d).prev s = s := by
        rw [hcond]; exact htls
      have hlnk : (clear h d).next s = x0 := by
        rw [h1next, upd_other _ _ (Ne.symm hds), hhd]
      simp only [moveAssign]
      rw [if_neg hcondne, hcond, hlnk]
      -- the heap after linking d in place of s
      have h2next : (link (clear h d) d tl x0).next = upd (upd (upd h.next d d) d x0) tl d := by
        rw [link_eq]
        show upd (upd (clear h d).next d x0) tl d = _
        rw [h1next]
      have h2prev : (link (clear h d) d tl x0).prev = upd (upd (upd h.prev d d) d tl) x0 d := by
        rw [link_eq]
        show upd (upd (clear h d).prev d tl) x0 d = _
        rw [h1prev]
      set h3 := clear (link (clear h d) d tl x0) s with h3d
      have h3next : h3.next = upd (upd (upd (upd h.next d d) d x0) tl d) s s := by
        rw [h3d, clear_eq, h2next]
      have h3prev : h3.prev = upd (upd (upd (upd h.prev d d) d tl) x0 d) s s := by
        rw [h3d, clear_eq, h2prev]
      simp only [chainB_cons, Bool.and_eq_true, beq_iff_eq, and_assoc]
      refine ⟨?_, ?_, ?_, ?_, ?_, ?_⟩
      · -- h3.next d = x0
        rw [h3next, upd_other _ _ hds, upd_other _ _ (Ne.symm htld'), upd_same]
      · -- h3.prev x0 = d
        rw [h3prev, upd_other _ _ hx0s, upd_same]
      · -- the interior chain, moved from closing at s to closing at d
        have hcx : chainB h x0 xs' s = true := by
          simp only [chainB_cons, Bool.and_eq_true, beq_iff_eq, and_assoc] at hc
          exact hc.2.2
        refine chain_retarget hcx ?_ ?_ ?_ ?_
        · intro n hn
          have hnmem : n ∈ x0 :: xs' := List.dropLast_subset _ hn
          have hns : n ≠ s := fun hx => hsxs (hx ▸ hnmem)
          have hnd' : n ≠ d := fun hx => hdxs (hx ▸ hnmem)
          have hntl : n ≠ tl := by
            intro hx
            refine getLastD_not_mem_dropLast xs' x0 hndxs ?_
            rw [← htld, ← hx]; exact hn
          rw [h3next, upd_other _ _ hns, upd_other _ _ hntl, upd_shadow, upd_other _ _ hnd']
        · intro n hn
          have hnmem : n ∈ x0 :: xs' := List.mem_cons_of_mem _ hn
          have hns : n ≠ s := fun hx => hsxs (hx ▸ hnmem)
          have hnd' : n ≠ d := fun hx => hdxs (hx ▸ hnmem)
          have hnx0 : n ≠ x0 := fun hx => (List.nodup_cons.mp hndxs).1 (hx ▸ hn)
          rw [h3prev, upd_other _ _ hns, upd_other _ _ hnx0, upd_shadow, upd_other _ _ hnd']
        · rw [h3next, upd_other _ _ htls]
          show upd (upd (upd h.next d d) d x0) tl d (xs'.getLastD x0) = d
          rw [← htld, upd_same]
        · rw [h3prev, upd_other _ _ hds, upd_other _ _ (Ne.symm hx0d), upd_shadow, upd_same]
      · -- h3.next s = s
        rw [h3next, upd_same]
      · -- h3.prev s = s
        rw [h3prev, upd_same]
      · intro n hnd' hns hnxs
        have hntl : n ≠ tl := fun hx => hnxs (hx ▸ htlmem)
        have hnx0 : n ≠ x0 := fun hx => hnxs (hx ▸ List.mem_cons_self _ _)
        constructor
        · rw [h3next, upd_other _ _ hns, upd_other _ _ hntl, upd_shadow, upd_other _ _ hnd']
        · rw [h3prev, upd_other _ _ hns, upd_other _ _ hnx0, upd_shadow, upd_other _ _ hnd']

/-!  Glue between the configuration-level invariant and the ring lemmas. -/

theorem all_getElem {α : Type} (P : α → Bool) (L : List α) :
    L.all P = true ↔ ∀ k (hk : k < L.length), P L[k] = true := by
  rw [List.all_eq_true]
  constructor
  · intro hall k hk
    exact hall _ (List.getElem_mem hk)
  · intro hall x hx
    obtain ⟨k, hk, he⟩ := List.mem_iff_getElem.mp hx
    rw [← he]
    exact hall k hk

theorem WFb_iff (cfg : Config) :
    WFb cfg = true ↔
      ((∀ k (hk : k < cfg.lists.length),
          chainB cfg.heap (cfg.lists[k]).1 (cfg.lists[k]).2 (cfg.lists[k]).1 = true) ∧
        (allNodes cfg).Nodup) := by
  unfold WFb
  rw [Bool.and_eq_true, decide_eq_true_iff, all_getElem]
  unfold listWFb
  exact Iff.rfl

theorem mem_allNodes {L : List LState} {i : Nat} (hi : i < L.length) {x : Nat}
    (hx : x ∈ nodesOf L[i]) : x ∈ (L.map nodesOf).flatten := by
  rw [List.mem_flatten]
  exact ⟨nodesOf L[i], List.mem_map.mpr ⟨L[i], List.getElem_mem hi, rfl⟩, hx⟩

theorem count_allNodes_set (L : List LState) {i : Nat} (hi : i < L.length)
    (x : LState) (a : Nat) :
    List.count a (((L.set i x).map nodesOf).flatten) + List.count a (nodesOf L[i]) =
      List.count a ((L.map nodesOf).flatten) + List.count a (nodesOf x) := by
  rw [count_flatten_map, count_flatten_map, List.map_set]
  have hlen : i < (L.map (fun l => List.count a (nodesOf l))).length := by simpa using hi
  have := sum_set_delta (L.map (fun l => List.count a (nodesOf l))) i hlen
    (List.count a (nodesOf x))
  rw [getD_map_count a L i hi, List.getD_eq_getElem L _ hi] at this
  exact this

/-- Distinctness between two different components, index-based. -/
theorem disjoint_idx {L : List LState} {i j : Nat}
    (hnd : (L.map nodesOf).flatten.Nodup) (hij : i ≠ j)
    (hi : i < L.length) (hj : j < L.length) {a : Nat}
    (hai : a ∈ nodesOf L[i]) (haj : a ∈ nodesOf L[j]) : False := by
  refine disjoint_components hnd hij hi hj (a := a) ?_ ?_
  · rwa [List.getD_eq_getElem L _ hi]
  · rwa [List.getD_eq_getElem L _ hj]

/-- Transport of a ring between heaps that agree on all its nodes. -/
theorem chain_frame_transport {h h' : Heap} {s : Nat} {xs : List Nat}
    (hc : chainB h s xs s = true)
    (hagree : ∀ n ∈ s :: xs, h'.next n = h.next n ∧ h'.prev n = h.prev n) :
    chainB h' s xs s = true := by
  refine chainB_congr xs s (fun n hn => (hagree n hn).1) (fun n hn => ?_) hc
  rcases List.mem_append.mp hn with h1 | h1
  · exact (hagree n (List.mem_cons_of_mem _ h1)).2
  · simp only [List.mem_singleton] at h1
    subst h1
    exact (hagree _ (List.mem_cons_self _ _)).2

/-!  Preservation of well-formedness, one lemma per operation. -/

theorem step_construct {cfg : Config} {s : Nat} (hwf : WFb cfg = true)
    (hv : validOpB cfg (.construct s) = true) :
    WFb (execOp cfg (.construct s)) = true := by
  obtain ⟨hall, hnd⟩ := (WFb_iff cfg).mp hwf
  have hs : s ∉ allNodes cfg := by simpa [validOpB] using hv
  simp only [execOp]
  rw [WFb_iff]
  constructor
  · intro k hk
    simp only [List.length_append, List.length_cons, List.length_nil] at hk
    rcases Nat.lt_or_ge k cfg.lists.length with hlt | hge
    · rw [List.getElem_append_left hlt]
      refine chain_frame_transport (hall k hlt) ?_
      intro n hn
      have hnmem : n ∈ allNodes cfg := mem_allNodes hlt hn
      have hns : n ≠ s := fun hx => hs (hx ▸ hnmem)
      exact clear_frame cfg.heap s n hns
    · have hkl : k = cfg.lists.length := by omega
      rw [List.getElem_concat_length _ _ _ hkl]
      simp only [chainB_nil, Bool.and_eq_true, beq_iff_eq]
      constructor
      · rw [listInit_eq]
        show upd cfg.heap.next s s s = s
        exact upd_same _ _ _
      · rw [listInit_eq]
        show upd cfg.heap.prev s s s = s
        exact upd_same _ _ _
  · show ((cfg.lists ++ [(s, [])]).map nodesOf).flatten.Nodup
    rw [List.map_append, List.flatten_append]
    simp only [List.map_cons, List.map_nil, List.flatten_cons, List.flatten_nil,
      List.append_nil]
    rw [List.nodup_append]
    refine ⟨hnd, by simp [nodesOf], ?_⟩
    intro x hx
    simp only [nodesOf, List.mem_cons, List.not_mem_nil, or_false, List.mem_singleton]
    exact fun hxs => hs (hxs ▸ hx)

theorem step_clearOp {cfg : Config} {i : Nat} (hwf : WFb cfg = true)
    (hv : validOpB cfg (.clearOp i) = true) :
    WFb (execOp cfg (.clearOp i)) = true := by
  obtain ⟨hall, hnd⟩ := (WFb_iff cfg).mp hwf
  have hi : i < cfg.lists.length := by simpa [validOpB] using hv
  have hgetd : getL cfg i = cfg.lists[i] := List.getD_eq_getElem _ _ hi
  set si := (getL cfg i).1 with hsid
  have hsimem : si ∈ nodesOf cfg.lists[i] := by
    rw [hsid, hgetd]; exact List.mem_cons_self _ _
  simp only [execOp]
  rw [WFb_iff]
  constructor
  · intro k hk
    simp only [List.length_set] at hk
    rw [List.getElem_set]
    by_cases hki : i = k
    · rw [if_pos hki]
      simp only [chainB_nil, Bool.and_eq_true, beq_iff_eq]
      constructor
      · rw [clear_eq]; exact upd_same _ _ _
      · rw [clear_eq]; exact upd_same _ _ _
    · rw [if_neg hki]
      refine chain_frame_transport (hall k hk) ?_
      intro n hn
      have hns : n ≠ si := by
        intro hx
        exact disjoint_idx hnd (fun hq => hki hq.symm) hk hi hn (hx ▸ hsimem)
      exact clear_frame cfg.heap si n hns
  · show (((cfg.lists.set i (si, [])).map nodesOf).flatten).Nodup
    refine nodup_allNodes_set hi (si, []) [] hnd (by simp) (by simp) ?_
    intro a
    have hgd : cfg.lists.getD i (0, []) = cfg.lists[i] := List.getD_eq_getElem _ _ hi
    rw [hgd]
    simp only [nodesOf, List.count_nil, Nat.add_zero]
    by_cases ha : a = si
    · subst ha
      have h1 : List.count si [si] = 1 := by simp
      have h2 : 1 ≤ List.count si (cfg.lists[i].1 :: cfg.lists[i].2) :=
        List.count_pos_iff.mpr hsimem
      omega
    · have hsa : ¬ si = a := fun hx => ha hx.symm
      have h1 : List.count a (si :: ([] : List Nat)) = 0 := by
        simp [List.count_cons, hsa]
      omega

/-- Common core of `push_back`, `push_front` and `insert`: linking a fresh
node `e` at an arbitrary cut of ring `i` preserves well-formedness. -/
theorem step_link_general {cfg : Config} {i e : Nat} {u v : List Nat}
    (hwf : WFb cfg = true) (hi : i < cfg.lists.length)
    (hx : (getL cfg i).2 = u ++ v)
    (he : e ∉ allNodes cfg) :
    WFb ⟨link cfg.heap e (u.getLastD (getL cfg i).1) (v.headD (getL cfg i).1),
         cfg.lists.set i ((getL cfg i).1, u ++ e :: v)⟩ = true := by
  obtain ⟨hall, hnd⟩ := (WFb_iff cfg).mp hwf
  have hgetd : getL cfg i = cfg.lists[i] := List.getD_eq_getElem _ _ hi
  set si := (getL cfg i).1 with hsid
  have hnodes : nodesOf cfg.lists[i] = si :: (u ++ v) := by
    rw [← hgetd]
    show (getL cfg i).1 :: (getL cfg i).2 = si :: (u ++ v)
    rw [hx]
  have hwfi : chainB cfg.heap si (u ++ v) si = true := by
    have hh := hall i hi
    rw [← hgetd, hx] at hh
    exact hh
  have hndi : (si :: (u ++ v)).Nodup := by
    have := nodup_component hnd hi
    rw [List.getD_eq_getElem _ _ hi, hnodes] at this
    exact this
  have he' : e ∉ si :: (u ++ v) := by
    intro hx'
    exact he (mem_allNodes hi (hnodes ▸ hx'))
  have hring := link_ring hwfi hndi he'
  have hppmem : u.getLastD si ∈ si :: (u ++ v) := by
    rcases List.mem_cons.mp (List.getLastD_mem_cons u si) with h1 | h1
    · rw [h1]; exact List.mem_cons_self _ _
    · exact List.mem_cons_of_mem _ (List.mem_append.mpr (Or.inl h1))
  have hposmem : v.headD si ∈ si :: (u ++ v) := by
    rcases List.mem_cons.mp (headD_mem v si) with h1 | h1
    · rw [h1]; exact List.mem_cons_self _ _
    · exact List.mem_cons_of_mem _ (List.mem_append.mpr (Or.inr h1))
  rw [WFb_iff]
  constructor
  · intro k hk
    simp only [List.length_set] at hk
    rw [List.getElem_set]
    by_cases hki : i = k
    · rw [if_pos hki]
      exact hring
    · rw [if_neg hki]
      refine chain_frame_transport (hall k hk) ?_
      intro n hn
      have hne : n ≠ e := fun hq => he (hq ▸ mem_allNodes hk hn)
      have hnpp : n ≠ u.getLastD si := fun hq =>
        disjoint_idx hnd (fun hz => hki hz.symm) hk hi hn (hq ▸ hnodes ▸ hppmem)
      have hnpos : n ≠ v.headD si := fun hq =>
        disjoint_idx hnd (fun hz => hki hz.symm) hk hi hn (hq ▸ hnodes ▸ hposmem)
      exact link_frame cfg.heap e (u.getLastD si) (v.headD si) n hne hnpp hnpos
  · show (((cfg.lists.set i (si, u ++ e :: v)).map nodesOf).flatten).Nodup
    refine nodup_allNodes_set hi (si, u ++ e :: v) [e] hnd ?_ (by simp) ?_
    · intro a ha
      simp only [List.mem_singleton] at ha
      subst ha
      exact he
    · intro a
      rw [List.getD_eq_getElem _ _ hi, hnodes]
      simp only [nodesOf, List.count_cons, List.count_append]
      omega

theorem step_pushBack {cfg : Config} {i e : Nat} (hwf : WFb cfg = true)
    (hv : validOpB cfg (.pushBack i e) = true) :
    WFb (execOp cfg (.pushBack i e)) = true := by
  have hi : i < cfg.lists.length := by
    simp only [validOpB, Bool.and_eq_true, decide_eq_true_iff] at hv
    exact hv.1
  have he : e ∉ allNodes cfg := by
    simp only [validOpB, Bool.and_eq_true] at hv
    simpa using hv.2
  obtain ⟨hall, hnd⟩ := (WFb_iff cfg).mp hwf
  have hgetd : getL cfg i = cfg.lists[i] := List.getD_eq_getElem _ _ hi
  have hwfi : chainB cfg.heap (getL cfg i).1 (getL cfg i).2 (getL cfg i).1 = true := by
    rw [hgetd]; exact hall i hi
  simp only [execOp]
  have hcall : push_back cfg.heap (getL cfg i).1 e =
      link cfg.heap e ((getL cfg i).2.getLastD (getL cfg i).1)
        (List.headD [] (getL cfg i).1) := by
    unfold push_back
    rw [chain_last hwfi]
    rfl
  rw [hcall]
  have hghost : (getL cfg i).2 ++ [e] = (getL cfg i).2 ++ e :: [] := rfl
  rw [hghost]
  exact step_link_general hwf hi (by rw [List.append_nil]) he

theorem step_pushFront {cfg : Config} {i e : Nat} (hwf : WFb cfg = true)
    (hv : validOpB cfg (.pushFront i e) = true) :
    WFb (execOp cfg (.pushFront i e)) = true := by
  have hi : i < cfg.lists.length := by
    simp only [validOpB, Bool.and_eq_true, decide_eq_true_iff] at hv
    exact hv.1
  have he : e ∉ allNodes cfg := by
    simp only [validOpB, Bool.and_eq_true] at hv
    simpa using hv.2
  obtain ⟨hall, hnd⟩ := (WFb_iff cfg).mp hwf
  have hgetd : getL cfg i = cfg.lists[i] := List.getD_eq_getElem _ _ hi
  have hwfi : chainB cfg.heap (getL cfg i).1 (getL cfg i).2 (getL cfg i).1 = true := by
    rw [hgetd]; exact hall i hi
  simp only [execOp]
  have hcall : push_front cfg.heap (getL cfg i).1 e =
      link cfg.heap e (List.getLastD [] (getL cfg i).1)
        ((getL cfg i).2.headD (getL cfg i).1) := by
    unfold push_front
    rw [chain_head hwfi]
    rfl
  rw [hcall]
  exact step_link_general hwf hi rfl he

theorem step_insertOp {cfg : Config} {i k e : Nat} (hwf : WFb cfg = true)
    (hv : validOpB cfg (.insertOp i k e) = true) :
    WFb (execOp cfg (.insertOp i k e)) = true := by
  have hi : i < cfg.lists.length := by
    simp only [validOpB, Bool.and_eq_true, decide_eq_true_iff] at hv
    exact hv.1.1
  have he : e ∉ allNodes cfg := by
    simp only [validOpB, Bool.and_eq_true] at hv
    simpa using hv.2
  obtain ⟨hall, hnd⟩ := (WFb_iff cfg).mp hwf
  have hgetd : getL cfg i = cfg.lists[i] := List.getD_eq_getElem _ _ hi
  have hwfi : chainB cfg.heap (getL cfg i).1 (getL cfg i).2 (getL cfg i).1 = true := by
    rw [hgetd]; exact hall i hi
  have hx : (getL cfg i).2 = (getL cfg i).2.take k ++ (getL cfg i).2.drop k :=
    (List.take_append_drop k _).symm
  have hpos : nodeAt (getL cfg i) k = ((getL cfg i).2.drop k).headD (getL cfg i).1 := by
    unfold nodeAt
    exact getD_eq_headD_drop _ k _
  have hcut : chainB cfg.heap (getL cfg i).1
      ((getL cfg i).2.take k ++ (getL cfg i).2.drop k) (getL cfg i).1 = true := by
    rw [← hx]; exact hwfi
  simp only [execOp, insert]
  have hcall : link cfg.heap e (cfg.heap.prev (nodeAt (getL cfg i) k)) (nodeAt (getL cfg i) k) =
      link cfg.heap e (((getL cfg i).2.take k).getLastD (getL cfg i).1)
        (((getL cfg i).2.drop k).headD (getL cfg i).1) := by
    rw [hpos, chain_prev_cut hcut]
  rw [hcall]
  exact step_link_general hwf hi hx he

/-- Common core of `pop_back`, `pop_front` and `erase`: unlinking the
element `t` of ring `i` preserves well-formedness. -/
theorem step_unlink_general {cfg : Config} {i t : Nat} {u v : List Nat}
    (hwf : WFb cfg = true) (hi : i < cfg.lists.length)
    (hx : (getL cfg i).2 = u ++ t :: v) :
    WFb ⟨unlink cfg.heap t, cfg.lists.set i ((getL cfg i).1, u ++ v)⟩ = true := by
  obtain ⟨hall, hnd⟩ := (WFb_iff cfg).mp hwf
  have hgetd : getL cfg i = cfg.lists[i] := List.getD_eq_getElem _ _ hi
  set si := (getL cfg i).1 with hsid
  have hnodes : nodesOf cfg.lists[i] = si :: (u ++ t :: v) := by
    rw [← hgetd]
    show (getL cfg i).1 :: (getL cfg i).2 = si :: (u ++ t :: v)
    rw [hx]
  have hwfi : chainB cfg.heap si (u ++ t :: v) si = true := by
    have hh := hall i hi
    rw [← hgetd, hx] at hh
    exact hh
  have hndi : (si :: (u ++ t :: v)).Nodup := by
    have hh := nodup_component hnd hi
    rw [List.getD_eq_getElem _ _ hi, hnodes] at hh
    exact hh
  have hring := unlink_ring hwfi hndi
  -- neighbors of t, for the frame lemma
  obtain ⟨hcu, hctv⟩ := (chain_split cfg.heap t si v u si).mp hwfi
  have hnt : cfg.heap.next t = v.headD si := chain_head hctv
  have hpt : cfg.heap.prev t = u.getLastD si := chain_last hcu
  have hsmem : ∀ {x : Nat}, x ∈ si :: (u ++ t :: v) → x ∈ nodesOf cfg.lists[i] := by
    intro x hx'
    rw [hnodes]; exact hx'
  have htmem : t ∈ si :: (u ++ t :: v) :=
    List.mem_cons_of_mem _ (List.mem_append.mpr (Or.inr (List.mem_cons_self _ _)))
  have hntmem : v.headD si ∈ si :: (u ++ t :: v) := by
    rcases List.mem_cons.mp (headD_mem v si) with h1 | h1
    · rw [h1]; exact List.mem_cons_self _ _
    · exact List.mem_cons_of_mem _ (List.mem_append.mpr (Or.inr (List.mem_cons_of_mem _ h1)))
  have hptmem : u.getLastD si ∈ si :: (u ++ t :: v) := by
    rcases List.mem_cons.mp (List.getLastD_mem_cons u si) with h1 | h1
    · rw [h1]; exact List.mem_cons_self _ _
    · exact List.mem_cons_of_mem _ (List.mem_append.mpr (Or.inl h1))
  have htnt : t ≠ v.headD si := by
    have hnd2 := (List.nodup_cons.mp hndi).2
    have := List.nodup_append.mp hnd2
    have hndtv : (t :: v).Nodup := this.2.1
    rcases List.mem_cons.mp (headD_mem v si) with h1 | h1
    · rw [h1]
      intro hq
      exact (List.nodup_cons.mp hndi).1
        (List.mem_append.mpr (Or.inr (hq ▸ List.mem_cons_self t v)))
    · intro hq
      exact (List.nodup_cons.mp hndtv).1 (hq ▸ h1)
  rw [WFb_iff]
  constructor
  · intro k hk
    simp only [List.length_set] at hk
    rw [List.getElem_set]
    by_cases hki : i = k
    · rw [if_pos hki]
      exact hring.1
    · rw [if_neg hki]
      refine chain_frame_transport (hall k hk) ?_
      intro n hn
      have hne : n ≠ t := fun hq =>
        disjoint_idx hnd (fun hz => hki hz.symm) hk hi hn (hq ▸ hsmem htmem)
      have hnpt : n ≠ u.getLastD si := fun hq =>
        disjoint_idx hnd (fun hz => hki hz.symm) hk hi hn (hq ▸ hsmem hptmem)
      have hnnt : n ≠ v.headD si := fun hq =>
        disjoint_idx hnd (fun hz => hki hz.symm) hk hi hn (hq ▸ hsmem hntmem)
      exact unlink_frame hnt hpt htnt n hne hnpt hnnt
  · show (((cfg.lists.set i (si, u ++ v)).map nodesOf).flatten).Nodup
    refine nodup_allNodes_set hi (si, u ++ v) [] hnd (by simp) (by simp) ?_
    intro a
    rw [List.getD_eq_getElem _ _ hi, hnodes]
    simp only [nodesOf, List.count_cons, List.count_append, List.count_nil]
    omega

theorem step_popBack {cfg : Config} {i : Nat} (hwf : WFb cfg = true)
    (hv : validOpB cfg (.popBack i) = true) :
    WFb (execOp cfg (.popBack i)) = true := by
  have hi : i < cfg.lists.length := by
    simp only [validOpB, Bool.and_eq_true, decide_eq_true_iff] at hv
    exact hv.1
  have hne : (getL cfg i).2 ≠ [] := by
    simp only [validOpB, Bool.and_eq_true] at hv
    simpa [List.isEmpty_iff] using hv.2
  obtain ⟨hall, hnd⟩ := (WFb_iff cfg).mp hwf
  have hgetd : getL cfg i = cfg.lists[i] := List.getD_eq_getElem _ _ hi
  have hwfi : chainB cfg.heap (getL cfg i).1 (getL cfg i).2 (getL cfg i).1 = true := by
    rw [hgetd]; exact hall i hi
  have hx : (getL cfg i).2 =
      (getL cfg i).2.dropLast ++ ((getL cfg i).2.getLastD (getL cfg i).1) :: [] :=
    (dropLast_append_getLastD _ _ hne).symm
  simp only [execOp]
  have hcall : pop_back cfg.heap (getL cfg i).1 =
      unlink cfg.heap ((getL cfg i).2.getLastD (getL cfg i).1) := by
    unfold pop_back
    rw [chain_last hwfi]
  rw [hcall]
  have hghost : (getL cfg i).2.dropLast = (getL cfg i).2.dropLast ++ [] := by
    rw [List.append_nil]
  rw [hghost]
  exact step_unlink_general hwf hi hx

theorem step_popFront {cfg : Config} {i : Nat} (hwf : WFb cfg = true)
    (hv : validOpB cfg (.popFront i) = true) :
    WFb (execOp cfg (.popFront i)) = true := by
  have hi : i < cfg.lists.length := by
    simp only [validOpB, Bool.and_eq_true, decide_eq_true_iff] at hv
    exact hv.1
  have hne : (getL cfg i).2 ≠ [] := by
    simp only [validOpB, Bool.and_eq_true] at hv
    simpa [List.isEmpty_iff] using hv.2
  obtain ⟨hall, hnd⟩ := (WFb_iff cfg).mp hwf
  have hgetd : getL cfg i = cfg.lists[i] := List.getD_eq_getElem _ _ hi
  have hwfi : chainB cfg.heap (getL cfg i).1 (getL cfg i).2 (getL cfg i).1 = true := by
    rw [hgetd]; exact hall i hi
  obtain ⟨t, v, hx⟩ : ∃ t v, (getL cfg i).2 = t :: v := by
    cases hxx : (getL cfg i).2 with
    | nil => exact absurd hxx hne
    | cons a b => exact ⟨a, b, rfl⟩
  have hx' : (getL cfg i).2 = [] ++ t :: v := hx
  simp only [execOp]
  have hcall : pop_front cfg.heap (getL cfg i).1 = unlink cfg.heap t := by
    unfold pop_front
    rw [chain_head hwfi, hx]
    rfl
  rw [hcall]
  have hghost : (getL cfg i).2.tail = [] ++ v := by rw [hx]; rfl
  rw [hghost]
  exact step_unlink_general hwf hi hx'

theorem step_eraseOp {cfg : Config} {i k : Nat} (hwf : WFb cfg = true)
    (hv : validOpB cfg (.eraseOp i k) = true) :
    WFb (execOp cfg (.eraseOp i k)) = true := by
  have hi : i < cfg.lists.length := by
    simp only [validOpB, Bool.and_eq_true, decide_eq_true_iff] at hv
    exact hv.1
  have hk : k < (getL cfg i).2.length := by
    simp only [validOpB, Bool.and_eq_true, decide_eq_true_iff] at hv
    exact hv.2
  obtain ⟨hall, hnd⟩ := (WFb_iff cfg).mp hwf
  have hgetd : getL cfg i = cfg.lists[i] := List.getD_eq_getElem _ _ hi
  have hwfi : chainB cfg.heap (getL cfg i).1 (getL cfg i).2 (getL cfg i).1 = true := by
    rw [hgetd]; exact hall i hi
  set xs := (getL cfg i).2 with hxsd
  set si := (getL cfg i).1 with hsid
  have hx : xs = xs.take k ++ xs[k] :: xs.drop (k + 1) := by
    rw [List.getElem_cons_drop xs k hk, List.take_append_drop]
  have hpos : nodeAt (getL cfg i) k = xs[k] := by
    unfold nodeAt
    exact List.getD_eq_getElem _ _ hk
  have hxassoc : xs = (xs.take k ++ [xs[k]]) ++ xs.drop (k + 1) := by
    rw [List.append_assoc, List.singleton_append, ← hx]
  have hcutassoc : chainB cfg.heap si ((xs.take k ++ [xs[k]]) ++ xs.drop (k + 1)) si = true := by
    rw [← hxassoc]; exact hwfi
  obtain ⟨hcu, hctv⟩ := (chain_split cfg.heap (xs[k]) si (xs.drop (k + 1)) (xs.take k) si).mp
    (by rw [← hx]; exact hwfi)
  have hnext : cfg.heap.next (xs[k]) = (xs.drop (k + 1)).headD si := chain_head hctv
  have hvictim : cfg.heap.prev ((xs.drop (k + 1)).headD si) = xs[k] := by
    have := chain_prev_cut hcutassoc
    rw [List.getLastD_concat] at this
    exact this
  simp only [execOp, erase]
  have hcall : unlink cfg.heap (cfg.heap.prev (cfg.heap.next (nodeAt (getL cfg i) k))) =
      unlink cfg.heap (xs[k]) := by
    rw [hpos, hnext, hvictim]
  rw [hcall]
  exact step_unlink_general hwf hi hx

/-- Frame lemma for `splice` with no distinctness assumptions: all stores
target one of the six rewired nodes. -/
theorem splice_frame' (h : Heap) (pos srcL first lst : Nat) :
    ∀ n, n ≠ h.prev first → n ≠ h.prev pos → n ≠ h.prev lst →
      n ≠ lst → n ≠ first → n ≠ pos →
      (splice h pos srcL first lst).next n = h.next n ∧
        (splice h pos srcL first lst).prev n = h.prev n := by
  intro n h1 h2 h3 h4 h5 h6
  unfold splice
  by_cases hg : first = lst
  · rw [if_pos hg]
    exact ⟨rfl, rfl⟩
  · rw [if_neg hg]
    simp only [setNext, setPrev]
    constructor
    · show upd (upd (upd h.next (h.prev first) lst)
          (upd h.prev lst (h.prev first) pos) first) (h.prev lst) pos n = h.next n
      rw [upd_other _ _ h3]
      have hX : n ≠ upd h.prev lst (h.prev first) pos := by
        by_cases hpl : pos = lst
        · rw [hpl, upd_same]; exact h1
        · rw [upd_other _ _ hpl]; exact h2
      rw [upd_other _ _ hX, upd_other _ _ h1]
    · show upd (upd (upd h.prev lst (h.prev first)) first
          (upd h.prev lst (h.prev first) pos)) pos (h.prev lst) n = h.prev n
      rw [upd_other _ _ h6, upd_other _ _ h5, upd_other _ _ h4]

theorem set_getElem_self {α : Type} (L : List α) {i : Nat} (h : i < L.length) :
    L.set i L[i] = L := by
  induction L generalizing i with
  | nil => simp at h
  | cons x L ih =>
      cases i with
      | zero => rfl
      | succ i =>
          have hi : i < L.length := by simpa using h
          simp only [List.set_cons_succ, List.getElem_cons_succ]
          rw [ih hi]

/-- The same-list ghost formula is the identity when the range is empty. -/
theorem selfSpliceGhost_degenerate (xs : List Nat) (k f : Nat) :
    selfSpliceGhost xs k f f = xs := by
  unfold selfSpliceGhost
  have hdrop : (xs.take f).drop f = [] := by
    apply List.drop_eq_nil_of_le
    rw [List.length_take]
    exact Nat.min_le_left _ _
  by_cases hk : k < f
  · rw [if_pos hk, hdrop]
    have h1 : xs.take k = (xs.take f).take k := by
      rw [List.take_take, Nat.min_eq_left (Nat.le_of_lt hk)]
    rw [List.append_nil, h1, List.take_append_drop, List.take_append_drop]
  · rw [if_neg hk, hdrop]
    have hfk : f ≤ k := Nat.le_of_not_lt hk
    have h1 : xs.take f = (xs.take k).take f := by
      rw [List.take_take, Nat.min_eq_left hfk]
    rw [List.append_nil, h1, List.take_append_drop, List.take_append_drop]

/-- The same-list ghost formula is the identity when the destination is
exactly the end of the range. -/
theorem selfSpliceGhost_adjacent (xs : List Nat) (f l : Nat) (hfl : f ≤ l) :
    selfSpliceGhost xs l f l = xs := by
  unfold selfSpliceGhost
  rw [if_neg (by omega)]
  have hdrop : (xs.take l).drop l = [] := by
    apply List.drop_eq_nil_of_le
    rw [List.length_take]
    exact Nat.min_le_left _ _
  rw [hdrop]
  have h1 : xs.take f = (xs.take l).take f := by
    rw [List.take_take, Nat.min_eq_left hfl]
  rw [List.append_nil, h1, List.take_append_drop, List.take_append_drop]

/-- Self move assignment collapses to a single `clear`. -/
theorem moveAssign_self (h : Heap) (s : Nat) : moveAssign h s s = clear h s := by
  simp only [moveAssign]
  rw [if_pos]
  · show (⟨upd (upd h.next s s) s s, upd (upd h.prev s s) s s⟩ : Heap) = clear h s
    rw [upd_shadow, upd_shadow, clear_eq]
  · rw [clear_eq]
    exact upd_same _ _ _

/-- A splice with an empty range (`first == last`) is a no-op. -/
theorem step_splice_deg {cfg : Config} {i k j f : Nat} (hwf : WFb cfg = true)
    (hi : i < cfg.lists.length) (hj : j < cfg.lists.length) :
    WFb (execOp cfg (.spliceOp i k j f f)) = true := by
  simp only [execOp]
  have hheap : splice cfg.heap (nodeAt (getL cfg i) k) (getL cfg j).1
      (nodeAt (getL cfg j) f) (nodeAt (getL cfg j) f) = cfg.heap := by
    unfold splice
    rw [if_pos rfl]
  rw [hheap]
  by_cases hij : i = j
  · rw [if_pos hij]
    rw [selfSpliceGhost_degenerate]
    have hpi : ((getL cfg i).1, (getL cfg i).2) = cfg.lists[i] := by
      rw [Prod.mk.eta]
      exact List.getD_eq_getElem _ _ hi
    rw [hpi, set_getElem_self cfg.lists hi]
    exact hwf
  · rw [if_neg hij]
    have h1 : (getL cfg j).2.take f ++ (getL cfg j).2.drop f = (getL cfg j).2 :=
      List.take_append_drop _ _
    have hdrop : ((getL cfg j).2.take f).drop f = [] :=
      List.drop_eq_nil_of_le (by rw [List.length_take]; exact Nat.min_le_left _ _)
    rw [h1, hdrop]
    have h2 : (getL cfg i).2.take k ++ [] ++ (getL cfg i).2.drop k = (getL cfg i).2 := by
      rw [List.append_nil, List.take_append_drop]
    rw [h2]
    have hpj : ((getL cfg j).1, (getL cfg j).2) = cfg.lists[j] := by
      rw [Prod.mk.eta]
      exact List.getD_eq_getElem _ _ hj
    have hpi : ((getL cfg i).1, (getL cfg i).2) = cfg.lists[i] := by
      rw [Prod.mk.eta]
      exact List.getD_eq_getElem _ _ hi
    rw [hpj, set_getElem_self cfg.lists hj, hpi, set_getElem_self cfg.lists hi]
    exact hwf

/-- A cross-list splice of a non-empty range preserves well-formedness. -/
theorem step_splice_cross {cfg : Config} {i k j f l : Nat} (hwf : WFb cfg = true)
    (hij : i ≠ j) (hi : i < cfg.lists.length) (hj : j < cfg.lists.length)
    (hfl : f < l) (hl : l ≤ (getL cfg j).2.length) :
    WFb (execOp cfg (.spliceOp i k j f l)) = true := by
  obtain ⟨hall, hnd⟩ := (WFb_iff cfg).mp hwf
  have hgdi : getL cfg i = cfg.lists[i] := List.getD_eq_getElem _ _ hi
  have hgdj : getL cfg j = cfg.lists[j] := List.getD_eq_getElem _ _ hj
  -- the range decomposition of the source list
  have hpf : (getL cfg j).2.take f = ((getL cfg j).2.take l).take f := by
    rw [List.take_take, Nat.min_eq_left (Nat.le_of_lt hfl)]
  have hpm : (getL cfg j).2.take f ++ ((getL cfg j).2.take l).drop f = (getL cfg j).2.take l := by
    rw [hpf]
    exact List.take_append_drop f _
  have hxj : (getL cfg j).2 =
      (getL cfg j).2.take f ++ (((getL cfg j).2.take l).drop f ++ (getL cfg j).2.drop l) := by
    rw [← List.append_assoc, hpm, List.take_append_drop]
  have hmlen : (((getL cfg j).2.take l).drop f).length = l - f := by
    rw [List.length_drop, List.length_take, Nat.min_eq_left hl]
  have hm : ((getL cfg j).2.take l).drop f ≠ [] := by
    intro h0
    rw [h0] at hmlen
    simp at hmlen
    omega
  obtain ⟨first, m', hmfm⟩ : ∃ a b, ((getL cfg j).2.take l).drop f = a :: b := by
    cases hq : ((getL cfg j).2.take l).drop f with
    | nil => exact absurd hq hm
    | cons a b => exact ⟨a, b, rfl⟩
  have hplen : ((getL cfg j).2.take f).length = f := by
    rw [List.length_take, Nat.min_eq_left (Nat.le_trans (Nat.le_of_lt hfl) hl)]
  -- the iterator arguments of the call
  have hnodef : nodeAt (getL cfg j) f = first := by
    unfold nodeAt
    rw [getD_eq_headD_drop]
    have hdf : (getL cfg j).2.drop f =
        ((getL cfg j).2.take l).drop f ++ (getL cfg j).2.drop l := by
      conv_lhs => rw [hxj]
      exact List.drop_left' hplen
    rw [hdf, hmfm]
    rfl
  have hnodel : nodeAt (getL cfg j) l = ((getL cfg j).2.drop l).headD (getL cfg j).1 := by
    unfold nodeAt
    exact getD_eq_headD_drop _ _ _
  have hnodek : nodeAt (getL cfg i) k = ((getL cfg i).2.drop k).headD (getL cfg i).1 := by
    unfold nodeAt
    exact getD_eq_headD_drop _ _ _
  -- the chains of the two rings, in the decomposed shapes
  have hxi : (getL cfg i).2 = (getL cfg i).2.take k ++ (getL cfg i).2.drop k :=
    (List.take_append_drop k _).symm
  have hwfi' : chainB cfg.heap (getL cfg i).1
      ((getL cfg i).2.take k ++ (getL cfg i).2.drop k) (getL cfg i).1 = true := by
    rw [← hxi, hgdi]
    exact hall i hi
  have hwfj0 : chainB cfg.heap (getL cfg j).1 (getL cfg j).2 (getL cfg j).1 = true := by
    rw [hgdj]
    exact hall j hj
  have hwfj' : chainB cfg.heap (getL cfg j).1
      ((getL cfg j).2.take f ++ (first :: (m' ++ (getL cfg j).2.drop l)))
      (getL cfg j).1 = true := by
    have hh := hwfj0
    rw [hxj, hmfm] at hh
    simpa using hh
  have hnodesi : nodesOf cfg.lists[i] =
      (getL cfg i).1 :: ((getL cfg i).2.take k ++ (getL cfg i).2.drop k) := by
    rw [← hgdi, nodesOf, ← hxi]
  have hnodesj : nodesOf cfg.lists[j] =
      (getL cfg j).1 :: ((getL cfg j).2.take f ++
        ((first :: m') ++ (getL cfg j).2.drop l)) := by
    rw [← hgdj, nodesOf, ← hmfm, ← hxj]
  have hndi' : ((getL cfg i).1 :: ((getL cfg i).2.take k ++ (getL cfg i).2.drop k)).Nodup := by
    have hh := nodup_component hnd hi
    rw [List.getD_eq_getElem _ _ hi, hnodesi] at hh
    exact hh
  have hndj' : ((getL cfg j).1 :: ((getL cfg j).2.take f ++
      ((first :: m') ++ (getL cfg j).2.drop l))).Nodup := by
    have hh := nodup_component hnd hj
    rw [List.getD_eq_getElem _ _ hj, hnodesj] at hh
    exact hh
  have hdisj : ∀ x ∈ (getL cfg i).1 :: ((getL cfg i).2.take k ++ (getL cfg i).2.drop k),
      x ∉ (getL cfg j).1 :: ((getL cfg j).2.take f ++
        ((first :: m') ++ (getL cfg j).2.drop l)) := by
    intro x hx hx'
    exact disjoint_idx hnd hij hi hj (hnodesi ▸ hx) (hnodesj ▸ hx')
  have hcross := splice_cross hwfi' hwfj' hndi' hndj' hdisj
  -- write addresses, for the frame argument
  have hprev_first : cfg.heap.prev first = ((getL cfg j).2.take f).getLastD (getL cfg j).1 := by
    have hh := chain_prev_cut hwfj'
    simpa using hh
  have hprev_pos : cfg.heap.prev (((getL cfg i).2.drop k).headD (getL cfg i).1) =
      ((getL cfg i).2.take k).getLastD (getL cfg i).1 := chain_prev_cut hwfi'
  have hwfj'' : chainB cfg.heap (getL cfg j).1
      (((getL cfg j).2.take f ++ (first :: m')) ++ (getL cfg j).2.drop l)
      (getL cfg j).1 = true := by
    rw [List.append_assoc]
    simpa using hwfj'
  have hprev_lst : cfg.heap.prev (((getL cfg j).2.drop l).headD (getL cfg j).1) =
      (((getL cfg j).2.take f ++ (first :: m'))).getLastD (getL cfg j).1 :=
    chain_prev_cut hwfj''
  -- memberships of the six write addresses in the two rings
  have hsubtake_i : ∀ {x}, x ∈ (getL cfg i).2.take k → x ∈ nodesOf cfg.lists[i] := by
    intro x hx
    rw [hnodesi]
    exact List.mem_cons_of_mem _ (List.mem_append.mpr (Or.inl hx))
  have hsubdrop_i : ∀ {x}, x ∈ (getL cfg i).2.drop k → x ∈ nodesOf cfg.lists[i] := by
    intro x hx
    rw [hnodesi]
    exact List.mem_cons_of_mem _ (List.mem_append.mpr (Or.inr hx))
  have hsi_mem : (getL cfg i).1 ∈ nodesOf cfg.lists[i] := by
    rw [hnodesi]; exact List.mem_cons_self _ _
  have hsj_mem : (getL cfg j).1 ∈ nodesOf cfg.lists[j] := by
    rw [hnodesj]; exact List.mem_cons_self _ _
  have hsubtake_j : ∀ {x}, x ∈ (getL cfg j).2.take f → x ∈ nodesOf cfg.lists[j] := by
    intro x hx
    rw [hnodesj]
    exact List.mem_cons_of_mem _ (List.mem_append.mpr (Or.inl hx))
  have hsubm_j : ∀ {x}, x ∈ first :: m' → x ∈ nodesOf cfg.lists[j] := by
    intro x hx
    rw [hnodesj]
    exact List.mem_cons_of_mem _ (List.mem_append.mpr (Or.inr (List.mem_append.mpr (Or.inl hx))))
  have hsubdrop_j : ∀ {x}, x ∈ (getL cfg j).2.drop l → x ∈ nodesOf cfg.lists[j] := by
    intro x hx
    rw [hnodesj]
    exact List.mem_cons_of_mem _ (List.mem_append.mpr (Or.inr (List.mem_append.mpr (Or.inr hx))))
  have hmem_pfirst : cfg.heap.prev first ∈ nodesOf cfg.lists[j] := by
    rw [hprev_first]
    rcases List.mem_cons.mp (List.getLastD_mem_cons ((getL cfg j).2.take f) (getL cfg j).1)
      with h1 | h1
    · rw [h1]; exact hsj_mem
    · exact hsubtake_j h1
  have hmem_ppos : cfg.heap.prev (((getL cfg i).2.drop k).headD (getL cfg i).1) ∈
      nodesOf cfg.lists[i] := by
    rw [hprev_pos]
    rcases List.mem_cons.mp (List.getLastD_mem_cons ((getL cfg i).2.take k) (getL cfg i).1)
      with h1 | h1
    · rw [h1]; exact hsi_mem
    · exact hsubtake_i h1
  have hmem_plst : cfg.heap.prev (((getL cfg j).2.drop l).headD (getL cfg j).1) ∈
      nodesOf cfg.lists[j] := by
    rw [hprev_lst]
    rcases List.mem_cons.mp (List.getLastD_mem_cons
      ((getL cfg j).2.take f ++ (first :: m')) (getL cfg j).1) with h1 | h1
    · rw [h1]; exact hsj_mem
    · rcases List.mem_append.mp h1 with h2 | h2
      · exact hsubtake_j h2
      · exact hsubm_j h2
  have hmem_lst : ((getL cfg j).2.drop l).headD (getL cfg j).1 ∈ nodesOf cfg.lists[j] := by
    rcases List.mem_cons.mp (headD_mem ((getL cfg j).2.drop l) (getL cfg j).1) with h1 | h1
    · rw [h1]; exact hsj_mem
    · exact hsubdrop_j h1
  have hmem_first : first ∈ nodesOf cfg.lists[j] := hsubm_j (List.mem_cons_self _ _)
  have hmem_pos : ((getL cfg i).2.drop k).headD (getL cfg i).1 ∈ nodesOf cfg.lists[i] := by
    rcases List.mem_cons.mp (headD_mem ((getL cfg i).2.drop k) (getL cfg i).1) with h1 | h1
    · rw [h1]; exact hsi_mem
    · exact hsubdrop_i h1
  -- now the configuration-level goal
  simp only [execOp]
  rw [if_neg hij, hnodek, hnodef, hnodel]
  rw [WFb_iff]
  constructor
  · intro k' hk'
    simp only [List.length_set] at hk'
    rw [List.getElem_set, List.getElem_set]
    by_cases hki : i = k'
    · rw [if_pos hki]
      have hgoal := hcross.1
      have heqm : (getL cfg i).2.take k ++ ((getL cfg j).2.take l).drop f ++
          (getL cfg i).2.drop k =
          (getL cfg i).2.take k ++ (first :: (m' ++ (getL cfg i).2.drop k)) := by
        rw [List.append_assoc, hmfm]
        rfl
      rw [heqm]
      exact hgoal
    · rw [if_neg hki]
      by_cases hkj : j = k'
      · rw [if_pos hkj]
        exact hcross.2
      · rw [if_neg hkj]
        refine chain_frame_transport (hall k' hk') ?_
        intro n hn
        have hnotid : ∀ {y : Nat}, y ∈ nodesOf cfg.lists[i] → n ≠ y := by
          intro y hy hq
          exact disjoint_idx hnd (fun hz => hki hz.symm) hk' hi hn (hq ▸ hy)
        have hnotjd : ∀ {y : Nat}, y ∈ nodesOf cfg.lists[j] → n ≠ y := by
          intro y hy hq
          exact disjoint_idx hnd (fun hz => hkj hz.symm) hk' hj hn (hq ▸ hy)
        exact splice_frame' cfg.heap (((getL cfg i).2.drop k).headD (getL cfg i).1)
          (getL cfg j).1 first (((getL cfg j).2.drop l).headD (getL cfg j).1) n
          (hnotjd hmem_pfirst) (hnotid hmem_ppos)
          (hnotjd hmem_plst) (hnotjd hmem_lst) (hnotjd hmem_first) (hnotid hmem_pos)
  · show ((((cfg.lists.set j _).set i _).map nodesOf).flatten).Nodup
    have hndj2 := hndj'
    rw [List.nodup_cons, List.nodup_append] at hndj2
    obtain ⟨hsjx, hndp, hndmq, hdpmq⟩ := hndj2
    rw [List.nodup_append] at hndmq
    obtain ⟨hndm, hndq, hdmq⟩ := hndmq
    have hnd1 : (((cfg.lists.set j ((getL cfg j).1,
        (getL cfg j).2.take f ++ (getL cfg j).2.drop l)).map nodesOf).flatten).Nodup := by
      refine nodup_allNodes_set hj _ [] hnd (by simp) (by simp) ?_
      intro a
      rw [List.getD_eq_getElem _ _ hj, hnodesj]
      simp only [nodesOf, List.count_cons, List.count_append, List.count_nil]
      omega
    have hi1 : i < (cfg.lists.set j ((getL cfg j).1,
        (getL cfg j).2.take f ++ (getL cfg j).2.drop l)).length := by
      rw [List.length_set]; exact hi
    refine nodup_allNodes_set hi1 _ (first :: m') hnd1 ?_ ?_ ?_
    · intro a ha
      have hcnt := count_allNodes_set cfg.lists hj ((getL cfg j).1,
        (getL cfg j).2.take f ++ (getL cfg j).2.drop l) a
      have hle : List.count a ((cfg.lists.map nodesOf).flatten) ≤ 1 :=
        List.nodup_iff_count_le_one.mp hnd a
      have hmemj : 1 ≤ List.count a (nodesOf cfg.lists[j]) := by
        rw [hnodesj]
        exact List.count_pos_iff.mpr (List.mem_cons_of_mem _
          (List.mem_append.mpr (Or.inr (List.mem_append.mpr (Or.inl ha)))))
      have hzero : List.count a (nodesOf ((getL cfg j).1,
          (getL cfg j).2.take f ++ (getL cfg j).2.drop l)) = 0 := by
        simp only [nodesOf]
        rw [List.count_eq_zero]
        intro hmem
        rcases List.mem_cons.mp hmem with h1 | h1
        · exact hsjx (h1 ▸ (List.mem_append.mpr (Or.inr (List.mem_append.mpr (Or.inl ha)))))
        · rcases List.mem_append.mp h1 with h2 | h2
          · exact hdpmq h2 (List.mem_append.mpr (Or.inl ha))
          · exact hdmq ha h2
      rw [← List.count_eq_zero]
      rw [hzero] at hcnt
      omega
    · exact hndm
    · intro a
      have hgd1 : (cfg.lists.set j ((getL cfg j).1,
          (getL cfg j).2.take f ++ (getL cfg j).2.drop l)).getD i (0, []) = cfg.lists[i] := by
        rw [List.getD_eq_getElem _ _ hi1, List.getElem_set]
        exact if_neg (fun hz => hij hz.symm)
      rw [hgd1, hnodesi]
      have heqm : (getL cfg i).2.take k ++ ((getL cfg j).2.take l).drop f ++
          (getL cfg i).2.drop k =
          (getL cfg i).2.take k ++ ((first :: m') ++ (getL cfg i).2.drop k) := by
        rw [List.append_assoc, hmfm]
      rw [heqm]
      simp only [nodesOf, List.count_cons, List.count_append]
      omega

/-- A same-list splice whose destination position is strictly before the
moved range preserves well-formedness. -/
theorem step_splice_selfA {cfg : Config} {i k f l : Nat} (hwf : WFb cfg = true)
    (hi : i < cfg.lists.length) (hkf : k < f) (hfl : f < l)
    (hl : l ≤ (getL cfg i).2.length) :
    WFb (execOp cfg (.spliceOp i k i f l)) = true := by
  obtain ⟨hall, hnd⟩ := (WFb_iff cfg).mp hwf
  have hgdi : getL cfg i = cfg.lists[i] := List.getD_eq_getElem _ _ hi
  have hflen : f ≤ (getL cfg i).2.length := Nat.le_trans (Nat.le_of_lt hfl) hl
  have hklen : k ≤ (getL cfg i).2.length := Nat.le_trans (Nat.le_of_lt hkf) hflen
  -- the four-part decomposition of the ring
  have htk : (getL cfg i).2.take k = ((getL cfg i).2.take f).take k := by
    rw [List.take_take, Nat.min_eq_left (Nat.le_of_lt hkf)]
  have htkf : (getL cfg i).2.take k ++ ((getL cfg i).2.take f).drop k =
      (getL cfg i).2.take f := by
    rw [htk]
    exact List.take_append_drop k _
  have hpf : (getL cfg i).2.take f = ((getL cfg i).2.take l).take f := by
    rw [List.take_take, Nat.min_eq_left (Nat.le_of_lt hfl)]
  have hpm : (getL cfg i).2.take f ++ ((getL cfg i).2.take l).drop f =
      (getL cfg i).2.take l := by
    rw [hpf]
    exact List.take_append_drop f _
  have hxs : (getL cfg i).2 = (getL cfg i).2.take k ++ (((getL cfg i).2.take f).drop k ++
      (((getL cfg i).2.take l).drop f ++ (getL cfg i).2.drop l)) := by
    rw [← List.append_assoc, ← List.append_assoc, htkf, hpm, List.take_append_drop]
  have hpp2len : (((getL cfg i).2.take f).drop k).length = f - k := by
    rw [List.length_drop, List.length_take, Nat.min_eq_left hflen]
  obtain ⟨pos, p2, hpp2⟩ : ∃ a b, ((getL cfg i).2.take f).drop k = a :: b := by
    cases hq : ((getL cfg i).2.take f).drop k with
    | nil => rw [hq] at hpp2len; simp at hpp2len; omega
    | cons a b => exact ⟨a, b, rfl⟩
  have hmlen : (((getL cfg i).2.take l).drop f).length = l - f := by
    rw [List.length_drop, List.length_take, Nat.min_eq_left hl]
  obtain ⟨first, m', hmfm⟩ : ∃ a b, ((getL cfg i).2.take l).drop f = a :: b := by
    cases hq : ((getL cfg i).2.take l).drop f with
    | nil => rw [hq] at hmlen; simp at hmlen; omega
    | cons a b => exact ⟨a, b, rfl⟩
  have hklen' : ((getL cfg i).2.take k).length = k := by
    rw [List.length_take, Nat.min_eq_left hklen]
  have hflen' : ((getL cfg i).2.take f).length = f := by
    rw [List.length_take, Nat.min_eq_left hflen]
  -- iterator arguments
  have hnodek : nodeAt (getL cfg i) k = pos := by
    unfold nodeAt
    rw [getD_eq_headD_drop]
    have hdk : (getL cfg i).2.drop k = ((getL cfg i).2.take f).drop k ++
        (((getL cfg i).2.take l).drop f ++ (getL cfg i).2.drop l) := by
      conv_lhs => rw [hxs]
      exact List.drop_left' hklen'
    rw [hdk, hpp2]
    rfl
  have hnodef : nodeAt (getL cfg i) f = first := by
    unfold nodeAt
    rw [getD_eq_headD_drop]
    have hxf : (getL cfg i).2 = (getL cfg i).2.take f ++
        (((getL cfg i).2.take l).drop f ++ (getL cfg i).2.drop l) := by
      rw [← List.append_assoc, hpm, List.take_append_drop]
    have hdf : (getL cfg i).2.drop f =
        ((getL cfg i).2.take l).drop f ++ (getL cfg i).2.drop l := by
      conv_lhs => rw [hxf]
      exact List.drop_left' hflen'
    rw [hdf, hmfm]
    rfl
  have hnodel : nodeAt (getL cfg i) l = ((getL cfg i).2.drop l).headD (getL cfg i).1 := by
    unfold nodeAt
    exact getD_eq_headD_drop _ _ _
  -- the ring in the decomposed shape
  have hwfi0 : chainB cfg.heap (getL cfg i).1 (getL cfg i).2 (getL cfg i).1 = true := by
    rw [hgdi]
    exact hall i hi
  have hwfi' : chainB cfg.heap (getL cfg i).1
      ((getL cfg i).2.take k ++ (pos :: (p2 ++ (first :: (m' ++ (getL cfg i).2.drop l)))))
      (getL cfg i).1 = true := by
    have hh := hwfi0
    rw [hxs, hpp2, hmfm] at hh
    simpa using hh
  have hnodesi : nodesOf cfg.lists[i] = (getL cfg i).1 ::
      ((getL cfg i).2.take k ++ (pos :: (p2 ++ (first :: (m' ++ (getL cfg i).2.drop l))))) := by
    rw [← hgdi, nodesOf]
    conv_lhs => rw [hxs, hpp2, hmfm]
    simp
  have hndi' : ((getL cfg i).1 ::
      ((getL cfg i).2.take k ++
        (pos :: (p2 ++ (first :: (m' ++ (getL cfg i).2.drop l)))))).Nodup := by
    have hh := nodup_component hnd hi
    rw [List.getD_eq_getElem _ _ hi, hnodesi] at hh
    exact hh
  have hring := splice_self_before hwfi' hndi'
  -- write addresses, for the frame argument
  have hprev_pos : cfg.heap.prev pos = ((getL cfg i).2.take k).getLastD (getL cfg i).1 := by
    have hh := chain_prev_cut hwfi'
    simpa using hh
  have hxf2 : chainB cfg.heap (getL cfg i).1
      ((getL cfg i).2.take f ++ (first :: (m' ++ (getL cfg i).2.drop l)))
      (getL cfg i).1 = true := by
    have hh := hwfi0
    rw [show (getL cfg i).2 = (getL cfg i).2.take f ++
        (((getL cfg i).2.take l).drop f ++ (getL cfg i).2.drop l) by
      rw [← List.append_assoc, hpm, List.take_append_drop], hmfm] at hh
    simpa using hh
  have hprev_first : cfg.heap.prev first =
      ((getL cfg i).2.take f).getLastD (getL cfg i).1 := by
    have hh := chain_prev_cut hxf2
    simpa using hh
  have hxl2 : chainB cfg.heap (getL cfg i).1
      ((getL cfg i).2.take l ++ (getL cfg i).2.drop l) (getL cfg i).1 = true := by
    rw [List.take_append_drop]
    exact hwfi0
  have hprev_lst : cfg.heap.prev (((getL cfg i).2.drop l).headD (getL cfg i).1) =
      ((getL cfg i).2.take l).getLastD (getL cfg i).1 := chain_prev_cut hxl2
  -- memberships of the six write addresses in the ring
  have hsi_mem : (getL cfg i).1 ∈ nodesOf cfg.lists[i] := by
    rw [← hgdi]
    exact List.mem_cons_self _ _
  have hsub_xs : ∀ {x}, x ∈ (getL cfg i).2 → x ∈ nodesOf cfg.lists[i] := by
    intro x hx
    rw [← hgdi]
    exact List.mem_cons_of_mem _ hx
  have hsub_take : ∀ {n x}, x ∈ (getL cfg i).2.take n → x ∈ nodesOf cfg.lists[i] :=
    fun hx => hsub_xs (List.take_subset _ _ hx)
  have hsub_drop : ∀ {n x}, x ∈ (getL cfg i).2.drop n → x ∈ nodesOf cfg.lists[i] :=
    fun hx => hsub_xs (List.drop_subset _ _ hx)
  have hmem_ppos : cfg.heap.prev pos ∈ nodesOf cfg.lists[i] := by
    rw [hprev_pos]
    rcases List.mem_cons.mp (List.getLastD_mem_cons ((getL cfg i).2.take k) (getL cfg i).1)
      with h1 | h1
    · rw [h1]; exact hsi_mem
    · exact hsub_take h1
  have hmem_pfirst : cfg.heap.prev first ∈ nodesOf cfg.lists[i] := by
    rw [hprev_first]
    rcases List.mem_cons.mp (List.getLastD_mem_cons ((getL cfg i).2.take f) (getL cfg i).1)
      with h1 | h1
    · rw [h1]; exact hsi_mem
    · exact hsub_take h1
  have hmem_plst : cfg.heap.prev (((getL cfg i).2.drop l).headD (getL cfg i).1) ∈
      nodesOf cfg.lists[i] := by
    rw [hprev_lst]
    rcases List.mem_cons.mp (List.getLastD_mem_cons ((getL cfg i).2.take l) (getL cfg i).1)
      with h1 | h1
    · rw [h1]; exact hsi_mem
    · exact hsub_take h1
  have hmem_lst : ((getL cfg i).2.drop l).headD (getL cfg i).1 ∈ nodesOf cfg.lists[i] := by
    rcases List.mem_cons.mp (headD_mem ((getL cfg i).2.drop l) (getL cfg i).1) with h1 | h1
    · rw [h1]; exact hsi_mem
    · exact hsub_drop h1
  have hmem_first : first ∈ nodesOf cfg.lists[i] := by
    refine hsub_take (n := l) ?_
    exact List.drop_subset _ _ (hmfm ▸ List.mem_cons_self first m')
  have hmem_pos : pos ∈ nodesOf cfg.lists[i] := by
    refine hsub_take (n := f) ?_
    exact List.drop_subset _ _ (hpp2 ▸ List.mem_cons_self pos p2)
  -- the configuration-level goal
  simp only [execOp]
  rw [if_true, hnodek, hnodef, hnodel]
  have hghost : selfSpliceGhost (getL cfg i).2 k f l =
      (getL cfg i).2.take k ++
        (first :: (m' ++ (pos :: (p2 ++ (getL cfg i).2.drop l)))) := by
    unfold selfSpliceGhost
    rw [if_pos hkf, hmfm, hpp2]
    simp [List.append_assoc]
  rw [hghost]
  rw [WFb_iff]
  constructor
  · intro k' hk'
    simp only [List.length_set] at hk'
    rw [List.getElem_set]
    by_cases hki : i = k'
    · rw [if_pos hki]
      exact hring
    · rw [if_neg hki]
      refine chain_frame_transport (hall k' hk') ?_
      intro n hn
      have hnotid : ∀ {y : Nat}, y ∈ nodesOf cfg.lists[i] → n ≠ y := by
        intro y hy hq
        exact disjoint_idx hnd (fun hz => hki hz.symm) hk' hi hn (hq ▸ hy)
      exact splice_frame' cfg.heap pos (getL cfg i).1 first
        (((getL cfg i).2.drop l).headD (getL cfg i).1) n
        (hnotid hmem_pfirst) (hnotid hmem_ppos)
        (hnotid hmem_plst) (hnotid hmem_lst) (hnotid hmem_first) (hnotid hmem_pos)
  · show (((cfg.lists.set i _).map nodesOf).flatten).Nodup
    refine nodup_allNodes_set hi _ [] hnd (by simp) (by simp) ?_
    intro a
    rw [List.getD_eq_getElem _ _ hi, hnodesi]
    simp only [nodesOf, List.count_cons, List.count_append, List.count_nil]
    omega

/-- A same-list splice whose destination position is strictly after the
moved range preserves well-formedness. -/
theorem step_splice_selfB {cfg : Config} {i k f l : Nat} (hwf : WFb cfg = true)
    (hi : i < cfg.lists.length) (hfl : f < l) (hlk : l < k)
    (hk : k ≤ (getL cfg i).2.length) :
    WFb (execOp cfg (.spliceOp i k i f l)) = true := by
  obtain ⟨hall, hnd⟩ := (WFb_iff cfg).mp hwf
  have hgdi : getL cfg i = cfg.lists[i] := List.getD_eq_getElem _ _ hi
  have hllen : l ≤ (getL cfg i).2.length := Nat.le_trans (Nat.le_of_lt hlk) hk
  have hflen : f ≤ (getL cfg i).2.length := Nat.le_trans (Nat.le_of_lt hfl) hllen
  -- the four-part decomposition of the ring
  have hpf : (getL cfg i).2.take f = ((getL cfg i).2.take l).take f := by
    rw [List.take_take, Nat.min_eq_left (Nat.le_of_lt hfl)]
  have hpm : (getL cfg i).2.take f ++ ((getL cfg i).2.take l).drop f =
      (getL cfg i).2.take l := by
    rw [hpf]
    exact List.take_append_drop f _
  have htl : (getL cfg i).2.take l = ((getL cfg i).2.take k).take l := by
    rw [List.take_take, Nat.min_eq_left (Nat.le_of_lt hlk)]
  have htlk : (getL cfg i).2.take l ++ ((getL cfg i).2.take k).drop l =
      (getL cfg i).2.take k := by
    rw [htl]
    exact List.take_append_drop l _
  have hxs : (getL cfg i).2 = (getL cfg i).2.take f ++ ((((getL cfg i).2.take l).drop f) ++
      ((((getL cfg i).2.take k).drop l) ++ (getL cfg i).2.drop k)) := by
    rw [← List.append_assoc, ← List.append_assoc, hpm, htlk, List.take_append_drop]
  have hq1len : (((getL cfg i).2.take k).drop l).length = k - l := by
    rw [List.length_drop, List.length_take, Nat.min_eq_left hk]
  obtain ⟨lst, q1', hq1⟩ : ∃ a b, ((getL cfg i).2.take k).drop l = a :: b := by
    cases hq : ((getL cfg i).2.take k).drop l with
    | nil => rw [hq] at hq1len; simp at hq1len; omega
    | cons a b => exact ⟨a, b, rfl⟩
  have hmlen : (((getL cfg i).2.take l).drop f).length = l - f := by
    rw [List.length_drop, List.length_take, Nat.min_eq_left hllen]
  obtain ⟨first, m', hmfm⟩ : ∃ a b, ((getL cfg i).2.take l).drop f = a :: b := by
    cases hq : ((getL cfg i).2.take l).drop f with
    | nil => rw [hq] at hmlen; simp at hmlen; omega
    | cons a b => exact ⟨a, b, rfl⟩
  have hflen' : ((getL cfg i).2.take f).length = f := by
    rw [List.length_take, Nat.min_eq_left hflen]
  have hllen' : ((getL cfg i).2.take l).length = l := by
    rw [List.length_take, Nat.min_eq_left hllen]
  -- iterator arguments
  have hnodek : nodeAt (getL cfg i) k = ((getL cfg i).2.drop k).headD (getL cfg i).1 := by
    unfold nodeAt
    exact getD_eq_headD_drop _ _ _
  have hnodef : nodeAt (getL cfg i) f = first := by
    unfold nodeAt
    rw [getD_eq_headD_drop]
    have hxf : (getL cfg i).2 = (getL cfg i).2.take f ++
        (((getL cfg i).2.take l).drop f ++
          ((((getL cfg i).2.take k).drop l) ++ (getL cfg i).2.drop k)) := hxs
    have hdf : (getL cfg i).2.drop f = ((getL cfg i).2.take l).drop f ++
        ((((getL cfg i).2.take k).drop l) ++ (getL cfg i).2.drop k) := by
      conv_lhs => rw [hxf]
      exact List.drop_left' hflen'
    rw [hdf, hmfm]
    rfl
  have hnodel : nodeAt (getL cfg i) l = lst := by
    unfold nodeAt
    rw [getD_eq_headD_drop]
    have hxl : (getL cfg i).2 = (getL cfg i).2.take l ++
        ((((getL cfg i).2.take k).drop l) ++ (getL cfg i).2.drop k) := by
      rw [← List.append_assoc, htlk, List.take_append_drop]
    have hdl : (getL cfg i).2.drop l =
        (((getL cfg i).2.take k).drop l) ++ (getL cfg i).2.drop k := by
      conv_lhs => rw [hxl]
      exact List.drop_left' hllen'
    rw [hdl, hq1]
    rfl
  -- the ring in the decomposed shape
  have hwfi0 : chainB cfg.heap (getL cfg i).1 (getL cfg i).2 (getL cfg i).1 = true := by
    rw [hgdi]
    exact hall i hi
  have hwfi' : chainB cfg.heap (getL cfg i).1
      ((getL cfg i).2.take f ++
        (first :: (m' ++ (lst :: (q1' ++ (getL cfg i).2.drop k)))))
      (getL cfg i).1 = true := by
    have hh := hwfi0
    rw [hxs, hmfm, hq1] at hh
    simpa using hh
  have hnodesi : nodesOf cfg.lists[i] = (getL cfg i).1 ::
      ((getL cfg i).2.take f ++
        (first :: (m' ++ (lst :: (q1' ++ (getL cfg i).2.drop k))))) := by
    rw [← hgdi, nodesOf]
    conv_lhs => rw [hxs, hmfm, hq1]
    simp
  have hndi' : ((getL cfg i).1 ::
      ((getL cfg i).2.take f ++
        (first :: (m' ++ (lst :: (q1' ++ (getL cfg i).2.drop k)))))).Nodup := by
    have hh := nodup_component hnd hi
    rw [List.getD_eq_getElem _ _ hi, hnodesi] at hh
    exact hh
  have hring := splice_self_after hwfi' hndi'
  -- write addresses, for the frame argument
  have hxf2 : chainB cfg.heap (getL cfg i).1
      ((getL cfg i).2.take f ++ (first :: (m' ++ (getL cfg i).2.drop l)))
      (getL cfg i).1 = true := by
    have hh := hwfi0
    rw [show (getL cfg i).2 = (getL cfg i).2.take f ++
        (((getL cfg i).2.take l).drop f ++ (getL cfg i).2.drop l) by
      rw [← List.append_assoc, hpm, List.take_append_drop], hmfm] at hh
    simpa using hh
  have hprev_first : cfg.heap.prev first =
      ((getL cfg i).2.take f).getLastD (getL cfg i).1 := by
    have hh := chain_prev_cut hxf2
    simpa using hh
  have hxl2 : chainB cfg.heap (getL cfg i).1
      ((getL cfg i).2.take l ++ (lst :: (q1' ++ (getL cfg i).2.drop k)))
      (getL cfg i).1 = true := by
    have hh := hwfi0
    rw [show (getL cfg i).2 = (getL cfg i).2.take l ++
        ((((getL cfg i).2.take k).drop l) ++ (getL cfg i).2.drop k) by
      rw [← List.append_assoc, htlk, List.take_append_drop], hq1] at hh
    simpa using hh
  have hprev_lst : cfg.heap.prev lst =
      ((getL cfg i).2.take l).getLastD (getL cfg i).1 := by
    have hh := chain_prev_cut hxl2
    simpa using hh
  have hxk2 : chainB cfg.heap (getL cfg i).1
      ((getL cfg i).2.take k ++ (getL cfg i).2.drop k) (getL cfg i).1 = true := by
    rw [List.take_append_drop]
    exact hwfi0
  have hprev_pos : cfg.heap.prev (((getL cfg i).2.drop k).headD (getL cfg i).1) =
      ((getL cfg i).2.take k).getLastD (getL cfg i).1 := chain_prev_cut hxk2
  -- memberships of the six write addresses in the ring
  have hsi_mem : (getL cfg i).1 ∈ nodesOf cfg.lists[i] := by
    rw [← hgdi]
    exact List.mem_cons_self _ _
  have hsub_xs : ∀ {x}, x ∈ (getL cfg i).2 → x ∈ nodesOf cfg.lists[i] := by
    intro x hx
    rw [← hgdi]
    exact List.mem_cons_of_mem _ hx
  have hsub_take : ∀ {n x}, x ∈ (getL cfg i).2.take n → x ∈ nodesOf cfg.lists[i] :=
    fun hx => hsub_xs (List.take_subset _ _ hx)
  have hsub_drop : ∀ {n x}, x ∈ (getL cfg i).2.drop n → x ∈ nodesOf cfg.lists[i] :=
    fun hx => hsub_xs (List.drop_subset _ _ hx)
  have hmem_pfirst : cfg.heap.prev first ∈ nodesOf cfg.lists[i] := by
    rw [hprev_first]
    rcases List.mem_cons.mp (List.getLastD_mem_cons ((getL cfg i).2.take f) (getL cfg i).1)
      with h1 | h1
    · rw [h1]; exact hsi_mem
    · exact hsub_take h1
  have hmem_plst : cfg.heap.prev lst ∈ nodesOf cfg.lists[i] := by
    rw [hprev_lst]
    rcases List.mem_cons.mp (List.getLastD_mem_cons ((getL cfg i).2.take l) (getL cfg i).1)
      with h1 | h1
    · rw [h1]; exact hsi_mem
    · exact hsub_take h1
  have hmem_ppos : cfg.heap.prev (((getL cfg i).2.drop k).headD (getL cfg i).1) ∈
      nodesOf cfg.lists[i] := by
    rw [hprev_pos]
    rcases List.mem_cons.mp (List.getLastD_mem_cons ((getL cfg i).2.take k) (getL cfg i).1)
      with h1 | h1
    · rw [h1]; exact hsi_mem
    · exact hsub_take h1
  have hmem_lst : lst ∈ nodesOf cfg.lists[i] := by
    refine hsub_take (n := k) ?_
    exact List.drop_subset _ _ (hq1 ▸ List.mem_cons_self lst q1')
  have hmem_first : first ∈ nodesOf cfg.lists[i] := by
    refine hsub_take (n := l) ?_
    exact List.drop_subset _ _ (hmfm ▸ List.mem_cons_self first m')
  have hmem_pos : ((getL cfg i).2.drop k).headD (getL cfg i).1 ∈ nodesOf cfg.lists[i] := by
    rcases List.mem_cons.mp (headD_mem ((getL cfg i).2.drop k) (getL cfg i).1) with h1 | h1
    · rw [h1]; exact hsi_mem
    · exact hsub_drop h1
  -- the configuration-level goal
  simp only [execOp]
  rw [if_true, hnodek, hnodef, hnodel]
  have hghost : selfSpliceGhost (getL cfg i).2 k f l =
      (getL cfg i).2.take f ++
        (lst :: (q1' ++ (first :: (m' ++ (getL cfg i).2.drop k)))) := by
    unfold selfSpliceGhost
    rw [if_neg (by omega), hmfm, hq1]
    simp [List.append_assoc]
  rw [hghost]
  rw [WFb_iff]
  constructor
  · intro k' hk'
    simp only [List.length_set] at hk'
    rw [List.getElem_set]
    by_cases hki : i = k'
    · rw [if_pos hki]
      exact hring
    · rw [if_neg hki]
      refine chain_frame_transport (hall k' hk') ?_
      intro n hn
      have hnotid : ∀ {y : Nat}, y ∈ nodesOf cfg.lists[i] → n ≠ y := by
        intro y hy hq
        exact disjoint_idx hnd (fun hz => hki hz.symm) hk' hi hn (hq ▸ hy)
      exact splice_frame' cfg.heap (((getL cfg i).2.drop k).headD (getL cfg i).1)
        (getL cfg i).1 first lst n
        (hnotid hmem_pfirst) (hnotid hmem_ppos)
        (hnotid hmem_plst) (hnotid hmem_lst) (hnotid hmem_first) (hnotid hmem_pos)
  · show (((cfg.lists.set i _).map nodesOf).flatten).Nodup
    refine nodup_allNodes_set hi _ [] hnd (by simp) (by simp) ?_
    intro a
    rw [List.getD_eq_getElem _ _ hi, hnodesi]
    simp only [nodesOf, List.count_cons, List.count_append, List.count_nil]
    omega

/-- A same-list splice whose destination is exactly the end of the moved
range is a heap no-op and preserves well-formedness. -/
theorem step_splice_selfE {cfg : Config} {i f l : Nat} (hwf : WFb cfg = true)
    (hi : i < cfg.lists.length) (hfl : f < l) (hl : l ≤ (getL cfg i).2.length) :
    WFb (execOp cfg (.spliceOp i l i f l)) = true := by
  obtain ⟨hall, hnd⟩ := (WFb_iff cfg).mp hwf
  have hgdi : getL cfg i = cfg.lists[i] := List.getD_eq_getElem _ _ hi
  have hflen : f ≤ (getL cfg i).2.length := Nat.le_trans (Nat.le_of_lt hfl) hl
  have hpf : (getL cfg i).2.take f = ((getL cfg i).2.take l).take f := by
    rw [List.take_take, Nat.min_eq_left (Nat.le_of_lt hfl)]
  have hpm : (getL cfg i).2.take f ++ ((getL cfg i).2.take l).drop f =
      (getL cfg i).2.take l := by
    rw [hpf]
    exact List.take_append_drop f _
  have hmlen : (((getL cfg i).2.take l).drop f).length = l - f := by
    rw [List.length_drop, List.length_take, Nat.min_eq_left hl]
  obtain ⟨first, m', hmfm⟩ : ∃ a b, ((getL cfg i).2.take l).drop f = a :: b := by
    cases hq : ((getL cfg i).2.take l).drop f with
    | nil => rw [hq] at hmlen; simp at hmlen; omega
    | cons a b => exact ⟨a, b, rfl⟩
  have hflen' : ((getL cfg i).2.take f).length = f := by
    rw [List.length_take, Nat.min_eq_left hflen]
  have hwfi0 : chainB cfg.heap (getL cfg i).1 (getL cfg i).2 (getL cfg i).1 = true := by
    rw [hgdi]
    exact hall i hi
  have hnodef : nodeAt (getL cfg i) f = first := by
    unfold nodeAt
    rw [getD_eq_headD_drop]
    have hdf : (getL cfg i).2.drop f =
        ((getL cfg i).2.take l).drop f ++ (getL cfg i).2.drop l := by
      conv_lhs => rw [show (getL cfg i).2 = (getL cfg i).2.take f ++
          (((getL cfg i).2.take l).drop f ++ (getL cfg i).2.drop l) by
        rw [← List.append_assoc, hpm, List.take_append_drop]]
      exact List.drop_left' hflen'
    rw [hdf, hmfm]
    rfl
  have hnodel : nodeAt (getL cfg i) l = ((getL cfg i).2.drop l).headD (getL cfg i).1 := by
    unfold nodeAt
    exact getD_eq_headD_drop _ _ _
  have hxf2 : chainB cfg.heap (getL cfg i).1
      ((getL cfg i).2.take f ++ (first :: (m' ++ (getL cfg i).2.drop l)))
      (getL cfg i).1 = true := by
    have hh := hwfi0
    rw [show (getL cfg i).2 = (getL cfg i).2.take f ++
        (((getL cfg i).2.take l).drop f ++ (getL cfg i).2.drop l) by
      rw [← List.append_assoc, hpm, List.take_append_drop], hmfm] at hh
    simpa using hh
  have hxl2 : chainB cfg.heap (getL cfg i).1
      ((getL cfg i).2.take l ++ (getL cfg i).2.drop l) (getL cfg i).1 = true := by
    rw [List.take_append_drop]
    exact hwfi0
  have hprev_first : cfg.heap.prev first =
      ((getL cfg i).2.take f).getLastD (getL cfg i).1 := by
    have hh := chain_prev_cut hxf2
    simpa using hh
  have hnext_P : cfg.heap.next (((getL cfg i).2.take f).getLastD (getL cfg i).1) = first := by
    have hh := chain_next_cut hxf2
    simpa using hh
  have hprev_pos : cfg.heap.prev (((getL cfg i).2.drop l).headD (getL cfg i).1) =
      ((getL cfg i).2.take l).getLastD (getL cfg i).1 := chain_prev_cut hxl2
  have hnext_SL : cfg.heap.next (((getL cfg i).2.take l).getLastD (getL cfg i).1) =
      ((getL cfg i).2.drop l).headD (getL cfg i).1 := chain_next_cut hxl2
  -- first is strictly inside the range, so it differs from the destination
  have hndi0 : ((getL cfg i).1 :: (getL cfg i).2).Nodup := by
    have hh := nodup_component hnd hi
    rw [List.getD_eq_getElem _ _ hi, ← hgdi] at hh
    exact hh
  have hfirst_mem : first ∈ (getL cfg i).2.take l :=
    List.drop_subset _ _ (hmfm ▸ List.mem_cons_self first m')
  have hfp : first ≠ ((getL cfg i).2.drop l).headD (getL cfg i).1 := by
    cases hq : (getL cfg i).2.drop l with
    | nil =>
        simp only [hq, List.headD_nil]
        intro hx
        exact (List.nodup_cons.mp hndi0).1 (hx ▸ List.take_subset _ _ hfirst_mem)
    | cons y ys =>
        simp only [hq, List.headD_cons]
        intro hx
        have hysub : y ∈ (getL cfg i).2.drop l := by
          rw [hq]; exact List.mem_cons_self _ _
        have hnd2 := (List.nodup_cons.mp hndi0).2
        have hnd3 : ((getL cfg i).2.take l ++ (getL cfg i).2.drop l).Nodup := by
          rw [List.take_append_drop]; exact hnd2
        have := (List.nodup_append.mp hnd3).2.2
        exact this hfirst_mem (hx ▸ hysub)
  have hheap : splice cfg.heap (((getL cfg i).2.drop l).headD (getL cfg i).1)
      (getL cfg i).1 first (((getL cfg i).2.drop l).headD (getL cfg i).1) = cfg.heap :=
    splice_noop_adjacent hprev_first hnext_P hprev_pos hnext_SL hfp
  simp only [execOp]
  rw [if_true, hnodef, hnodel, hheap, selfSpliceGhost_adjacent _ _ _ (Nat.le_of_lt hfl)]
  have hpi : ((getL cfg i).1, (getL cfg i).2) = cfg.lists[i] := by
    rw [Prod.mk.eta]
    exact List.getD_eq_getElem _ _ hi
  rw [hpi, set_getElem_self cfg.lists hi]
  exact hwf

theorem step_moveAssignOp {cfg : Config} {i j : Nat} (hwf : WFb cfg = true)
    (hv : validOpB cfg (.moveAssignOp i j) = true) :
    WFb (execOp cfg (.moveAssignOp i j)) = true := by
  have hi : i < cfg.lists.length := by
    simp only [validOpB, Bool.and_eq_true, decide_eq_true_iff] at hv
    exact hv.1
  have hj : j < cfg.lists.length := by
    simp only [validOpB, Bool.and_eq_true, decide_eq_true_iff] at hv
    exact hv.2
  obtain ⟨hall, hnd⟩ := (WFb_iff cfg).mp hwf
  by_cases hij : i = j
  · subst hij
    have hvc : validOpB cfg (.clearOp i) = true := by
      simp only [validOpB, decide_eq_true_iff]
      exact hi
    have := step_clearOp hwf hvc
    simp only [execOp] at this ⊢
    rw [if_true, moveAssign_self]
    exact this
  · have hgdi : getL cfg i = cfg.lists[i] := List.getD_eq_getElem _ _ hi
    have hgdj : getL cfg j = cfg.lists[j] := List.getD_eq_getElem _ _ hj
    set si := (getL cfg i).1 with hsid
    set sj := (getL cfg j).1 with hsjd
    set xsj := (getL cfg j).2 with hxsjd
    have hnodesj : nodesOf cfg.lists[j] = sj :: xsj := by
      rw [← hgdj]; rfl
    have hnodesi : nodesOf cfg.lists[i] = si :: (getL cfg i).2 := by
      rw [← hgdi]; rfl
    have hwfj : chainB cfg.heap sj xsj sj = true := by
      have hh := hall j hj
      rw [← hgdj] at hh
      exact hh
    have hndj : (sj :: xsj).Nodup := by
      have hh := nodup_component hnd hj
      rw [List.getD_eq_getElem _ _ hj, hnodesj] at hh
      exact hh
    have hsimem : si ∈ nodesOf cfg.lists[i] := by
      rw [hnodesi]; exact List.mem_cons_self _ _
    have hdmem : si ∉ sj :: xsj := by
      intro hq
      exact disjoint_idx hnd hij hi hj hsimem (hnodesj ▸ hq)
    obtain ⟨hringd, hnextS, hprevS, hframe⟩ := move_ring hwfj hndj hdmem
    simp only [execOp]
    rw [if_neg hij]
    rw [WFb_iff]
    constructor
    · intro k hk
      simp only [List.length_set] at hk
      rw [List.getElem_set, List.getElem_set]
      by_cases hkj : j = k
      · rw [if_pos hkj]
        simp only [chainB_nil, Bool.and_eq_true, beq_iff_eq]
        exact ⟨hnextS, hprevS⟩
      · rw [if_neg hkj]
        by_cases hki : i = k
        · rw [if_pos hki]
          exact hringd
        · rw [if_neg hki]
          refine chain_frame_transport (hall k hk) ?_
          intro n hn
          have hnsi : n ≠ si := fun hq =>
            disjoint_idx hnd (fun hz => hki hz.symm) hk hi hn (hq ▸ hsimem)
          have hnsj : n ≠ sj := fun hq =>
            disjoint_idx hnd (fun hz => hkj hz.symm) hk hj hn
              (by rw [hnodesj]; exact hq ▸ List.mem_cons_self _ _)
          have hnxsj : n ∉ xsj := fun hq =>
            disjoint_idx hnd (fun hz => hkj hz.symm) hk hj hn
              (by rw [hnodesj]; exact List.mem_cons_of_mem _ hq)
          exact hframe n hnsi hnsj hnxsj
    · show ((((cfg.lists.set i (si, xsj)).set j (sj, [])).map nodesOf).flatten).Nodup
      rw [List.set_comm _ _ _ hij]
      have hnd1 : (((cfg.lists.set j (sj, [])).map nodesOf).flatten).Nodup := by
        refine nodup_allNodes_set hj (sj, []) [] hnd (by simp) (by simp) ?_
        intro a
        rw [List.getD_eq_getElem _ _ hj, hnodesj]
        simp only [nodesOf, List.count_cons, List.count_nil]
        omega
      have hi1 : i < (cfg.lists.set j (sj, [])).length := by
        rw [List.length_set]; exact hi
      refine nodup_allNodes_set hi1 (si, xsj) xsj hnd1 ?_ ?_ ?_
      · intro a ha
        have hcnt := count_allNodes_set cfg.lists hj (sj, []) a
        have hle : List.count a ((cfg.lists.map nodesOf).flatten) ≤ 1 :=
          List.nodup_iff_count_le_one.mp hnd a
        have hmemj : 1 ≤ List.count a (nodesOf cfg.lists[j]) := by
          rw [hnodesj]
          exact List.count_pos_iff.mpr (List.mem_cons_of_mem _ ha)
        have hasj : a ≠ sj := fun hq => (List.nodup_cons.mp hndj).1 (hq ▸ ha)
        have hzero : List.count a (nodesOf (sj, [])) = 0 := by
          simp only [nodesOf]
          rw [List.count_eq_zero]
          simp only [List.mem_singleton]
          exact hasj
        rw [← List.count_eq_zero]
        rw [hzero] at hcnt
        omega
      · exact (List.nodup_cons.mp hndj).2
      · intro a
        have hgd1 : (cfg.lists.set j (sj, [])).getD i (0, []) = cfg.lists[i] := by
          rw [List.getD_eq_getElem _ _ hi1, List.getElem_set]
          exact if_neg (fun hz => hij hz.symm)
        rw [hgd1, hnodesi]
        simp only [nodesOf, List.count_cons]
        omega

/-- Any valid splice preserves well-formedness. -/
theorem step_spliceOp {cfg : Config} {i k j f l : Nat} (hwf : WFb cfg = true)
    (hv : validOpB cfg (.spliceOp i k j f l) = true) :
    WFb (execOp cfg (.spliceOp i k j f l)) = true := by
  simp only [validOpB, Bool.and_eq_true, Bool.or_eq_true, decide_eq_true_iff] at hv
  obtain ⟨⟨⟨⟨⟨hi, hj⟩, hk⟩, hfle⟩, hle⟩, hcond⟩ := hv
  by_cases hfl2 : f = l
  · subst hfl2
    exact step_splice_deg hwf hi hj
  · have hflt : f < l := Nat.lt_of_le_of_ne hfle hfl2
    by_cases hij : i = j
    · subst hij
      have hcond' : k < f ∨ l ≤ k := by
        rcases hcond with (h1 | h1) | h1
        · rcases h1 with h2 | h2
          · exact absurd rfl h2
          · exact Or.inl h2
        · exact Or.inr h1
        · exact absurd h1 hfl2
      rcases hcond' with hkf | hlk
      · exact step_splice_selfA hwf hi hkf hflt hle
      · rcases Nat.eq_or_lt_of_le hlk with hkl | hkl
        · subst hkl
          exact step_splice_selfE hwf hi hflt hle
        · exact step_splice_selfB hwf hi hflt hkl hk
    · exact step_splice_cross hwf hij hi hj hflt hle

/-- One valid operation preserves well-formedness. -/
theorem stepWF {cfg : Config} {op : Op} (hwf : WFb cfg = true)
    (hv : validOpB cfg op = true) : WFb (execOp cfg op) = true := by
  cases op with
  | construct s => exact step_construct hwf hv
  | clearOp i => exact step_clearOp hwf hv
  | pushBack i e => exact step_pushBack hwf hv
  | pushFront i e => exact step_pushFront hwf hv
  | popBack i => exact step_popBack hwf hv
  | popFront i => exact step_popFront hwf hv
  | insertOp i k e => exact step_insertOp hwf hv
  | eraseOp i k => exact step_eraseOp hwf hv
  | spliceOp i k j f l => exact step_spliceOp hwf hv
  | moveAssignOp i j => exact step_moveAssignOp hwf hv

/-- A whole valid sequence preserves well-formedness. -/
theorem seqWF {ops : List Op} :
    ∀ {cfg : Config}, WFb cfg = true → validSeqB cfg ops = true →
      WFb (execSeq cfg ops) = true := by
  induction ops with
  | nil => intro cfg hwf _; exact hwf
  | cons op ops ih =>
      intro cfg hwf hv
      simp only [validSeqB, Bool.and_eq_true] at hv
      exact ih (stepWF hwf hv.1) hv.2

/-!  From well-formedness to the pointer laws of the specification. -/

theorem chain_law1 {h : Heap} {b : Nat} :
    ∀ {xs : List Nat} {a : Nat}, chainB h a xs b = true →
      ∀ n ∈ a :: xs, h.prev (h.next n) = n := by
  intro xs
  induction xs with
  | nil =>
      intro a hc n hn
      simp only [chainB_nil, Bool.and_eq_true, beq_iff_eq] at hc
      simp only [List.mem_singleton] at hn
      subst hn
      rw [hc.1, hc.2]
  | cons x xs ih =>
      intro a hc n hn
      simp only [chainB_cons, Bool.and_eq_true, beq_iff_eq, and_assoc] at hc
      rcases List.mem_cons.mp hn with h1 | h1
      · subst h1
        rw [hc.1, hc.2.1]
      · exact ih hc.2.2 n h1

theorem chain_law2 {h : Heap} {b : Nat} :
    ∀ {xs : List Nat} {a : Nat}, chainB h a xs b = true →
      ∀ n ∈ xs ++ [b], h.next (h.prev n) = n := by
  intro xs
  induction xs with
  | nil =>
      intro a hc n hn
      simp only [chainB_nil, Bool.and_eq_true, beq_iff_eq] at hc
      simp only [List.nil_append, List.mem_singleton] at hn
      subst hn
      rw [hc.2, hc.1]
  | cons x xs ih =>
      intro a hc n hn
      simp only [chainB_cons, Bool.and_eq_true, beq_iff_eq, and_assoc] at hc
      rcases List.mem_cons.mp hn with h1 | h1
      · subst h1
        rw [hc.2.1, hc.1]
      · exact ih hc.2.2 n h1

/-- A well-formed configuration satisfies the spec's ring-consistency
check: pointer laws at every node and exactly one sentinel per ring. -/
theorem WFb_ringInvariant {cfg : Config} (hwf : WFb cfg = true) :
    ringInvariantB cfg = true := by
  obtain ⟨hall, hnd⟩ := (WFb_iff cfg).mp hwf
  unfold ringInvariantB
  rw [all_getElem]
  intro k hk
  rw [Bool.and_eq_true]
  have hc := hall k hk
  constructor
  · rw [List.all_eq_true]
    intro n hn
    rw [Bool.and_eq_true, beq_iff_eq, beq_iff_eq]
    constructor
    · exact chain_law1 hc n hn
    · refine chain_law2 hc n ?_
      rcases List.mem_cons.mp hn with h1 | h1
      · subst h1
        exact List.mem_append.mpr (Or.inr (List.mem_singleton.mpr rfl))
      · exact List.mem_append.mpr (Or.inl h1)
  · rw [beq_iff_eq]
    have hndk : (nodesOf cfg.lists[k]).Nodup := by
      have hh := nodup_component hnd hk
      rwa [List.getD_eq_getElem _ _ hk] at hh
    have hhead : (cfg.lists.map Prod.fst).contains (cfg.lists[k]).1 = true := by
      apply List.elem_eq_true_of_mem
      rw [List.mem_map]
      exact ⟨cfg.lists[k], List.getElem_mem hk, rfl⟩
    have htail : ∀ x ∈ (cfg.lists[k]).2,
        ¬ ((cfg.lists.map Prod.fst).contains x = true) := by
      intro x hx hcont
      have hxmem : x ∈ cfg.lists.map Prod.fst := by
        have := List.elem_iff.mp hcont
        exact this
      obtain ⟨lk', hlk', hfst⟩ := List.mem_map.mp hxmem
      obtain ⟨k', hk', he⟩ := List.mem_iff_getElem.mp hlk'
      by_cases hkk : k' = k
      · subst hkk
        have hndk' : ((cfg.lists[k']).1 :: (cfg.lists[k']).2).Nodup := hndk
        have hxx : x = cfg.lists[k'].1 := by rw [he]; exact hfst.symm
        exact (List.nodup_cons.mp hndk').1 (hxx ▸ hx)
      · refine disjoint_idx hnd hkk hk' hk (a := x) ?_ ?_
        · show x ∈ (cfg.lists[k']).1 :: (cfg.lists[k']).2
          rw [he, hfst]
          exact List.mem_cons_self _ _
        · exact List.mem_cons_of_mem _ hx
    show ((nodesOf cfg.lists[k]).filter _).length = 1
    unfold nodesOf
    rw [List.filter_cons_of_pos hhead]
    have : List.filter (fun n => (cfg.lists.map Prod.fst).contains n) (cfg.lists[k]).2 = [] := by
      rw [List.filter_eq_nil_iff]
      exact htail
    rw [this]
    rfl

/-- Traversing `next` from `begin()` with enough fuel lists exactly the
ring's elements. -/
theorem chainB_iterFrom {h : Heap} {b : Nat} :
    ∀ {xs : List Nat} {a : Nat}, chainB h a xs b = true → b ∉ xs →
      iterFrom h b xs.length (h.next a) = xs := by
  intro xs
  induction xs with
  | nil =>
      intro a hc _
      simp only [chainB_nil, Bool.and_eq_true, beq_iff_eq] at hc
      rw [hc.1]
      rfl
  | cons x xs ih =>
      intro a hc hb
      simp only [chainB_cons, Bool.and_eq_true, beq_iff_eq, and_assoc] at hc
      rw [hc.1]
      show iterFrom h b (xs.length + 1) x = x :: xs
      unfold iterFrom
      rw [if_neg (fun hq => hb (by rw [← hq]; exact List.mem_cons_self x xs))]
      rw [ih hc.2.2 (fun hq => hb (List.mem_cons_of_mem _ hq))]

theorem upd_self_of (f : Nat → Nat) (a v : Nat) (hv : f a = v) : upd f a v = f := by
  rw [← hv]
  exact upd_self f a

/-- Unlinking a node that is already in the self-referencing state leaves
the whole heap unchanged. -/
theorem unlink_self_noop {h : Heap} {t : Nat}
    (hp : h.prev t = t) (hn : h.next t = t) : unlink h t = h := by
  unfold unlink
  simp only [setPrev, setNext, hp, hn]
  rw [upd_same, upd_shadow, upd_shadow, upd_self_of _ _ _ hn, upd_self_of _ _ _ hp]

/-!  The claims. -/

/-- C1: Ring consistency invariant: after any sequence of valid operations
(construct, push and pop at both ends, insert, erase, splice, move
assignment and clear on well-formed lists), every node of every ring
satisfies `n.next.prev == n` and `n.prev.next == n`, and each ring is a
closed chain through its sentinel containing exactly one sentinel. -/
theorem C1_ring_invariant (cfg : Config) (ops : List Op)
    (hwf : WFb cfg = true) (hv : validSeqB cfg ops = true) :
    WFb (execSeq cfg ops) = true ∧ ringInvariantB (execSeq cfg ops) = true := by
  have hw := seqWF hwf hv
  exact ⟨hw, WFb_ringInvariant hw⟩

/-- Witness for C1 on a concrete run exercising every operation. -/
theorem C1_ring_invariant_witness :
    (WFb ⟨⟨fun _ => 0, fun _ => 0⟩, []⟩ = true ∧
      validSeqB ⟨⟨fun _ => 0, fun _ => 0⟩, []⟩
        [.construct 10, .pushBack 0 1, .pushBack 0 2, .pushFront 0 3,
         .insertOp 0 1 4, .construct 20, .pushBack 1 5,
         .spliceOp 1 1 0 1 3, .popBack 0, .eraseOp 1 0,
         .spliceOp 1 2 1 0 1, .moveAssignOp 0 1, .clearOp 1] = true) ∧
    (WFb (execSeq ⟨⟨fun _ => 0, fun _ => 0⟩, []⟩
        [.construct 10, .pushBack 0 1, .pushBack 0 2, .pushFront 0 3,
         .insertOp 0 1 4, .construct 20, .pushBack 1 5,
         .spliceOp 1 1 0 1 3, .popBack 0, .eraseOp 1 0,
         .spliceOp 1 2 1 0 1, .moveAssignOp 0 1, .clearOp 1]) = true ∧
      ringInvariantB (execSeq ⟨⟨fun _ => 0, fun _ => 0⟩, []⟩
        [.construct 10, .pushBack 0 1, .pushBack 0 2, .pushFront 0 3,
         .insertOp 0 1 4, .construct 20, .pushBack 1 5,
         .spliceOp 1 1 0 1 3, .popBack 0, .eraseOp 1 0,
         .spliceOp 1 2 1 0 1, .moveAssignOp 0 1, .clearOp 1]) = true) :=
  ⟨⟨by decide, by decide⟩, C1_ring_invariant _ _ (by decide) (by decide)⟩

/-- C2: Splice correctness: `splice(pos, otherList, first, last)` with
`first == last` is a no-op; a valid cross-list splice removes the range
from the source ring and re-links it, in the same relative order,
immediately before `pos` in the destination ring (shown both on the ghost
inventory and by iterating the resulting heap); a same-list splice whose
destination position is disjoint from the range (before it, or at or
after its end) likewise removes the range and re-links it, in order,
immediately before the destination position of the same ring; and on the
spec's concrete example, splicing the range `[2,4)` of `A = [1,2,3,4]`
before the element `6` of `B = [5,6]` yields `A = [1,4]` and
`B = [5,2,3,6]`. -/
theorem C2_splice_correctness :
    (∀ (h : Heap) (pos src a : Nat), splice h pos src a a = h) ∧
    (∀ (cfg : Config) (i k j f l : Nat),
      WFb cfg = true → i ≠ j →
      i < cfg.lists.length → j < cfg.lists.length →
      k ≤ (getL cfg i).2.length → f ≤ l → l ≤ (getL cfg j).2.length →
      WFb (execOp cfg (.spliceOp i k j f l)) = true ∧
      (getL (execOp cfg (.spliceOp i k j f l)) i).2 =
        (getL cfg i).2.take k ++ ((getL cfg j).2.take l).drop f ++ (getL cfg i).2.drop k ∧
      (getL (execOp cfg (.spliceOp i k j f l)) j).2 =
        (getL cfg j).2.take f ++ (getL cfg j).2.drop l ∧
      iterFrom (execOp cfg (.spliceOp i k j f l)).heap (getL cfg i).1
          ((getL cfg i).2.take k ++ ((getL cfg j).2.take l).drop f ++
            (getL cfg i).2.drop k).length
          (beginIt (execOp cfg (.spliceOp i k j f l)).heap (getL cfg i).1) =
        (getL cfg i).2.take k ++ ((getL cfg j).2.take l).drop f ++ (getL cfg i).2.drop k ∧
      iterFrom (execOp cfg (.spliceOp i k j f l)).heap (getL cfg j).1
          ((getL cfg j).2.take f ++ (getL cfg j).2.drop l).length
          (beginIt (execOp cfg (.spliceOp i k j f l)).heap (getL cfg j).1) =
        (getL cfg j).2.take f ++ (getL cfg j).2.drop l) ∧
    (∀ (cfg : Config) (i k f l : Nat),
      WFb cfg = true →
      i < cfg.lists.length →
      k ≤ (getL cfg i).2.length → f ≤ l → l ≤ (getL cfg i).2.length →
      (k < f ∨ l ≤ k) →
      WFb (execOp cfg (.spliceOp i k i f l)) = true ∧
      (getL (execOp cfg (.spliceOp i k i f l)) i).2 =
        (if k < f then
          (getL cfg i).2.take k ++ ((getL cfg i).2.take l).drop f ++
            ((getL cfg i).2.take f).drop k ++ (getL cfg i).2.drop l
        else
          (getL cfg i).2.take f ++ ((getL cfg i).2.take k).drop l ++
            ((getL cfg i).2.take l).drop f ++ (getL cfg i).2.drop k) ∧
      iterFrom (execOp cfg (.spliceOp i k i f l)).heap (getL cfg i).1
          (if k < f then
            (getL cfg i).2.take k ++ ((getL cfg i).2.take l).drop f ++
              ((getL cfg i).2.take f).drop k ++ (getL cfg i).2.drop l
          else
            (getL cfg i).2.take f ++ ((getL cfg i).2.take k).drop l ++
              ((getL cfg i).2.take l).drop f ++ (getL cfg i).2.drop k).length
          (beginIt (execOp cfg (.spliceOp i k i f l)).heap (getL cfg i).1) =
        (if k < f then
          (getL cfg i).2.take k ++ ((getL cfg i).2.take l).drop f ++
            ((getL cfg i).2.take f).drop k ++ (getL cfg i).2.drop l
        else
          (getL cfg i).2.take f ++ ((getL cfg i).2.take k).drop l ++
            ((getL cfg i).2.take l).drop f ++ (getL cfg i).2.drop k)) ∧
    (iterFrom (execSeq ⟨⟨fun _ => 0, fun _ => 0⟩, []⟩
        [.construct 10, .pushBack 0 1, .pushBack 0 2, .pushBack 0 3, .pushBack 0 4,
         .construct 20, .pushBack 1 5, .pushBack 1 6, .spliceOp 1 1 0 1 3]).heap
        10 2 ((execSeq ⟨⟨fun _ => 0, fun _ => 0⟩, []⟩
        [.construct 10, .pushBack 0 1, .pushBack 0 2, .pushBack 0 3, .pushBack 0 4,
         .construct 20, .pushBack 1 5, .pushBack 1 6, .spliceOp 1 1 0 1 3]).heap.next 10) =
        [1, 4] ∧
      iterFrom (execSeq ⟨⟨fun _ => 0, fun _ => 0⟩, []⟩
        [.construct 10, .pushBack 0 1, .pushBack 0 2, .pushBack 0 3, .pushBack 0 4,
         .construct 20, .pushBack 1 5, .pushBack 1 6, .spliceOp 1 1 0 1 3]).heap
        20 4 ((execSeq ⟨⟨fun _ => 0, fun _ => 0⟩, []⟩
        [.construct 10, .pushBack 0 1, .pushBack 0 2, .pushBack 0 3, .pushBack 0 4,
         .construct 20, .pushBack 1 5, .pushBack 1 6, .spliceOp 1 1 0 1 3]).heap.next 20) =
        [5, 2, 3, 6]) := by
  refine ⟨?_, ?_, ?_, by decide, by decide⟩
  · intro h pos src a
    unfold splice
    rw [if_pos rfl]
  · intro cfg i k j f l hwf hij hi hj hk hfle hle
    have hv : validOpB cfg (.spliceOp i k j f l) = true := by
      simp only [validOpB, Bool.and_eq_true, Bool.or_eq_true, decide_eq_true_iff]
      exact ⟨⟨⟨⟨⟨hi, hj⟩, hk⟩, hfle⟩, hle⟩, Or.inl (Or.inl (Or.inl hij))⟩
    have hwf' := step_spliceOp hwf hv
    have hexec : execOp cfg (.spliceOp i k j f l) =
        ⟨splice cfg.heap (nodeAt (getL cfg i) k) (getL cfg j).1
           (nodeAt (getL cfg j) f) (nodeAt (getL cfg j) l),
         (cfg.lists.set j ((getL cfg j).1, (getL cfg j).2.take f ++ (getL cfg j).2.drop l)).set
           i ((getL cfg i).1,
             (getL cfg i).2.take k ++ ((getL cfg j).2.take l).drop f ++
               (getL cfg i).2.drop k)⟩ := by
      simp only [execOp]
      rw [if_neg hij]
    have hlen' : (execOp cfg (.spliceOp i k j f l)).lists.length = cfg.lists.length := by
      rw [hexec]
      simp [List.length_set]
    have hi' : i < (execOp cfg (.spliceOp i k j f l)).lists.length := by
      rw [hlen']; exact hi
    have hj' : j < (execOp cfg (.spliceOp i k j f l)).lists.length := by
      rw [hlen']; exact hj
    have hgetLi : getL (execOp cfg (.spliceOp i k j f l)) i =
        ((getL cfg i).1, (getL cfg i).2.take k ++ ((getL cfg j).2.take l).drop f ++
          (getL cfg i).2.drop k) := by
      unfold getL
      rw [hexec]
      show ((cfg.lists.set j _).set i _).getD i (0, []) = _
      rw [List.getD_eq_getElem _ _ (by simp only [List.length_set]; exact hi),
        List.getElem_set]
      exact if_pos rfl
    have hgetLj : getL (execOp cfg (.spliceOp i k j f l)) j =
        ((getL cfg j).1, (getL cfg j).2.take f ++ (getL cfg j).2.drop l) := by
      unfold getL
      rw [hexec]
      show ((cfg.lists.set j _).set i _).getD j (0, []) = _
      rw [List.getD_eq_getElem _ _ (by simp only [List.length_set]; exact hj),
        List.getElem_set, if_neg hij, List.getElem_set]
      exact if_pos rfl
    obtain ⟨hall', hnd'⟩ := (WFb_iff _).mp hwf'
    have hgetd_i : (execOp cfg (.spliceOp i k j f l)).lists[i] =
        getL (execOp cfg (.spliceOp i k j f l)) i :=
      (List.getD_eq_getElem _ _ hi').symm
    have hgetd_j : (execOp cfg (.spliceOp i k j f l)).lists[j] =
        getL (execOp cfg (.spliceOp i k j f l)) j :=
      (List.getD_eq_getElem _ _ hj').symm
    have hchi := hall' i hi'
    rw [hgetd_i, hgetLi] at hchi
    have hchj := hall' j hj'
    rw [hgetd_j, hgetLj] at hchj
    have hndi' : (((getL cfg i).1 :: ((getL cfg i).2.take k ++
        ((getL cfg j).2.take l).drop f ++ (getL cfg i).2.drop k))).Nodup := by
      have hh := nodup_component hnd' hi'
      rw [List.getD_eq_getElem _ _ hi', hgetd_i, hgetLi] at hh
      exact hh
    have hndj' : (((getL cfg j).1 :: ((getL cfg j).2.take f ++
        (getL cfg j).2.drop l))).Nodup := by
      have hh := nodup_component hnd' hj'
      rw [List.getD_eq_getElem _ _ hj', hgetd_j, hgetLj] at hh
      exact hh
    refine ⟨hwf', by rw [hgetLi], by rw [hgetLj], ?_, ?_⟩
    · exact chainB_iterFrom hchi (List.nodup_cons.mp hndi').1
    · exact chainB_iterFrom hchj (List.nodup_cons.mp hndj').1
  · intro cfg i k f l hwf hi hk hfle hle hdisj
    have hv : validOpB cfg (.spliceOp i k i f l) = true := by
      simp only [validOpB, Bool.and_eq_true, Bool.or_eq_true, decide_eq_true_iff]
      refine ⟨⟨⟨⟨⟨hi, hi⟩, hk⟩, hfle⟩, hle⟩, ?_⟩
      rcases hdisj with h1 | h1
      · exact Or.inl (Or.inl (Or.inr h1))
      · exact Or.inl (Or.inr h1)
    have hwf' := step_spliceOp hwf hv
    have hexec : execOp cfg (.spliceOp i k i f l) =
        ⟨splice cfg.heap (nodeAt (getL cfg i) k) (getL cfg i).1
           (nodeAt (getL cfg i) f) (nodeAt (getL cfg i) l),
         cfg.lists.set i ((getL cfg i).1, selfSpliceGhost (getL cfg i).2 k f l)⟩ := by
      simp only [execOp]
      rw [if_true]
    have hi' : i < (execOp cfg (.spliceOp i k i f l)).lists.length := by
      rw [hexec]
      simp only [List.length_set]
      exact hi
    have hgetLi : getL (execOp cfg (.spliceOp i k i f l)) i =
        ((getL cfg i).1, selfSpliceGhost (getL cfg i).2 k f l) := by
      unfold getL
      rw [hexec]
      show (cfg.lists.set i _).getD i (0, []) = _
      rw [List.getD_eq_getElem _ _ (by simp only [List.length_set]; exact hi),
        List.getElem_set]
      exact if_pos rfl
    obtain ⟨hall', hnd'⟩ := (WFb_iff _).mp hwf'
    have hgetd_i : (execOp cfg (.spliceOp i k i f l)).lists[i] =
        getL (execOp cfg (.spliceOp i k i f l)) i :=
      (List.getD_eq_getElem _ _ hi').symm
    have hchi := hall' i hi'
    rw [hgetd_i, hgetLi] at hchi
    have hndi' : ((getL cfg i).1 :: selfSpliceGhost (getL cfg i).2 k f l).Nodup := by
      have hh := nodup_component hnd' hi'
      rw [List.getD_eq_getElem _ _ hi', hgetd_i, hgetLi] at hh
      exact hh
    refine ⟨hwf', ?_, ?_⟩
    · rw [hgetLi]
      rfl
    · exact chainB_iterFrom hchi (List.nodup_cons.mp hndi').1

/-- Witness for C2 on the spec's example lists. -/
theorem C2_splice_correctness_witness :
    (WFb (execSeq ⟨⟨fun _ => 0, fun _ => 0⟩, []⟩
        [.construct 10, .pushBack 0 1, .pushBack 0 2, .pushBack 0 3, .pushBack 0 4,
         .construct 20, .pushBack 1 5, .pushBack 1 6]) = true) ∧
    (WFb (execOp (execSeq ⟨⟨fun _ => 0, fun _ => 0⟩, []⟩
        [.construct 10, .pushBack 0 1, .pushBack 0 2, .pushBack 0 3, .pushBack 0 4,
         .construct 20, .pushBack 1 5, .pushBack 1 6]) (.spliceOp 1 1 0 1 3)) = true) ∧
    (WFb (execOp (execSeq ⟨⟨fun _ => 0, fun _ => 0⟩, []⟩
        [.construct 10, .pushBack 0 1, .pushBack 0 2, .pushBack 0 3, .pushBack 0 4])
        (.spliceOp 0 0 0 2 4)) = true) :=
  ⟨by decide,
   (C2_splice_correctness.2.1 (execSeq ⟨⟨fun _ => 0, fun _ => 0⟩, []⟩
      [.construct 10, .pushBack 0 1, .pushBack 0 2, .pushBack 0 3, .pushBack 0 4,
       .construct 20, .pushBack 1 5, .pushBack 1 6]) 1 1 0 1 3
      (by decide) (by decide) (by decide) (by decide) (by decide) (by decide)
      (by decide)).1,
   (C2_splice_correctness.2.2.1 (execSeq ⟨⟨fun _ => 0, fun _ => 0⟩, []⟩
      [.construct 10, .pushBack 0 1, .pushBack 0 2, .pushBack 0 3, .pushBack 0 4])
      0 0 2 4
      (by decide) (by decide) (by decide) (by decide) (by decide) (by decide)).1⟩

/-- C3: Move transfer: move-constructing a list with sentinel `d` from the
list with sentinel `s` yields a ring at `d` holding exactly the former
element addresses in the same order (no element is copied, the very same
nodes are re-linked), and leaves the source empty. -/
theorem C3_move_transfer {h : Heap} {d s : Nat} {xs : List Nat}
    (hc : chainB h s xs s = true) (hnd : (s :: xs).Nodup) (hd : d ∉ s :: xs) :
    chainB (moveConstruct h d s) d xs d = true ∧
      emptyB (moveConstruct h d s) s = true ∧
      iterFrom (moveConstruct h d s) d xs.length (beginIt (moveConstruct h d s) d) = xs := by
  have h1 : chainB (elemInit h d) s xs s = true := by
    refine chain_frame_transport hc ?_
    intro n hn
    have hnd' : n ≠ d := fun hq => hd (hq ▸ hn)
    rw [elemInit_eq]
    exact ⟨upd_other _ _ hnd', upd_other _ _ hnd'⟩
  obtain ⟨hring, hnextS, hprevS, _⟩ := move_ring h1 hnd hd
  have hdx : d ∉ xs := fun hq => hd (List.mem_cons_of_mem _ hq)
  refine ⟨hring, ?_, ?_⟩
  · show ((moveConstruct h d s).prev s == s) = true
    have : (moveConstruct h d s).prev s = s := hprevS
    rw [this]
    exact beq_self_eq_true s
  · exact chainB_iterFrom hring hdx

/-- Witness for C3 on a concrete two-element list. -/
theorem C3_move_transfer_witness :
    (chainB ⟨fun n => if n = 0 then 1 else if n = 1 then 2 else 0,
             fun n => if n = 0 then 2 else if n = 2 then 1 else 0⟩ 0 [1, 2] 0 = true) ∧
    (chainB (moveConstruct ⟨fun n => if n = 0 then 1 else if n = 1 then 2 else 0,
             fun n => if n = 0 then 2 else if n = 2 then 1 else 0⟩ 5 0) 5 [1, 2] 5 = true ∧
      emptyB (moveConstruct ⟨fun n => if n = 0 then 1 else if n = 1 then 2 else 0,
             fun n => if n = 0 then 2 else if n = 2 then 1 else 0⟩ 5 0) 0 = true ∧
      iterFrom (moveConstruct ⟨fun n => if n = 0 then 1 else if n = 1 then 2 else 0,
             fun n => if n = 0 then 2 else if n = 2 then 1 else 0⟩ 5 0) 5 2
        (beginIt (moveConstruct ⟨fun n => if n = 0 then 1 else if n = 1 then 2 else 0,
             fun n => if n = 0 then 2 else if n = 2 then 1 else 0⟩ 5 0) 5) = [1, 2]) :=
  ⟨by decide, C3_move_transfer (by decide) (by decide) (by decide)⟩

/-- C4, counterexample: popping from a concrete empty list unlinks the
sentinel, which is a no-op, so the list is still a well-formed empty
ring afterwards, contradicting the claim that it is corrupted. -/
theorem C4_pop_empty_counterexample :
    emptyB (pop_back ⟨fun _ => 0, fun _ => 0⟩ 0) 0 = true ∧
      chainB (pop_back ⟨fun _ => 0, fun _ => 0⟩ 0) 0 [] 0 = true ∧
      emptyB (pop_front ⟨fun _ => 0, fun _ => 0⟩ 0) 0 = true ∧
      chainB (pop_front ⟨fun _ => 0, fun _ => 0⟩ 0) 0 [] 0 = true := by
  decide

/-- C4, amended: calling `pop_back()` or `pop_front()` on an empty list
unlinks the sentinel itself, but unlinking a self-referencing node is a
no-op, so the heap is entirely unchanged and the list remains a
well-formed empty ring. -/
theorem C4_pop_empty_noop (h : Heap) (s : Nat)
    (hp : h.prev s = s) (hn : h.next s = s) :
    pop_back h s = h ∧ pop_front h s = h := by
  constructor
  · show unlink h (h.prev s) = h
    rw [hp]
    exact unlink_self_noop hp hn
  · show unlink h (h.next s) = h
    rw [hn]
    exact unlink_self_noop hp hn

/-- Witness for C4's amended statement. -/
theorem C4_pop_empty_noop_witness :
    (Heap.prev ⟨fun n => n, fun n => n⟩ 7 = 7 ∧ Heap.next ⟨fun n => n, fun n => n⟩ 7 = 7) ∧
      (pop_back ⟨fun n => n, fun n => n⟩ 7 = ⟨fun n => n, fun n => n⟩ ∧
        pop_front ⟨fun n => n, fun n => n⟩ 7 = ⟨fun n => n, fun n => n⟩) :=
  ⟨⟨rfl, rfl⟩, C4_pop_empty_noop _ 7 rfl rfl⟩

/-- C5: Empty round trip: a freshly constructed list is empty, and
`push_back(x)` followed by `pop_back()` on an empty list restores
emptiness and leaves `x` in the self-referencing unlinked state. -/
theorem C5_empty_round_trip :
    (∀ (h : Heap) (s : Nat), emptyB (listInit h s) s = true) ∧
    (∀ (h : Heap) (s x : Nat), x ≠ s → h.prev s = s → h.next s = s →
      emptyB (pop_back (push_back h s x) s) s = true ∧
        (pop_back (push_back h s x) s).prev x = x ∧
        (pop_back (push_back h s x) s).next x = x) := by
  constructor
  · intro h s
    show ((listInit h s).prev s == s) = true
    rw [listInit_eq]
    show (upd h.prev s s s == s) = true
    rw [upd_same]
    exact beq_self_eq_true s
  · intro h s x hxs hp hn
    have hempty : chainB h s ([] ++ []) s = true := by
      simp only [List.append_nil, chainB_nil, Bool.and_eq_true, beq_iff_eq]
      exact ⟨hn, hp⟩
    have hx : x ∉ s :: ([] ++ []) := by
      simp only [List.append_nil, List.mem_singleton]
      exact hxs
    have hlink := link_ring hempty (by simp) hx
    have hcall : push_back h s x = link h x (List.getLastD [] s) (List.headD [] s) := by
      unfold push_back
      rw [hp]
      rfl
    rw [hcall]
    set h1 := link h x (List.getLastD [] s) (List.headD [] s) with h1d
    have hc1 : chainB h1 s ([] ++ x :: []) s = true := hlink
    have hnd1 : (s :: ([] ++ x :: [])).Nodup := by
      simp only [List.nil_append, List.nodup_cons, List.mem_singleton, List.not_mem_nil,
        List.nodup_nil, and_true, not_false_iff]
      intro hq
      exact hxs hq.symm
    have hpop := unlink_ring hc1 hnd1
    have hcall2 : pop_back h1 s = unlink h1 x := by
      unfold pop_back
      have := chain_last hc1
      rw [this]
      rfl
    rw [hcall2]
    refine ⟨?_, hpop.2.2, hpop.2.1⟩
    have hc2 : chainB (unlink h1 x) s ([] ++ []) s = true := hpop.1
    simp only [List.append_nil, chainB_nil, Bool.and_eq_true, beq_iff_eq] at hc2
    show ((unlink h1 x).prev s == s) = true
    rw [hc2.2]
    exact beq_self_eq_true s

/-- Witness for C5. -/
theorem C5_empty_round_trip_witness :
    ((3 : Nat) ≠ 0 ∧ Heap.prev ⟨fun n => n, fun n => n⟩ 0 = 0 ∧
      Heap.next ⟨fun n => n, fun n => n⟩ 0 = 0) ∧
    (emptyB (listInit ⟨fun n => n, fun n => n⟩ 0) 0 = true) ∧
    (emptyB (pop_back (push_back ⟨fun n => n, fun n => n⟩ 0 3) 0) 0 = true ∧
      (pop_back (push_back ⟨fun n => n, fun n => n⟩ 0 3) 0).prev 3 = 3 ∧
      (pop_back (push_back ⟨fun n => n, fun n => n⟩ 0 3) 0).next 3 = 3) :=
  ⟨⟨by decide, rfl, rfl⟩, C5_empty_round_trip.1 _ 0,
   C5_empty_round_trip.2 ⟨fun n => n, fun n => n⟩ 0 3 (by decide) rfl rfl⟩

theorem push_back_chain {h : Heap} {s x : Nat} {xs : List Nat}
    (hc : chainB h s xs s = true) (hnd : (s :: xs).Nodup) (hx : x ∉ s :: xs) :
    chainB (push_back h s x) s (xs ++ [x]) s = true := by
  have hc' : chainB h s (xs ++ []) s = true := by rwa [List.append_nil]
  have hnd' : (s :: (xs ++ [])).Nodup := by rwa [List.append_nil]
  have hx' : x ∉ s :: (xs ++ []) := by rwa [List.append_nil]
  have hres := link_ring hc' hnd' hx'
  have hcall : push_back h s x = link h x (xs.getLastD s) (List.headD [] s) := by
    unfold push_back
    rw [chain_last hc]
    rfl
  rw [hcall]
  exact hres

theorem chain_prev_headD {h : Heap} {a b : Nat} {xs : List Nat}
    (hc : chainB h a xs b = true) : h.prev (xs.headD b) = a := by
  cases xs with
  | nil =>
      simp only [chainB_nil, Bool.and_eq_true, beq_iff_eq] at hc
      exact hc.2
  | cons x xs =>
      simp only [chainB_cons, Bool.and_eq_true, beq_iff_eq, and_assoc] at hc
      exact hc.2.1

theorem unlink_next_self (h : Heap) (t : Nat) : (unlink h t).next t = t := by
  simp only [unlink, setNext, setPrev]
  exact upd_same _ t t

theorem unlink_prev_self (h : Heap) (t : Nat) : (unlink h t).prev t = t := by
  simp only [unlink, setNext, setPrev]
  exact upd_same _ t t

/-- C6: Order preservation: pushing three distinct elements `a`, `b`, `c`
to the back of an empty list yields iteration order `a, b, c` from
`begin()` to `end()`, with `front() == a` and `back() == c`. -/
theorem C6_order_preservation (h : Heap) (s a b c : Nat)
    (hp : h.prev s = s) (hn : h.next s = s)
    (hsa : a ≠ s) (hsb : b ≠ s) (hsc : c ≠ s)
    (hab : a ≠ b) (hac : a ≠ c) (hbc : b ≠ c) :
    front (push_back (push_back (push_back h s a) s b) s c) s = a ∧
      back (push_back (push_back (push_back h s a) s b) s c) s = c ∧
      iterFrom (push_back (push_back (push_back h s a) s b) s c) s 3
        (beginIt (push_back (push_back (push_back h s a) s b) s c) s) = [a, b, c] := by
  have hc0 : chainB h s [] s = true := by
    simp only [chainB_nil, Bool.and_eq_true, beq_iff_eq]
    exact ⟨hn, hp⟩
  have hnd0 : (s :: ([] : List Nat)).Nodup := by simp
  have hxa : a ∉ s :: ([] : List Nat) := by
    simp only [List.mem_singleton]
    exact hsa
  have hc1 := push_back_chain hc0 hnd0 hxa
  rw [List.nil_append] at hc1
  have hnd1 : (s :: [a]).Nodup := by
    simp only [List.nodup_cons, List.mem_singleton, List.not_mem_nil, List.nodup_nil,
      and_true, not_false_iff]
    intro q
    exact hsa q.symm
  have hxb : b ∉ s :: [a] := by
    simp only [List.mem_cons, List.mem_singleton, List.not_mem_nil, or_false, not_or]
    exact ⟨hsb, Ne.symm hab⟩
  have hc2 := push_back_chain hc1 hnd1 hxb
  rw [show ([a] ++ [b] : List Nat) = [a, b] from rfl] at hc2
  have hnd2 : (s :: [a, b]).Nodup := by
    simp only [List.nodup_cons, List.mem_cons, List.mem_singleton, List.not_mem_nil,
      List.nodup_nil, or_false, and_true, not_or, not_false_iff]
    exact ⟨⟨Ne.symm hsa, Ne.symm hsb⟩, hab⟩
  have hxc : c ∉ s :: [a, b] := by
    simp only [List.mem_cons, List.mem_singleton, List.not_mem_nil, or_false, not_or]
    exact ⟨hsc, Ne.symm hac, Ne.symm hbc⟩
  have hc3 := push_back_chain hc2 hnd2 hxc
  rw [show ([a, b] ++ [c] : List Nat) = [a, b, c] from rfl] at hc3
  have hs3 : s ∉ [a, b, c] := by
    simp only [List.mem_cons, List.mem_singleton, List.not_mem_nil, or_false, not_or]
    exact ⟨Ne.symm hsa, Ne.symm hsb, Ne.symm hsc⟩
  refine ⟨chain_head hc3, chain_last hc3, ?_⟩
  exact chainB_iterFrom hc3 hs3

/-- Witness for C6 on concrete elements. -/
theorem C6_order_preservation_witness :
    (Heap.prev ⟨fun n => n, fun n => n⟩ 0 = 0 ∧ Heap.next ⟨fun n => n, fun n => n⟩ 0 = 0 ∧
      (1 : Nat) ≠ 0 ∧ (2 : Nat) ≠ 0 ∧ (3 : Nat) ≠ 0 ∧
      (1 : Nat) ≠ 2 ∧ (1 : Nat) ≠ 3 ∧ (2 : Nat) ≠ 3) ∧
    (front (push_back (push_back (push_back ⟨fun n => n, fun n => n⟩ 0 1) 0 2) 0 3) 0 = 1 ∧
      back (push_back (push_back (push_back ⟨fun n => n, fun n => n⟩ 0 1) 0 2) 0 3) 0 = 3 ∧
      iterFrom (push_back (push_back (push_back ⟨fun n => n, fun n => n⟩ 0 1) 0 2) 0 3) 0 3
        (beginIt (push_back (push_back (push_back ⟨fun n => n, fun n => n⟩ 0 1) 0 2) 0 3) 0)
        = [1, 2, 3]) :=
  ⟨⟨rfl, rfl, by decide, by decide, by decide, by decide, by decide, by decide⟩,
   C6_order_preservation ⟨fun n => n, fun n => n⟩ 0 1 2 3 rfl rfl (by decide) (by decide)
     (by decide) (by decide) (by decide) (by decide)⟩

/-- C7: Insert and erase semantics: on a well-formed ring holding
`u ++ v`, inserting a fresh element `e` at the position of the first
element of `v` (the sentinel when `v = []`, i.e. `end()`) returns an
iterator to `e` and yields the ring `u ++ e :: v`; erasing the element
`t` of a ring `w ++ t :: z` returns an iterator to the following
element (`end()` when `t` was last), leaves the ring `w ++ z` with all
other elements in order, and leaves `t` self-referencing. -/
theorem C7_insert_erase_semantics (h : Heap) (s e : Nat) (u v : List Nat)
    (hc : chainB h s (u ++ v) s = true) (hnd : (s :: (u ++ v)).Nodup)
    (he : e ∉ s :: (u ++ v)) :
    ((insert h (v.headD s) e).2 = e ∧
      chainB (insert h (v.headD s) e).1 s (u ++ e :: v) s = true) ∧
    (∀ (t : Nat) (w z : List Nat),
      chainB h s (w ++ t :: z) s = true → (s :: (w ++ t :: z)).Nodup →
      (erase h t).2 = z.headD s ∧
        chainB (erase h t).1 s (w ++ z) s = true ∧
        (erase h t).1.next t = t ∧ (erase h t).1.prev t = t) := by
  constructor
  · have hcut := (chain_cut h s u v s).mp hc
    have hprevpos : h.prev (v.headD s) = u.getLastD s := chain_last hcut.1
    have hins : (insert h (v.headD s) e).1 = link h e (u.getLastD s) (v.headD s) := by
      show link h e (h.prev (v.headD s)) (v.headD s) = _
      rw [hprevpos]
    refine ⟨rfl, ?_⟩
    rw [hins]
    exact link_ring hc hnd he
  · intro t w z hct hndt
    have hsplit := ((chain_split h t s z) w s).mp hct
    have hnext_t : h.next t = z.headD s := chain_head hsplit.2
    have hprev_hd : h.prev (z.headD s) = t := chain_prev_headD hsplit.2
    have herase1 : (erase h t).1 = unlink h t := by
      show unlink h (h.prev (h.next t)) = unlink h t
      rw [hnext_t, hprev_hd]
    have herase2 : (erase h t).2 = z.headD s := hnext_t
    obtain ⟨hcc, hnn, hpp⟩ := unlink_ring hct hndt
    rw [herase1]
    exact ⟨herase2, hcc, hnn, hpp⟩

/-- Witness for C7 on the ring `[1, 2]` with sentinel `0`. -/
theorem C7_insert_erase_semantics_witness :
    (chainB ⟨fun n => if n = 0 then 1 else if n = 1 then 2 else 0,
        fun n => if n = 0 then 2 else if n = 2 then 1 else 0⟩ 0 ([1] ++ [2]) 0 = true ∧
      (0 :: ([1] ++ [2]) : List Nat).Nodup ∧ (5 : Nat) ∉ (0 :: ([1] ++ [2]) : List Nat)) ∧
    ((insert ⟨fun n => if n = 0 then 1 else if n = 1 then 2 else 0,
        fun n => if n = 0 then 2 else if n = 2 then 1 else 0⟩ 2 5).2 = 5 ∧
      chainB (insert ⟨fun n => if n = 0 then 1 else if n = 1 then 2 else 0,
        fun n => if n = 0 then 2 else if n = 2 then 1 else 0⟩ 2 5).1 0 ([1] ++ 5 :: [2]) 0
        = true) ∧
    ((erase ⟨fun n => if n = 0 then 1 else if n = 1 then 2 else 0,
        fun n => if n = 0 then 2 else if n = 2 then 1 else 0⟩ 1).2 = 2 ∧
      chainB (erase ⟨fun n => if n = 0 then 1 else if n = 1 then 2 else 0,
        fun n => if n = 0 then 2 else if n = 2 then 1 else 0⟩ 1).1 0 ([] ++ [2]) 0 = true ∧
      (erase ⟨fun n => if n = 0 then 1 else if n = 1 then 2 else 0,
        fun n => if n = 0 then 2 else if n = 2 then 1 else 0⟩ 1).1.next 1 = 1 ∧
      (erase ⟨fun n => if n = 0 then 1 else if n = 1 then 2 else 0,
        fun n => if n = 0 then 2 else if n = 2 then 1 else 0⟩ 1).1.prev 1 = 1) :=
  ⟨⟨by decide, by decide, by decide⟩,
   (C7_insert_erase_semantics ⟨fun n => if n = 0 then 1 else if n = 1 then 2 else 0,
      fun n => if n = 0 then 2 else if n = 2 then 1 else 0⟩ 0 5 [1] [2]
      (by decide) (by decide) (by decide)).1,
   (C7_insert_erase_semantics ⟨fun n => if n = 0 then 1 else if n = 1 then 2 else 0,
      fun n => if n = 0 then 2 else if n = 2 then 1 else 0⟩ 0 5 [1] [2]
      (by decide) (by decide) (by decide)).2 1 [] [2] (by decide) (by decide)⟩

/-- C8: Unlink idempotence: unlinking a node in the default
self-referencing state is a no-op leaving the whole heap unchanged, and
unlinking any node twice leaves the same state as unlinking it once. -/
theorem C8_unlink_idempotent :
    (∀ (h : Heap) (t : Nat), h.prev t = t → h.next t = t → unlink h t = h) ∧
      (∀ (h : Heap) (t : Nat), unlink (unlink h t) t = unlink h t) := by
  constructor
  · intro h t hp hn
    exact unlink_self_noop hp hn
  · intro h t
    exact unlink_self_noop (unlink_prev_self h t) (unlink_next_self h t)

/-- Witness for C8 on a concrete self-referencing node. -/
theorem C8_unlink_idempotent_witness :
    (Heap.prev ⟨fun n => n, fun n => n⟩ 4 = 4 ∧ Heap.next ⟨fun n => n, fun n => n⟩ 4 = 4) ∧
      unlink ⟨fun n => n, fun n => n⟩ 4 = ⟨fun n => n, fun n => n⟩ ∧
      unlink (unlink ⟨fun n => 9, fun n => 9⟩ 4) 4 = unlink ⟨fun n => 9, fun n => 9⟩ 4 :=
  ⟨⟨rfl, rfl⟩, C8_unlink_idempotent.1 ⟨fun n => n, fun n => n⟩ 4 rfl rfl,
   C8_unlink_idempotent.2 ⟨fun n => 9, fun n => 9⟩ 4⟩

/-- C9: Splice is independent of its source-list argument: two splice
calls differing only in the source-list parameter produce identical
heaps, because the parameter is never read. -/
theorem C9_splice_source_independent
    (h : Heap) (pos s1 s2 first lst : Nat) :
    splice h pos s1 first lst = splice h pos s2 first lst := rfl

/-- C10: Self-move-assignment empties the list: `l = std::move(l)` is
exactly `clear()`, leaving the sentinel self-referencing so the list is
empty and no former element is reachable from it. -/
theorem C10_self_move_empties (h : Heap) (s : Nat) :
    moveAssign h s s = clear h s ∧ emptyB (moveAssign h s s) s = true ∧
      (moveAssign h s s).next s = s := by
  have hms := moveAssign_self h s
  refine ⟨hms, ?_, ?_⟩
  · show ((moveAssign h s s).prev s == s) = true
    rw [hms, clear_eq]
    show (upd h.prev s s s == s) = true
    rw [upd_same]
    exact beq_self_eq_true s
  · rw [hms, clear_eq]
    show upd h.next s s s = s
    exact upd_same _ s s

end Intrusive
